import Mathlib

set_option maxHeartbeats 1000000

/-!  A shallow embedding of the legion single-symbol limit order book
(src/src/orderbook.rs together with models.rs, arena.rs, rejectmessages.rs),
with proofs of the behavioural properties stated in its specification.

Machine integers (`u64`) are modelled as `Nat`; all arithmetic performed by the
engine is overflow-free except for the `u64::MAX` sentinel of an empty ask
side, introduced as `U64MAX` below.  `BTreeMap<Price, Vec<OrderId>>` is
modelled as an association list sorted strictly by price, `HashMap` (the order
arena) as an association list with distinct keys, and the serial `&mut self`
methods as explicit state passing `OrderBook → ... → OrderBook`.  -/

def U64MAX : Nat := 18446744073709551615

/-- `Side` (src/src/models.rs): the side of the book an order belongs to. -/
inductive Side where
  | Bid : Side
  | Ask : Side
deriving DecidableEq

/-- `impl Not for Side` (src/src/models.rs): `!Bid = Ask`, `!Ask = Bid`. -/
def Side.negate : Side → Side
  | Side.Bid => Side.Ask
  | Side.Ask => Side.Bid

/-- `LimitOrder` (src/src/models.rs): the mutable record of a resting order. -/
structure LimitOrder where
  user_id : Nat
  id : Nat
  qty : Nat
  price : Nat
deriving DecidableEq

/-- `FillMetadata` (src/src/models.rs / orderbook.rs): `order_1` is the taker,
`order_2` the maker, following the field names used by orderbook.rs. -/
structure FillMetadata where
  order_1 : Nat
  order_2 : Nat
  qty : Nat
  price : Nat
  taker_side : Side
  total_fill : Bool
deriving DecidableEq

/-- `OrderType` (src/src/models.rs): the five command variants. -/
inductive OrderType where
  | Market (id : Nat) (user_id : Nat) (side : Side) (qty : Nat)
  | Limit (id : Nat) (user_id : Nat) (side : Side) (qty : Nat) (price : Nat)
  | IOC (id : Nat) (user_id : Nat) (side : Side) (qty : Nat) (price : Nat)
  | FOK (id : Nat) (user_id : Nat) (side : Side) (qty : Nat) (price : Nat)
  | Cancel (id : Nat)
deriving DecidableEq

/-- `OrderEvent` (src/src/models.rs, with the `Canceled` spelling actually
produced by orderbook.rs): the result of executing a command. -/
inductive OrderEvent where
  | Rejected (id : Nat) (message : String)
  | Open (id : Nat)
  | Canceled (id : Nat)
  | PartiallyFilled (id : Nat) (filled_qty : Nat) (fills : List FillMetadata)
  | Filled (id : Nat) (filled_qty : Nat) (fills : List FillMetadata)
deriving DecidableEq

/-- `Trade` (src/src/models.rs).  Rust stores `avg_price : f64 =
avg_price_num / total_qty`; the embedding keeps the integral numerator
`Σ fill.price * fill.qty`, of which the floating value is a function. -/
structure Trade where
  total_qty : Nat
  avg_price_num : Nat
  last_price : Nat
  last_qty : Nat
deriving DecidableEq

/-- src/src/rejectmessages.rs -/
def INVALID_ORDER_NUMBER : String := "INVALID_ORDER_NUMBER"

/-- src/src/rejectmessages.rs -/
def LIQUIDITY_NOT_AVAILABLE : String := "LIQUIDITY_NOT_AVAILABLE"

/-- `OrderType::get_id` (src/src/models.rs). -/
def OrderType.get_id : OrderType → Nat
  | OrderType.Market id _ _ _ => id
  | OrderType.Limit id _ _ _ _ => id
  | OrderType.Cancel id => id
  | OrderType.IOC id _ _ _ _ => id
  | OrderType.FOK id _ _ _ _ => id

/-- `OrderType::get_type` (src/src/models.rs). -/
def OrderType.get_type : OrderType → String
  | OrderType.Market _ _ _ _ => "market"
  | OrderType.Limit _ _ _ _ _ => "limit"
  | OrderType.Cancel _ => "cancel"
  | OrderType.IOC _ _ _ _ _ => "ioc"
  | OrderType.FOK _ _ _ _ _ => "fok"

/-- `OrderArena` (src/src/arena.rs): `HashMap<OrderId, LimitOrder>` as an
association list (keys are distinct in every reachable state). -/
abbrev OrderArena := List (Nat × LimitOrder)

/-- `OrderArena::get`. -/
def OrderArena.get : OrderArena → Nat → Option LimitOrder
  | [], _ => none
  | (k, v) :: rest, id => if k = id then some v else OrderArena.get rest id

/-- `Index for OrderArena` (`arena[id]`, which unwraps; the default is never
reached in a reachable state, where every indexed id is present). -/
def OrderArena.getPanic (a : OrderArena) (id : Nat) : LimitOrder :=
  (OrderArena.get a id).getD { user_id := 0, id := 0, qty := 0, price := 0 }

/-- `OrderArena::insert` as invoked by orderbook.rs
(`self.arena.insert(id, user_id, price, remaining_qty)`), storing a
`LimitOrder` under its id, replacing any previous entry with that key. -/
def OrderArena.insert : OrderArena → Nat → Nat → Nat → Nat → OrderArena
  | [], id, user_id, price, qty =>
    [(id, { user_id := user_id, id := id, qty := qty, price := price })]
  | (k, v) :: rest, id, user_id, price, qty =>
    if k = id then (id, { user_id := user_id, id := id, qty := qty, price := price }) :: rest
    else (k, v) :: OrderArena.insert rest id user_id price qty

/-- `OrderArena::delete`: remove the entry with the given key, if present. -/
def OrderArena.delete : OrderArena → Nat → OrderArena
  | [], _ => []
  | (k, v) :: rest, id => if k = id then rest else (k, v) :: OrderArena.delete rest id

/-- `IndexMut for OrderArena` as used by `finalize_execution`
(`self.arena[maker_id].qty -= qty`): decrement the quantity stored at a key. -/
def OrderArena.decQty : OrderArena → Nat → Nat → OrderArena
  | [], _, _ => []
  | (k, v) :: rest, id, dq =>
    if k = id then (k, { v with qty := v.qty - dq }) :: rest
    else (k, v) :: OrderArena.decQty rest id dq

/-- One side of the book: `BTreeMap<Price, Vec<OrderId>>` as an association
list whose keys are kept strictly ascending by `SideBook.entryUpdate`. -/
abbrev SideBook := List (Nat × List Nat)

/-- `levels.entry(price).or_insert(empty)` followed by an in-place update of
that queue: apply `f` to the queue stored at `p`, inserting `f []` at the
sorted position when the key is absent (a `BTreeMap` keeps keys sorted). -/
def SideBook.entryUpdate : SideBook → Nat → (List Nat → List Nat) → SideBook
  | [], p, f => [(p, f [])]
  | (k, q) :: rest, p, f =>
    if p = k then (k, f q) :: rest
    else if p < k then (p, f []) :: (k, q) :: rest
    else (k, q) :: SideBook.entryUpdate rest p f

/-- `levels.get_mut(&price)` followed by an in-place update: apply `f` to the
queue stored at `p` only when the key is present. -/
def SideBook.updateExisting : SideBook → Nat → (List Nat → List Nat) → SideBook
  | [], _, _ => []
  | (k, q) :: rest, p, f =>
    if k = p then (k, f q) :: rest else (k, q) :: SideBook.updateExisting rest p f

/-- The loop of `slice::binary_search` (used by `finalize_execution` on a
price-level queue; ids within a queue are strictly ascending in every
reachable state, which makes the search exact).  `some i` models `Ok(i)`,
`none` models `Err(_)` (the insertion point is unused by the source).  The
fuel argument only serves termination; `xs.length + 1` is always enough. -/
def bsLoop (xs : List Nat) (t : Nat) : Nat → Nat → Nat → Option Nat
  | 0, _, _ => none
  | fuel + 1, left, right =>
    if left < right then
      let mid := left + (right - left) / 2
      let v := xs.getD mid 0
      if v < t then bsLoop xs t fuel (mid + 1) right
      else if t < v then bsLoop xs t fuel left mid
      else some mid
    else none

/-- `entry.binary_search(&maker_id)` (src/src/orderbook.rs line 303). -/
def binarySearch (xs : List Nat) (t : Nat) : Option Nat :=
  bsLoop xs t (xs.length + 1) 0 xs.length

/-- `BookLevel` (src/src/models.rs). -/
structure BookLevel where
  price : Nat
  qty : Nat
  orders : List LimitOrder
deriving DecidableEq

/-- `BookDepth` (src/src/models.rs). -/
structure BookDepth where
  levels : Nat
  asks : List BookLevel
  bids : List BookLevel
deriving DecidableEq

/-- `OrderBook` (src/src/orderbook.rs).  The capacity hints
(`arena_capacity`, `default_queue_capacity`) only pre-allocate memory and
carry no semantics, so they are not part of the model state. -/
structure OrderBook where
  last_processed_order_id : Nat
  last_trade : Option Trade
  traded_volume : Nat
  min_ask : Nat
  max_bid : Nat
  asks : SideBook
  bids : SideBook
  arena : OrderArena
  track_stats : Bool
deriving DecidableEq

/-- `OrderBook::new` (src/src/orderbook.rs lines 52-69). -/
def OrderBook.new (track_stats : Bool) : OrderBook :=
  { last_processed_order_id := 0
    last_trade := none
    traded_volume := 0
    min_ask := U64MAX
    max_bid := 0
    asks := []
    bids := []
    arena := []
    track_stats := track_stats }

/-- The value recomputed by `update_min_ask` (src/src/orderbook.rs lines
471-474): the first price, in ascending order, whose queue is non-empty,
defaulting to `u64::MAX`. -/
def computedMinAsk (asks : SideBook) : Nat :=
  ((List.find? (fun pq => !List.isEmpty pq.2) asks).map Prod.fst).getD U64MAX

/-- The value recomputed by `update_max_bid` (src/src/orderbook.rs lines
476-480): the first price, in descending order, whose queue is non-empty,
defaulting to `0`. -/
def computedMaxBid (bids : SideBook) : Nat :=
  ((List.find? (fun pq => !List.isEmpty pq.2) (List.reverse bids)).map Prod.fst).getD 0

/-- `OrderBook::update_min_ask`. -/
def OrderBook.update_min_ask (b : OrderBook) : OrderBook :=
  { b with min_ask := computedMinAsk b.asks }

/-- `OrderBook::update_max_bid`. -/
def OrderBook.update_max_bid (b : OrderBook) : OrderBook :=
  { b with max_bid := computedMaxBid b.bids }

/-- `OrderBook::simulate_queue_fills` (src/src/orderbook.rs lines 482-527):
walk a price-level queue head first, skipping quantity-zero entries, emitting
one fill per maker touched, until `remaining_qty` is exhausted.  Returns the
emitted fills (the Rust code pushes them onto `&mut fills`) and the filled
quantity. -/
def OrderBook.simulate_queue_fills (arena : OrderArena) (opposite_orders : List Nat)
    (remaining_qty : Nat) (id : Nat) (side : Side) : List FillMetadata × Nat :=
  match opposite_orders with
  | [] => ([], 0)
  | head_order_id :: rest =>
    if remaining_qty = 0 then ([], 0)
    else
      let head_order := OrderArena.getPanic arena head_order_id
      if head_order.qty = 0 then
        OrderBook.simulate_queue_fills arena rest remaining_qty id side
      else if head_order.qty ≤ remaining_qty then
        let res := OrderBook.simulate_queue_fills arena rest (remaining_qty - head_order.qty) id side
        ({ order_1 := id, order_2 := head_order.id, qty := head_order.qty,
           price := head_order.price, taker_side := side, total_fill := true } :: res.1,
         head_order.qty + res.2)
      else
        ([{ order_1 := id, order_2 := head_order.id, qty := remaining_qty,
            price := head_order.price, taker_side := side, total_fill := false }],
         remaining_qty)

/-- The level walk shared by `match_with_asks` and `match_with_bids`
(src/src/orderbook.rs lines 385-469): traverse `levels` in the order given,
skipping empty queues, stopping at the first level whose price satisfies the
break test `brk` (the limit-price check) or once nothing remains to fill. -/
def OrderBook.matchLoop (arena : OrderArena) (levels : SideBook) (brk : Nat → Bool)
    (id : Nat) (remaining : Nat) (side : Side) : List FillMetadata × Nat :=
  match levels with
  | [] => ([], remaining)
  | (price, queue) :: rest =>
    if List.isEmpty queue then OrderBook.matchLoop arena rest brk id remaining side
    else if brk price then ([], remaining)
    else if remaining = 0 then ([], remaining)
    else
      let sq := OrderBook.simulate_queue_fills arena queue remaining id side
      let res := OrderBook.matchLoop arena rest brk id (remaining - sq.2) side
      (sq.1 ++ res.1, res.2)

/-- `OrderBook::match_with_asks` (src/src/orderbook.rs lines 385-426): the ask
levels ascending, breaking when `lp < ask_price`. -/
def OrderBook.match_with_asks (b : OrderBook) (id qty : Nat) (limit_price : Option Nat) :
    List FillMetadata × Nat :=
  OrderBook.matchLoop b.arena b.asks
    (fun p => match limit_price with | some lp => decide (lp < p) | none => false)
    id qty Side.Bid

/-- `OrderBook::match_with_bids` (src/src/orderbook.rs lines 428-469): the bid
levels in reverse (descending) order, breaking when `lp > bid_price`. -/
def OrderBook.match_with_bids (b : OrderBook) (id qty : Nat) (limit_price : Option Nat) :
    List FillMetadata × Nat :=
  OrderBook.matchLoop b.arena (List.reverse b.bids)
    (fun p => match limit_price with | some lp => decide (p < lp) | none => false)
    id qty Side.Ask

/-- One iteration of the `fills.iter().for_each(...)` loop in
`OrderBook::finalize_execution` (src/src/orderbook.rs lines 295-312):
on a total fill, delete the maker from its price-level queue (located by
binary search) and from the arena; on a partial fill, decrement the maker's
resting quantity. -/
def OrderBook.finalize_step (b : OrderBook) (fill : FillMetadata) : OrderBook :=
  let maker_id := fill.order_2
  let maker_side := Side.negate fill.taker_side
  let updateQ : List Nat → List Nat := fun entry =>
    if fill.total_fill then
      match binarySearch entry maker_id with
      | some index => List.eraseIdx entry index
      | none => entry
    else entry
  let b1 :=
    if maker_side = Side.Bid then
      { b with bids := SideBook.entryUpdate b.bids fill.price updateQ }
    else
      { b with asks := SideBook.entryUpdate b.asks fill.price updateQ }
  if fill.total_fill then { b1 with arena := OrderArena.delete b1.arena maker_id }
  else { b1 with arena := OrderArena.decQty b1.arena maker_id fill.qty }

/-- `OrderBook::finalize_execution` (src/src/orderbook.rs lines 295-315):
apply every fill's maker mutation, then recompute `max_bid` and `min_ask`
(the two recomputations are independent, so their order is immaterial). -/
def OrderBook.finalize_execution (b : OrderBook) (fills : List FillMetadata) : OrderBook :=
  OrderBook.update_min_ask (OrderBook.update_max_bid (List.foldl OrderBook.finalize_step b fills))

/-- `OrderBook::market` (src/src/orderbook.rs lines 317-332).  Returns the
new state together with `(fills, partial flag, filled quantity)`. -/
def OrderBook.market (b : OrderBook) (id : Nat) (side : Side) (qty : Nat) :
    OrderBook × List FillMetadata × Bool × Nat :=
  let mr := match side with
    | Side.Bid => OrderBook.match_with_asks b id qty none
    | Side.Ask => OrderBook.match_with_bids b id qty none
  let b1 := OrderBook.finalize_execution b mr.1
  (b1, mr.1, decide (0 < mr.2), qty - mr.2)

/-- `OrderBook::limit` (src/src/orderbook.rs lines 334-383): match against
the opposing side up to the limit price, finalize, and rest any residual on
the aggressor's side, improving the cached best price when applicable. -/
def OrderBook.limit (b : OrderBook) (id user_id : Nat) (side : Side) (qty price : Nat) :
    OrderBook × List FillMetadata × Bool × Nat :=
  match side with
  | Side.Bid =>
    let mr := OrderBook.match_with_asks b id qty (some price)
    let b1 := OrderBook.finalize_execution b mr.1
    if 0 < mr.2 then
      let b2 := { b1 with
                  arena := OrderArena.insert b1.arena id user_id price mr.2,
                  bids := SideBook.entryUpdate b1.bids price (fun q => q ++ [id]) }
      let b3 := if b2.max_bid < price then { b2 with max_bid := price } else b2
      (b3, mr.1, true, qty - mr.2)
    else (b1, mr.1, false, qty - mr.2)
  | Side.Ask =>
    let mr := OrderBook.match_with_bids b id qty (some price)
    let b1 := OrderBook.finalize_execution b mr.1
    if 0 < mr.2 then
      let b2 := { b1 with
                  arena := OrderArena.insert b1.arena id user_id price mr.2,
                  asks := SideBook.entryUpdate b1.asks price (fun q => q ++ [id]) }
      let b3 := if price < b2.min_ask then { b2 with min_ask := price } else b2
      (b3, mr.1, true, qty - mr.2)
    else (b1, mr.1, false, qty - mr.2)

/-- `OrderBook::cancel` (src/src/orderbook.rs lines 277-293): look the order
up in the arena, remove its id from the queues at its stored price on both
sides, recompute both best prices, and delete the arena entry. -/
def OrderBook.cancel (b : OrderBook) (id : Nat) : OrderBook :=
  let b1 :=
    match OrderArena.get b.arena id with
    | some order =>
      let ba := { b with
                  asks := SideBook.updateExisting b.asks order.price (fun q => List.erase q id) }
      { ba with bids := SideBook.updateExisting ba.bids order.price (fun q => List.erase q id) }
    | none => b
  let b2 := OrderBook.update_max_bid (OrderBook.update_min_ask b1)
  { b2 with arena := OrderArena.delete b2.arena id }

/-- The aggregate quantity of a price-level queue, as accumulated by the
`for idx in queue { qty += self.arena[*idx].qty }` loops of `depth`. -/
def levelQty (arena : OrderArena) (queue : List Nat) : Nat :=
  List.foldl (fun acc idx => acc + (OrderArena.getPanic arena idx).qty) 0 queue

/-- `OrderBook::depth` (src/src/orderbook.rs lines 128-161): both maps are
traversed with `.iter()` (ascending price order), every level whose aggregate
quantity is positive is pushed, and the `levels` argument is only echoed in
the result (the loops do not truncate). -/
def OrderBook.depth (b : OrderBook) (levels : Nat) (include_orders : Bool) : BookDepth :=
  let mk : SideBook → List BookLevel := fun m =>
    List.filterMap (fun pq =>
      let qty := levelQty b.arena pq.2
      if 0 < qty then
        some { price := pq.1, qty := qty,
               orders := if include_orders
                         then List.map (fun oid => OrderArena.getPanic b.arena oid) pq.2
                         else [] }
      else none) m
  { levels := levels, asks := mk b.asks, bids := mk b.bids }

/-- Modelled from the spec: `OrderType::IOC` is declared in src/src/models.rs
but `OrderBook::_execute` in src/src/orderbook.rs has no arm for it; the
execution body is missing from the sources.  Following spec §4.3.2/§4.3.4 and
the design note "IOC ... mirrors Limit without residual insertion": match
exactly as a limit order and finalize, but discard any residual quantity
instead of resting it. -/
def OrderBook.ioc (b : OrderBook) (id : Nat) (side : Side) (qty price : Nat) :
    OrderBook × List FillMetadata × Bool × Nat :=
  let mr := match side with
    | Side.Bid => OrderBook.match_with_asks b id qty (some price)
    | Side.Ask => OrderBook.match_with_bids b id qty (some price)
  let b1 := OrderBook.finalize_execution b mr.1
  (b1, mr.1, decide (0 < mr.2), qty - mr.2)

/-- The resting quantity available at the levels selected by `keep`, used by
the modelled FOK feasibility scan. -/
def availableLiquidity (arena : OrderArena) (levels : SideBook) (keep : Nat → Bool) : Nat :=
  List.foldl (fun acc pq => if keep pq.1 then acc + levelQty arena pq.2 else acc) 0 levels

/-- Modelled from the spec: `OrderType::FOK` is declared in src/src/models.rs
but `OrderBook::_execute` in src/src/orderbook.rs has no arm for it; the
execution body is missing from the sources.  Following spec §4.3.4: a
side-effect-free feasibility scan sums the opposing resting quantity at
prices favourable to the limit; when it falls short of `qty` the command is
rejected atomically (`none`), otherwise the order matches exactly as Limit. -/
def OrderBook.fok (b : OrderBook) (id user_id : Nat) (side : Side) (qty price : Nat) :
    OrderBook × Option (List FillMetadata × Bool × Nat) :=
  let avail := match side with
    | Side.Bid => availableLiquidity b.arena b.asks (fun p => decide (p ≤ price))
    | Side.Ask => availableLiquidity b.arena b.bids (fun p => decide (price ≤ p))
  if avail < qty then (b, none)
  else
    let r := OrderBook.limit b id user_id side qty price
    (r.1, some r.2)

/-- `OrderBook::_execute` (src/src/orderbook.rs lines 231-275) for the three
variants it implements, extended with the spec-modelled `IOC` and `FOK`
bodies (`OrderBook.ioc`, `OrderBook.fok`, see their doc comments). -/
def OrderBook._execute (b : OrderBook) (event : OrderType) : OrderEvent × OrderBook :=
  match event with
  | OrderType.Market id _ side qty =>
    let r := OrderBook.market b id side qty
    if List.isEmpty r.2.1 then (OrderEvent.Rejected id LIQUIDITY_NOT_AVAILABLE, r.1)
    else if r.2.2.1 then (OrderEvent.PartiallyFilled id r.2.2.2 r.2.1, r.1)
    else (OrderEvent.Filled id r.2.2.2 r.2.1, r.1)
  | OrderType.Limit id user_id side qty price =>
    let r := OrderBook.limit b id user_id side qty price
    if List.isEmpty r.2.1 then (OrderEvent.Open id, r.1)
    else if r.2.2.1 then (OrderEvent.PartiallyFilled id r.2.2.2 r.2.1, r.1)
    else (OrderEvent.Filled id r.2.2.2 r.2.1, r.1)
  | OrderType.IOC id _ side qty price =>
    let r := OrderBook.ioc b id side qty price
    if List.isEmpty r.2.1 then (OrderEvent.Rejected id LIQUIDITY_NOT_AVAILABLE, r.1)
    else if r.2.2.1 then (OrderEvent.PartiallyFilled id r.2.2.2 r.2.1, r.1)
    else (OrderEvent.Filled id r.2.2.2 r.2.1, r.1)
  | OrderType.FOK id user_id side qty price =>
    let r := OrderBook.fok b id user_id side qty price
    match r.2 with
    | none => (OrderEvent.Rejected id LIQUIDITY_NOT_AVAILABLE, r.1)
    | some t =>
      if List.isEmpty t.1 then (OrderEvent.Open id, r.1)
      else if t.2.1 then (OrderEvent.PartiallyFilled id t.2.2 t.1, r.1)
      else (OrderEvent.Filled id t.2.2 t.1, r.1)
  | OrderType.Cancel id =>
    (OrderEvent.Canceled id, OrderBook.cancel b id)

/-- `Σ fill.price * fill.qty` over a fill list (the numerator of the VWAP
computed by `execute` when stats tracking is on). -/
def sumFillPriceQty (fills : List FillMetadata) : Nat :=
  List.foldl (fun acc fm => acc + fm.price * fm.qty) 0 fills

/-- The stats update performed by `OrderBook::execute` (src/src/orderbook.rs
lines 187-227) on a `Filled` or `PartiallyFilled` event: accumulate traded
volume and overwrite `last_trade` from the last fill (`fills` is never empty
on these events; the default is unreachable, mirroring Rust's `unwrap`). -/
def OrderBook.recordTrade (b : OrderBook) (filled_qty : Nat) (fills : List FillMetadata) :
    OrderBook :=
  let last_fill := (List.getLast? fills).getD
    { order_1 := 0, order_2 := 0, qty := 0, price := 0, taker_side := Side.Bid, total_fill := false }
  { b with
    traded_volume := b.traded_volume + filled_qty,
    last_trade := some { total_qty := filled_qty, avg_price_num := sumFillPriceQty fills,
                         last_price := last_fill.price, last_qty := last_fill.qty } }

/-- The tail of `OrderBook::execute` after admission: run `_execute`, and if
stats tracking is enabled record the trade on (partially) filled events. -/
def OrderBook.executeTail (b : OrderBook) (event : OrderType) : OrderEvent × OrderBook :=
  let r := OrderBook._execute b event
  if !r.2.track_stats then r
  else
    match r.1 with
    | OrderEvent.Filled _ filled_qty fills => (r.1, OrderBook.recordTrade r.2 filled_qty fills)
    | OrderEvent.PartiallyFilled _ filled_qty fills => (r.1, OrderBook.recordTrade r.2 filled_qty fills)
    | _ => (r.1, r.2)

/-- `OrderBook::execute` (src/src/orderbook.rs lines 169-229): sequence
admission for non-cancel commands (`last_processed_order_id >= order_id`
rejects with `INVALID_ORDER_NUMBER`, otherwise the sequence number advances),
then dispatch. -/
def OrderBook.execute (b : OrderBook) (event : OrderType) : OrderEvent × OrderBook :=
  let order_id := OrderType.get_id event
  let order_type := OrderType.get_type event
  if order_type ≠ "cancel" then
    if order_id ≤ b.last_processed_order_id then
      (OrderEvent.Rejected order_id INVALID_ORDER_NUMBER, b)
    else
      OrderBook.executeTail { b with last_processed_order_id := order_id } event
  else OrderBook.executeTail b event

/-- Fold a command stream through `execute`, keeping the book state. -/
def applyCmds (cmds : List OrderType) (b : OrderBook) : OrderBook :=
  List.foldl (fun bk c => (OrderBook.execute bk c).2) b cmds

/-- `Σ fill.qty` over a fill list. -/
def sumQty (fills : List FillMetadata) : Nat :=
  (List.map FillMetadata.qty fills).sum

/-- The fills carried by an event (empty for events without fills). -/
def eventFills : OrderEvent → List FillMetadata
  | OrderEvent.PartiallyFilled _ _ fills => fills
  | OrderEvent.Filled _ _ fills => fills
  | _ => []

/-- The quantity requested by a command (0 for Cancel). -/
def cmdQty : OrderType → Nat
  | OrderType.Market _ _ _ qty => qty
  | OrderType.Limit _ _ _ qty _ => qty
  | OrderType.IOC _ _ _ qty _ => qty
  | OrderType.FOK _ _ _ qty _ => qty
  | OrderType.Cancel _ => 0

/-- The side book an aggressor on `side` matches against. -/
def opposingLevels (b : OrderBook) (side : Side) : SideBook :=
  match side with
  | Side.Bid => b.asks
  | Side.Ask => b.bids

/-- Association-list lookup on a side book (`BTreeMap::get`). -/
def sbGet : SideBook → Nat → Option (List Nat)
  | [], _ => none
  | (k, q) :: rest, p => if k = p then some q else sbGet rest p

/-- Remove the element located by `binarySearch`, as `finalize_execution`
does on a total fill (`entry.remove(index)`); no removal when the search
fails. -/
def eraseBS (q : List Nat) (x : Nat) : List Nat :=
  match binarySearch q x with
  | some i => List.eraseIdx q i
  | none => q

/-- The queue evolution at price `p` on maker side `ms` induced by one fill
of `finalize_execution`: a total fill at this price removes the maker found
by binary search, anything else leaves the queue alone. -/
def finLevelStep (ms : Side) (p : Nat) (q : List Nat) (f : FillMetadata) : List Nat :=
  if f.price = p ∧ Side.negate f.taker_side = ms ∧ f.total_fill = true then
    eraseBS q f.order_2
  else q

/-- The structural invariant maintained by `execute` on every reachable
book: price keys strictly ascending on both sides; queues strictly
ascending by id (arrival order); directory agreement (every queued id
resolves in the arena to an order with that id, its level's price and a
positive quantity); no id queued on both sides; arena ids bounded by the
last accepted sequence number; and the cached best prices equal to their
recomputed values. -/
structure BookInv (b : OrderBook) : Prop where
  asksSorted : List.Pairwise (fun x y => x.1 < y.1) b.asks
  bidsSorted : List.Pairwise (fun x y => x.1 < y.1) b.bids
  asksQSorted : ∀ pq ∈ b.asks, List.Pairwise (· < ·) pq.2
  bidsQSorted : ∀ pq ∈ b.bids, List.Pairwise (· < ·) pq.2
  asksDir : ∀ pq ∈ b.asks, ∀ oid ∈ pq.2, ∃ o, OrderArena.get b.arena oid = some o ∧
    o.id = oid ∧ o.price = pq.1 ∧ 0 < o.qty
  bidsDir : ∀ pq ∈ b.bids, ∀ oid ∈ pq.2, ∃ o, OrderArena.get b.arena oid = some o ∧
    o.id = oid ∧ o.price = pq.1 ∧ 0 < o.qty
  sidesDisjoint : ∀ pq ∈ b.asks, ∀ pq2 ∈ b.bids, ∀ oid ∈ pq.2, oid ∉ pq2.2
  arenaLe : ∀ e ∈ b.arena, e.1 ≤ b.last_processed_order_id
  arenaNodup : List.Pairwise (fun x y => x.1 ≠ y.1) b.arena
  minAskEq : b.min_ask = computedMinAsk b.asks
  maxBidEq : b.max_bid = computedMaxBid b.bids
  asksBounded : ∀ pq ∈ b.asks, pq.1 ≤ U64MAX
  bidsBounded : ∀ pq ∈ b.bids, pq.1 ≤ U64MAX

/-- All numeric fields of a command lie in the u64 range, as they do for
every command the Rust engine can receive. -/
def wfCmd : OrderType → Prop
  | OrderType.Market id user_id _ qty =>
    id ≤ U64MAX ∧ user_id ≤ U64MAX ∧ qty ≤ U64MAX
  | OrderType.Limit id user_id _ qty price =>
    id ≤ U64MAX ∧ user_id ≤ U64MAX ∧ qty ≤ U64MAX ∧ price ≤ U64MAX
  | OrderType.IOC id user_id _ qty price =>
    id ≤ U64MAX ∧ user_id ≤ U64MAX ∧ qty ≤ U64MAX ∧ price ≤ U64MAX
  | OrderType.FOK id user_id _ qty price =>
    id ≤ U64MAX ∧ user_id ≤ U64MAX ∧ qty ≤ U64MAX ∧ price ≤ U64MAX
  | OrderType.Cancel id => id ≤ U64MAX

/-! ## Basic preservation lemmas -/

theorem finalize_step_last (b : OrderBook) (f : FillMetadata) :
    (OrderBook.finalize_step b f).last_processed_order_id = b.last_processed_order_id := by
  simp only [OrderBook.finalize_step]
  split <;> split <;> rfl

theorem foldl_finalize_last (fills : List FillMetadata) (b : OrderBook) :
    (List.foldl OrderBook.finalize_step b fills).last_processed_order_id =
      b.last_processed_order_id := by
  induction fills generalizing b with
  | nil => rfl
  | cons f t ih => rw [List.foldl_cons, ih, finalize_step_last]

theorem finalize_execution_last (b : OrderBook) (fills : List FillMetadata) :
    (OrderBook.finalize_execution b fills).last_processed_order_id =
      b.last_processed_order_id := by
  simp only [OrderBook.finalize_execution, OrderBook.update_min_ask, OrderBook.update_max_bid]
  exact foldl_finalize_last fills b

theorem cancel_last (b : OrderBook) (id : Nat) :
    (OrderBook.cancel b id).last_processed_order_id = b.last_processed_order_id := by
  simp only [OrderBook.cancel, OrderBook.update_min_ask, OrderBook.update_max_bid]
  split <;> rfl


theorem market_book_last (b : OrderBook) (id : Nat) (side : Side) (qty : Nat) :
    (OrderBook.market b id side qty).1.last_processed_order_id =
      b.last_processed_order_id := by
  simp only [OrderBook.market]
  exact finalize_execution_last _ _

theorem limit_book_last (b : OrderBook) (id uid : Nat) (side : Side) (qty price : Nat) :
    (OrderBook.limit b id uid side qty price).1.last_processed_order_id =
      b.last_processed_order_id := by
  cases side <;>
    (simp only [OrderBook.limit]
     split
     · split <;> simp [finalize_execution_last]
     · simp [finalize_execution_last])

theorem ioc_book_last (b : OrderBook) (id : Nat) (side : Side) (qty price : Nat) :
    (OrderBook.ioc b id side qty price).1.last_processed_order_id =
      b.last_processed_order_id := by
  simp only [OrderBook.ioc]
  exact finalize_execution_last _ _

theorem fok_book_last (b : OrderBook) (id uid : Nat) (side : Side) (qty price : Nat) :
    (OrderBook.fok b id uid side qty price).1.last_processed_order_id =
      b.last_processed_order_id := by
  simp only [OrderBook.fok]
  split
  · rfl
  · simp [limit_book_last]

theorem _execute_last (b : OrderBook) (e : OrderType) :
    (OrderBook._execute b e).2.last_processed_order_id = b.last_processed_order_id := by
  cases e with
  | Market id uid side qty =>
    simp only [OrderBook._execute]
    split <;> [skip; split] <;> exact market_book_last b id side qty
  | Limit id uid side qty price =>
    simp only [OrderBook._execute]
    split <;> [skip; split] <;> exact limit_book_last b id uid side qty price
  | IOC id uid side qty price =>
    simp only [OrderBook._execute]
    split <;> [skip; split] <;> exact ioc_book_last b id side qty price
  | FOK id uid side qty price =>
    simp only [OrderBook._execute]
    split <;> [skip; split <;> [skip; split]] <;> exact fok_book_last b id uid side qty price
  | Cancel id =>
    simp only [OrderBook._execute]
    exact cancel_last b id

theorem recordTrade_last (b : OrderBook) (fq : Nat) (fills : List FillMetadata) :
    (OrderBook.recordTrade b fq fills).last_processed_order_id =
      b.last_processed_order_id := rfl

theorem executeTail_last (b : OrderBook) (e : OrderType) :
    (OrderBook.executeTail b e).2.last_processed_order_id = b.last_processed_order_id := by
  simp only [OrderBook.executeTail]
  split
  · exact _execute_last b e
  · split <;> simp [recordTrade_last, _execute_last]

/-! ## Claim C1: sequence admission -/

/-- C1.  For every Market, Limit, IOC or FOK command (`get_type ≠ "cancel"`),
if the command id is at most the book's last accepted sequence number the
command returns `Rejected{id, INVALID_ORDER_NUMBER}` and the entire book state
is returned unchanged; otherwise `last_processed_order_id` becomes the
command's id.  Cancel commands bypass the check and never change
`last_processed_order_id`. -/
theorem execute_admission_control (b : OrderBook) (cmd : OrderType) :
    (OrderType.get_type cmd ≠ "cancel" →
      (OrderType.get_id cmd ≤ b.last_processed_order_id →
        OrderBook.execute b cmd =
          (OrderEvent.Rejected (OrderType.get_id cmd) INVALID_ORDER_NUMBER, b)) ∧
      (b.last_processed_order_id < OrderType.get_id cmd →
        (OrderBook.execute b cmd).2.last_processed_order_id = OrderType.get_id cmd)) ∧
    (OrderType.get_type cmd = "cancel" →
      (OrderBook.execute b cmd).2.last_processed_order_id =
        b.last_processed_order_id) := by
  constructor
  · intro hnc
    constructor
    · intro hle
      simp only [OrderBook.execute, if_pos hnc, if_pos hle]
    · intro hgt
      simp only [OrderBook.execute, if_pos hnc, if_neg (Nat.not_le_of_lt hgt)]
      exact executeTail_last _ cmd
  · intro hc
    simp only [OrderBook.execute, hc]
    simp only [ne_eq, not_true_eq_false, if_false, executeTail_last]

/-- Witness for C1: a concrete stale Limit command is rejected with the book
unchanged, a concrete fresh one advances the sequence number, and a concrete
Cancel leaves it alone. -/
theorem execute_admission_control_witness :
    OrderBook.execute (OrderBook.new false) (OrderType.Limit 0 1 Side.Bid 5 100) =
      (OrderEvent.Rejected 0 INVALID_ORDER_NUMBER, OrderBook.new false) ∧
    (OrderBook.execute (OrderBook.new false) (OrderType.Limit 3 1 Side.Bid 5 100)).2.last_processed_order_id = 3 ∧
    (OrderBook.execute (OrderBook.new false) (OrderType.Cancel 9)).2.last_processed_order_id = 0 :=
  ⟨((execute_admission_control (OrderBook.new false) (OrderType.Limit 0 1 Side.Bid 5 100)).1
      (by decide)).1 (by decide),
   ((execute_admission_control (OrderBook.new false) (OrderType.Limit 3 1 Side.Bid 5 100)).1
      (by decide)).2 (by decide),
   (execute_admission_control (OrderBook.new false) (OrderType.Cancel 9)).2 (by decide)⟩

/-! ## Claim C10: order id 0 is unusable -/

/-- C10.  A fresh `OrderBook` starts with `last_processed_order_id = 0`, and
since admission rejects any non-cancel command whose id is at most the last
sequence number, a Market/Limit/IOC/FOK command with id 0 is rejected with
`INVALID_ORDER_NUMBER` on every book state (reachable or not), leaving the
book untouched: order id 0 can never fill or rest. -/
theorem order_id_zero_unusable :
    (∀ ts : Bool, (OrderBook.new ts).last_processed_order_id = 0) ∧
    ∀ (b : OrderBook) (cmd : OrderType), OrderType.get_type cmd ≠ "cancel" →
      OrderType.get_id cmd = 0 →
      OrderBook.execute b cmd = (OrderEvent.Rejected 0 INVALID_ORDER_NUMBER, b) := by
  refine ⟨fun _ => rfl, fun b cmd hnc hid => ?_⟩
  simp only [OrderBook.execute, if_pos hnc, hid, if_pos (Nat.zero_le _)]

/-- Witness for C10: a Market command with id 0 is rejected on a book that
has already accepted orders. -/
theorem order_id_zero_unusable_witness :
    OrderBook.execute (applyCmds [OrderType.Limit 2 1 Side.Bid 5 100] (OrderBook.new false))
      (OrderType.Market 0 1 Side.Ask 5) =
      (OrderEvent.Rejected 0 INVALID_ORDER_NUMBER,
        applyCmds [OrderType.Limit 2 1 Side.Bid 5 100] (OrderBook.new false)) :=
  order_id_zero_unusable.2 _ (OrderType.Market 0 1 Side.Ask 5) (by decide) (by decide)

/-! ## Claim C3: price-time priority within a level -/

/-- C3.  If two maker orders `a` and `b` rest at the same price with `a`
ahead of `b` in the queue, then an aggressor consuming exactly one unit more
than `a`'s resting quantity produces exactly two fills in queue order: `a` is
fully filled (`total_fill = true`, `qty = a.qty`) and `b` is partially filled
by one unit — never the reverse; `simulate_queue_fills` always consumes the
queue head first. -/
theorem fifo_within_price_level (arena : OrderArena) (a b : LimitOrder)
    (agg : Nat) (side : Side)
    (hgetA : OrderArena.get arena a.id = some a)
    (hgetB : OrderArena.get arena b.id = some b)
    (hprice : b.price = a.price)
    (hqa : 0 < a.qty) (hqb : 1 < b.qty) :
    OrderBook.simulate_queue_fills arena [a.id, b.id] (a.qty + 1) agg side =
      ([{ order_1 := agg, order_2 := a.id, qty := a.qty, price := a.price,
          taker_side := side, total_fill := true },
        { order_1 := agg, order_2 := b.id, qty := 1, price := a.price,
          taker_side := side, total_fill := false }], a.qty + 1) := by
  have hA : OrderArena.getPanic arena a.id = a := by
    simp [OrderArena.getPanic, hgetA]
  have hB : OrderArena.getPanic arena b.id = b := by
    simp [OrderArena.getPanic, hgetB]
  simp only [OrderBook.simulate_queue_fills, hA, hB]
  rw [if_neg (by omega : ¬ a.qty + 1 = 0), if_neg (by omega : ¬ a.qty = 0),
    if_pos (by omega : a.qty ≤ a.qty + 1)]
  have h1 : a.qty + 1 - a.qty = 1 := by omega
  rw [h1, if_neg (by omega : ¬ (1 : Nat) = 0), if_neg (by omega : ¬ b.qty = 0),
    if_neg (by omega : ¬ b.qty ≤ 1)]
  simp [hprice]

/-- Witness for C3 at concrete orders: maker 1 (qty 3) and maker 2 (qty 5)
rest at price 7; an aggressor for 4 units fills maker 1 totally and maker 2
by one unit. -/
theorem fifo_within_price_level_witness :
    OrderBook.simulate_queue_fills
      [(1, { user_id := 1, id := 1, qty := 3, price := 7 }),
       (2, { user_id := 2, id := 2, qty := 5, price := 7 })]
      [1, 2] 4 9 Side.Ask =
      ([{ order_1 := 9, order_2 := 1, qty := 3, price := 7,
          taker_side := Side.Ask, total_fill := true },
        { order_1 := 9, order_2 := 2, qty := 1, price := 7,
          taker_side := Side.Ask, total_fill := false }], 4) :=
  fifo_within_price_level
    [(1, { user_id := 1, id := 1, qty := 3, price := 7 }),
     (2, { user_id := 2, id := 2, qty := 5, price := 7 })]
    { user_id := 1, id := 1, qty := 3, price := 7 }
    { user_id := 2, id := 2, qty := 5, price := 7 }
    9 Side.Ask (by decide) (by decide) (by decide) (by decide) (by decide)

/-! ## Claim C5: fill conservation -/

theorem sumQty_append (xs ys : List FillMetadata) :
    sumQty (xs ++ ys) = sumQty xs + sumQty ys := by
  simp [sumQty]

theorem simulate_filled_le (arena : OrderArena) (queue : List Nat) (rq id : Nat)
    (side : Side) :
    (OrderBook.simulate_queue_fills arena queue rq id side).2 ≤ rq := by
  induction queue generalizing rq with
  | nil => simp [OrderBook.simulate_queue_fills]
  | cons h t ih =>
    simp only [OrderBook.simulate_queue_fills]
    split
    · simp
    · split
      · exact ih rq
      · split
        · have := ih (rq - (OrderArena.getPanic arena h).qty)
          dsimp only
          omega
        · dsimp only
          omega

theorem simulate_sum_eq (arena : OrderArena) (queue : List Nat) (rq id : Nat)
    (side : Side) :
    sumQty (OrderBook.simulate_queue_fills arena queue rq id side).1 =
      (OrderBook.simulate_queue_fills arena queue rq id side).2 := by
  induction queue generalizing rq with
  | nil => simp [OrderBook.simulate_queue_fills, sumQty]
  | cons h t ih =>
    simp only [OrderBook.simulate_queue_fills]
    split
    · simp [sumQty]
    · split
      · exact ih rq
      · split
        · have := ih (rq - (OrderArena.getPanic arena h).qty)
          dsimp only
          simp only [sumQty, List.map_cons, List.sum_cons] at this ⊢
          omega
        · simp [sumQty]

theorem matchLoop_rem_le (arena : OrderArena) (levels : SideBook) (brk : Nat → Bool)
    (id rq : Nat) (side : Side) :
    (OrderBook.matchLoop arena levels brk id rq side).2 ≤ rq := by
  induction levels generalizing rq with
  | nil => simp [OrderBook.matchLoop]
  | cons lv rest ih =>
    simp only [OrderBook.matchLoop]
    split
    · exact ih rq
    · split
      · simp
      · split
        · simp
        · have h1 := simulate_filled_le arena lv.2 rq id side
          have h2 := ih (rq - (OrderBook.simulate_queue_fills arena lv.2 rq id side).2)
          dsimp only
          omega

theorem matchLoop_sum (arena : OrderArena) (levels : SideBook) (brk : Nat → Bool)
    (id rq : Nat) (side : Side) :
    sumQty (OrderBook.matchLoop arena levels brk id rq side).1 =
      rq - (OrderBook.matchLoop arena levels brk id rq side).2 := by
  induction levels generalizing rq with
  | nil => simp [OrderBook.matchLoop, sumQty]
  | cons lv rest ih =>
    simp only [OrderBook.matchLoop]
    split
    · exact ih rq
    · split
      · simp [sumQty]
      · split
        · simp [sumQty]
        · have h1 := simulate_filled_le arena lv.2 rq id side
          have h2 := simulate_sum_eq arena lv.2 rq id side
          have h3 := ih (rq - (OrderBook.simulate_queue_fills arena lv.2 rq id side).2)
          have h4 := matchLoop_rem_le arena rest brk id
            (rq - (OrderBook.simulate_queue_fills arena lv.2 rq id side).2) side
          dsimp only
          rw [sumQty_append]
          omega

/-- The result classification shared by the `_execute` arms: given the match
facts, the event's fills sum to at most the requested quantity, and summing
to a positive requested quantity forces a `Filled` event. -/
theorem classify_conserves (E0 : OrderEvent) (hE0 : eventFills E0 = [])
    (id qty rem : Nat) (fills : List FillMetadata) (pt : Bool)
    (hle : rem ≤ qty) (hsum : sumQty fills = qty - rem)
    (hpt : pt = true → 0 < rem) (hq : 0 < qty) :
    sumQty (eventFills (if List.isEmpty fills then E0
        else if pt then OrderEvent.PartiallyFilled id (qty - rem) fills
        else OrderEvent.Filled id (qty - rem) fills)) ≤ qty ∧
    (sumQty (eventFills (if List.isEmpty fills then E0
        else if pt then OrderEvent.PartiallyFilled id (qty - rem) fills
        else OrderEvent.Filled id (qty - rem) fills)) = qty →
      ∃ fq fs, (if List.isEmpty fills then E0
        else if pt then OrderEvent.PartiallyFilled id (qty - rem) fills
        else OrderEvent.Filled id (qty - rem) fills) = OrderEvent.Filled id fq fs) := by
  split
  · rw [hE0]
    exact ⟨by simp [sumQty], fun h => absurd h.symm (by simp [sumQty]; omega)⟩
  · split
    · rename_i hb
      refine ⟨by simp [eventFills]; omega, fun h => ?_⟩
      simp only [eventFills] at h
      have : rem = 0 := by omega
      exact absurd (hpt hb) (by omega)
    · exact ⟨by simp [eventFills]; omega, fun _ => ⟨qty - rem, fills, rfl⟩⟩

/-- The uniform shape of the `(book, fills, partial, filled_qty)` result of
`market`: there is a residual `rem ≤ qty` with `filled_qty = qty - rem`,
`Σ fills.qty = qty - rem`, and the partial flag implying `rem > 0`. -/
theorem market_shape (b : OrderBook) (id : Nat) (side : Side) (qty : Nat) :
    ∃ rem, rem ≤ qty ∧ (OrderBook.market b id side qty).2.2.2 = qty - rem ∧
      sumQty (OrderBook.market b id side qty).2.1 = qty - rem ∧
      ((OrderBook.market b id side qty).2.2.1 = true → 0 < rem) := by
  cases side <;>
    exact ⟨_, matchLoop_rem_le _ _ _ _ _ _, rfl, matchLoop_sum _ _ _ _ _ _,
      fun h => by
        simpa [OrderBook.market, OrderBook.match_with_asks, OrderBook.match_with_bids]
          using h⟩

/-- The same shape for `ioc`. -/
theorem ioc_shape (b : OrderBook) (id : Nat) (side : Side) (qty price : Nat) :
    ∃ rem, rem ≤ qty ∧ (OrderBook.ioc b id side qty price).2.2.2 = qty - rem ∧
      sumQty (OrderBook.ioc b id side qty price).2.1 = qty - rem ∧
      ((OrderBook.ioc b id side qty price).2.2.1 = true → 0 < rem) := by
  cases side <;>
    exact ⟨_, matchLoop_rem_le _ _ _ _ _ _, rfl, matchLoop_sum _ _ _ _ _ _,
      fun h => by
        simpa [OrderBook.ioc, OrderBook.match_with_asks, OrderBook.match_with_bids]
          using h⟩

/-- The same shape for `limit`. -/
theorem limit_shape (b : OrderBook) (id uid : Nat) (side : Side) (qty price : Nat) :
    ∃ rem, rem ≤ qty ∧ (OrderBook.limit b id uid side qty price).2.2.2 = qty - rem ∧
      sumQty (OrderBook.limit b id uid side qty price).2.1 = qty - rem ∧
      ((OrderBook.limit b id uid side qty price).2.2.1 = true → 0 < rem) := by
  cases side <;>
    (simp only [OrderBook.limit]
     split
     · exact ⟨_, matchLoop_rem_le _ _ _ _ _ _, rfl, matchLoop_sum _ _ _ _ _ _,
         fun _ => by assumption⟩
     · exact ⟨_, matchLoop_rem_le _ _ _ _ _ _, rfl, matchLoop_sum _ _ _ _ _ _,
         fun h => by simp at h⟩)

theorem executeTail_fst (b : OrderBook) (e : OrderType) :
    (OrderBook.executeTail b e).1 = (OrderBook._execute b e).1 := by
  simp only [OrderBook.executeTail]
  split
  · rfl
  · split <;> rfl

theorem fok_some_eq (b : OrderBook) (id uid : Nat) (side : Side) (qty price : Nat)
    (t : List FillMetadata × Bool × Nat)
    (h : (OrderBook.fok b id uid side qty price).2 = some t) :
    t = (OrderBook.limit b id uid side qty price).2 := by
  simp only [OrderBook.fok] at h
  split at h
  · simp at h
  · simpa using h.symm

/-- C5 (amended with `0 < qty`).  For every command with positive quantity,
on every book the fills of the returned event sum to at most the command's
quantity, and when the sum reaches the quantity the event is `Filled`. -/
theorem fill_conservation (b : OrderBook) (cmd : OrderType) (hq : 0 < cmdQty cmd) :
    sumQty (eventFills (OrderBook.execute b cmd).1) ≤ cmdQty cmd ∧
    (sumQty (eventFills (OrderBook.execute b cmd).1) = cmdQty cmd →
      ∃ fq fs, (OrderBook.execute b cmd).1 =
        OrderEvent.Filled (OrderType.get_id cmd) fq fs) := by
  cases cmd with
  | Cancel id => simp [cmdQty] at hq
  | Market id uid side qty =>
    simp only [cmdQty] at hq ⊢
    simp only [OrderBook.execute, OrderType.get_type, OrderType.get_id]
    rw [if_pos (show ("market" : String) ≠ "cancel" by decide)]
    split
    · refine ⟨by simp [eventFills, sumQty], fun h => ?_⟩
      simp [eventFills, sumQty] at h
      omega
    · rw [executeTail_fst]
      simp only [OrderBook._execute]
      obtain ⟨rem, hle, hfq, hsum, hpt⟩ := market_shape _ id side qty
      rw [hfq]
      simp only [apply_ite Prod.fst]
      exact classify_conserves _ (by rfl) id qty rem _ _ hle hsum hpt hq
  | Limit id uid side qty price =>
    simp only [cmdQty] at hq ⊢
    simp only [OrderBook.execute, OrderType.get_type, OrderType.get_id]
    rw [if_pos (show ("limit" : String) ≠ "cancel" by decide)]
    split
    · refine ⟨by simp [eventFills, sumQty], fun h => ?_⟩
      simp [eventFills, sumQty] at h
      omega
    · rw [executeTail_fst]
      simp only [OrderBook._execute]
      obtain ⟨rem, hle, hfq, hsum, hpt⟩ := limit_shape _ id uid side qty price
      rw [hfq]
      simp only [apply_ite Prod.fst]
      exact classify_conserves _ (by rfl) id qty rem _ _ hle hsum hpt hq
  | IOC id uid side qty price =>
    simp only [cmdQty] at hq ⊢
    simp only [OrderBook.execute, OrderType.get_type, OrderType.get_id]
    rw [if_pos (show ("ioc" : String) ≠ "cancel" by decide)]
    split
    · refine ⟨by simp [eventFills, sumQty], fun h => ?_⟩
      simp [eventFills, sumQty] at h
      omega
    · rw [executeTail_fst]
      simp only [OrderBook._execute]
      obtain ⟨rem, hle, hfq, hsum, hpt⟩ := ioc_shape _ id side qty price
      rw [hfq]
      simp only [apply_ite Prod.fst]
      exact classify_conserves _ (by rfl) id qty rem _ _ hle hsum hpt hq
  | FOK id uid side qty price =>
    simp only [cmdQty] at hq ⊢
    simp only [OrderBook.execute, OrderType.get_type, OrderType.get_id]
    rw [if_pos (show ("fok" : String) ≠ "cancel" by decide)]
    split
    · refine ⟨by simp [eventFills, sumQty], fun h => ?_⟩
      simp [eventFills, sumQty] at h
      omega
    · rw [executeTail_fst]
      simp only [OrderBook._execute]
      split
      · refine ⟨by simp [eventFills, sumQty], fun h => ?_⟩
        simp [eventFills, sumQty] at h
        omega
      · rename_i t ht
        rw [fok_some_eq _ id uid side qty price t ht]
        obtain ⟨rem, hle, hfq, hsum, hpt⟩ := limit_shape _ id uid side qty price
        rw [hfq]
        simp only [apply_ite Prod.fst]
        exact classify_conserves _ (by rfl) id qty rem _ _ hle hsum hpt hq

/-- Witness for C5: a concrete market order that exactly consumes the book
returns `Filled`, and its fills sum to the command's quantity. -/
theorem fill_conservation_witness :
    sumQty (eventFills (OrderBook.execute
      (applyCmds [OrderType.Limit 1 1 Side.Bid 5 100] (OrderBook.new false))
      (OrderType.Market 2 2 Side.Ask 5)).1) ≤ 5 ∧
    (sumQty (eventFills (OrderBook.execute
      (applyCmds [OrderType.Limit 1 1 Side.Bid 5 100] (OrderBook.new false))
      (OrderType.Market 2 2 Side.Ask 5)).1) = 5 →
      ∃ fq fs, (OrderBook.execute
        (applyCmds [OrderType.Limit 1 1 Side.Bid 5 100] (OrderBook.new false))
        (OrderType.Market 2 2 Side.Ask 5)).1 = OrderEvent.Filled 2 fq fs) :=
  fill_conservation (applyCmds [OrderType.Limit 1 1 Side.Bid 5 100] (OrderBook.new false))
    (OrderType.Market 2 2 Side.Ask 5) (by decide)

/-- Counterexample to C5 as stated: an accepted Limit command with quantity
0 generates no fills, so the fill sum equals the command quantity (both are
0), yet the returned event is `Open`, not `Filled`. -/
theorem fill_conservation_counterexample :
    sumQty (eventFills (OrderBook.execute (OrderBook.new false)
        (OrderType.Limit 1 1 Side.Bid 0 100)).1) =
      cmdQty (OrderType.Limit 1 1 Side.Bid 0 100) ∧
    (OrderBook.execute (OrderBook.new false) (OrderType.Limit 1 1 Side.Bid 0 100)).1 =
      OrderEvent.Open 1 := by
  constructor
  · rfl
  · rfl

/-! ## Claim C4: market-order liquidity rejection -/

theorem simulate_no_qty (arena : OrderArena) (queue : List Nat) (rq id : Nat) (side : Side)
    (h : ∀ oid ∈ queue, (OrderArena.getPanic arena oid).qty = 0) :
    OrderBook.simulate_queue_fills arena queue rq id side = ([], 0) := by
  induction queue with
  | nil => rfl
  | cons hd t ih =>
    simp only [OrderBook.simulate_queue_fills]
    split
    · rfl
    · rw [if_pos (h hd (List.mem_cons_self hd t))]
      exact ih fun oid ho => h oid (List.mem_cons_of_mem _ ho)

theorem matchLoop_no_qty (arena : OrderArena) (levels : SideBook) (brk : Nat → Bool)
    (id rq : Nat) (side : Side)
    (h : ∀ pq ∈ levels, ∀ oid ∈ pq.2, (OrderArena.getPanic arena oid).qty = 0) :
    OrderBook.matchLoop arena levels brk id rq side = ([], rq) := by
  induction levels with
  | nil => rfl
  | cons lv rest ih =>
    obtain ⟨p, q⟩ := lv
    simp only [OrderBook.matchLoop]
    split
    · exact ih fun pq hpq => h pq (List.mem_cons_of_mem _ hpq)
    · split
      · rfl
      · split
        · rfl
        · rw [simulate_no_qty arena q rq id side (h (p, q) (List.mem_cons_self _ _))]
          simp [ih fun pq hpq => h pq (List.mem_cons_of_mem _ hpq)]

/-- C4 (amended).  A Market command admitted by the sequence check, executed
against a book with no opposing resting quantity at any price (and whose
cached best prices agree with its side books, as they do in every reachable
state), is rejected with `LIQUIDITY_NOT_AVAILABLE` and leaves the book
unchanged except for `last_processed_order_id`, which the admission layer has
already advanced to the command's id. -/
theorem market_no_liquidity_rejected (b : OrderBook) (id uid qty : Nat) (side : Side)
    (hacc : b.last_processed_order_id < id)
    (hE3a : b.min_ask = computedMinAsk b.asks)
    (hE3b : b.max_bid = computedMaxBid b.bids)
    (hliq : ∀ pq ∈ opposingLevels b side, ∀ oid ∈ pq.2,
      (OrderArena.getPanic b.arena oid).qty = 0) :
    OrderBook.execute b (OrderType.Market id uid side qty) =
      (OrderEvent.Rejected id LIQUIDITY_NOT_AVAILABLE,
        { b with last_processed_order_id := id }) := by
  have hex : OrderBook._execute { b with last_processed_order_id := id }
      (OrderType.Market id uid side qty) =
      (OrderEvent.Rejected id LIQUIDITY_NOT_AVAILABLE,
        { b with last_processed_order_id := id }) := by
    simp only [OrderBook._execute, OrderBook.market]
    cases side with
    | Bid =>
      simp only [OrderBook.match_with_asks]
      simp only [matchLoop_no_qty b.arena b.asks (fun p => false) id qty Side.Bid hliq]
      simp [OrderBook.finalize_execution, OrderBook.update_min_ask,
        OrderBook.update_max_bid, ← hE3a, ← hE3b]
    | Ask =>
      simp only [OrderBook.match_with_bids]
      simp only [matchLoop_no_qty b.arena (List.reverse b.bids) (fun p => false) id qty Side.Ask
        (fun pq hpq => hliq pq (List.mem_reverse.mp hpq))]
      simp [OrderBook.finalize_execution, OrderBook.update_min_ask,
        OrderBook.update_max_bid, ← hE3a, ← hE3b]
  simp only [OrderBook.execute, OrderType.get_type, OrderType.get_id]
  rw [if_pos (show ("market" : String) ≠ "cancel" by decide),
    if_neg (Nat.not_le_of_lt hacc)]
  simp only [OrderBook.executeTail, hex]
  split <;> rfl

/-- Witness for C4's amended theorem at a concrete input: a market order on
the fresh book. -/
theorem market_no_liquidity_rejected_witness :
    OrderBook.execute (OrderBook.new false) (OrderType.Market 1 1 Side.Bid 5) =
      (OrderEvent.Rejected 1 LIQUIDITY_NOT_AVAILABLE,
        { OrderBook.new false with last_processed_order_id := 1 }) :=
  market_no_liquidity_rejected (OrderBook.new false) 1 1 5 Side.Bid
    (by decide) (by decide) (by decide) (by decide)

/-- Counterexample to C4 as stated: the liquidity rejection does mutate the
book — admission has already advanced `last_processed_order_id` before the
matching core runs, so the state is not untouched. -/
theorem market_no_liquidity_counterexample :
    (OrderBook.execute (OrderBook.new false) (OrderType.Market 1 1 Side.Bid 5)).1 =
      OrderEvent.Rejected 1 LIQUIDITY_NOT_AVAILABLE ∧
    (OrderBook.execute (OrderBook.new false) (OrderType.Market 1 1 Side.Bid 5)).2.last_processed_order_id = 1 ∧
    (OrderBook.new false).last_processed_order_id = 0 ∧
    (OrderBook.execute (OrderBook.new false) (OrderType.Market 1 1 Side.Bid 5)).2 ≠
      OrderBook.new false := by
  refine ⟨rfl, rfl, rfl, ?_⟩
  decide

/-! ## Claim C8: limit / cancel round trip -/

theorem limit_on_empty_rest_bid (ts : Bool) (id u q p : Nat) (hid : 0 < id) (hq : 0 < q) :
    (OrderBook.execute (OrderBook.new ts) (OrderType.Limit id u Side.Bid q p)).2 =
      { OrderBook.new ts with
        last_processed_order_id := id,
        arena := [(id, { user_id := u, id := id, qty := q, price := p })],
        bids := [(p, [id])],
        max_bid := if 0 < p then p else 0 } := by
  simp only [OrderBook.execute, OrderType.get_type, OrderType.get_id]
  rw [if_pos (show ("limit" : String) ≠ "cancel" by decide),
    if_neg (show ¬ id ≤ (OrderBook.new ts).last_processed_order_id by
      simp only [OrderBook.new]; omega)]
  simp only [OrderBook.executeTail, OrderBook._execute, OrderBook.limit,
    OrderBook.match_with_asks, OrderBook.matchLoop, OrderBook.finalize_execution,
    List.foldl_nil, OrderBook.update_min_ask, OrderBook.update_max_bid,
    computedMinAsk, computedMaxBid, List.reverse_nil, List.find?_nil,
    Option.map_none, Option.getD_none, OrderArena.insert, SideBook.entryUpdate,
    List.nil_append]
  rw [if_pos hq]
  simp only [OrderBook.new, List.reverse_nil, List.find?_nil, Option.map_none,
    Option.getD_none]
  split <;> rename_i hcond
  · split <;> rename_i hp
    · have hp2 : 0 < p := hp
      simp [hp2]
    · have hp2 : ¬ 0 < p := hp
      simp [hp2]
  · simp at hcond

theorem limit_on_empty_rest_ask (ts : Bool) (id u q p : Nat) (hid : 0 < id) (hq : 0 < q) :
    (OrderBook.execute (OrderBook.new ts) (OrderType.Limit id u Side.Ask q p)).2 =
      { OrderBook.new ts with
        last_processed_order_id := id,
        arena := [(id, { user_id := u, id := id, qty := q, price := p })],
        asks := [(p, [id])],
        min_ask := if p < U64MAX then p else U64MAX } := by
  simp only [OrderBook.execute, OrderType.get_type, OrderType.get_id]
  rw [if_pos (show ("limit" : String) ≠ "cancel" by decide),
    if_neg (show ¬ id ≤ (OrderBook.new ts).last_processed_order_id by
      simp only [OrderBook.new]; omega)]
  simp only [OrderBook.executeTail, OrderBook._execute, OrderBook.limit,
    OrderBook.match_with_bids, OrderBook.matchLoop, OrderBook.finalize_execution,
    List.foldl_nil, OrderBook.update_min_ask, OrderBook.update_max_bid,
    computedMinAsk, computedMaxBid, List.reverse_nil, List.find?_nil,
    Option.map_none, Option.getD_none, OrderArena.insert, SideBook.entryUpdate,
    List.nil_append]
  rw [if_pos hq]
  simp only [OrderBook.new, List.reverse_nil, List.find?_nil, Option.map_none,
    Option.getD_none]
  split <;> rename_i hcond
  · split <;> rename_i hp
    · have hp2 : p < U64MAX := hp
      simp [hp2]
    · have hp2 : ¬ p < U64MAX := hp
      simp [hp2]
  · simp at hcond

/-- C8.  `Limit{id,u,s,q,p}` (with `q > 0`) on the fresh book followed
immediately by `Cancel{id}` restores the observable state of the fresh book:
empty directory, every price-level queue empty, default best prices, and a
depth snapshot identical to the fresh book's at every requested level. -/
theorem limit_cancel_roundtrip (ts : Bool) (id u q p : Nat) (s : Side) (hq : 0 < q) :
    ∀ b2, b2 = applyCmds [OrderType.Limit id u s q p, OrderType.Cancel id]
        (OrderBook.new ts) →
      b2.arena = [] ∧
      (∀ pq ∈ b2.asks, pq.2 = ([] : List Nat)) ∧
      (∀ pq ∈ b2.bids, pq.2 = ([] : List Nat)) ∧
      b2.min_ask = U64MAX ∧ b2.max_bid = 0 ∧
      (∀ L io, OrderBook.depth b2 L io = OrderBook.depth (OrderBook.new ts) L io) := by
  intro b2 hb2
  simp only [applyCmds, List.foldl] at hb2
  rcases Nat.eq_zero_or_pos id with hid | hid
  · subst hid
    have h1 : (OrderBook.execute (OrderBook.new ts) (OrderType.Limit 0 u s q p)).2 =
        OrderBook.new ts := by
      simp only [OrderBook.execute, OrderType.get_type, OrderType.get_id]
      rw [if_pos (show ("limit" : String) ≠ "cancel" by decide),
        if_pos (show (0 : Nat) ≤ (OrderBook.new ts).last_processed_order_id from Nat.zero_le _)]
    rw [h1] at hb2
    have h2 : (OrderBook.execute (OrderBook.new ts) (OrderType.Cancel 0)).2 =
        OrderBook.new ts := by
      simp only [OrderBook.execute, OrderType.get_type, OrderType.get_id]
      rw [if_neg (show ¬ ("cancel" : String) ≠ "cancel" by decide)]
      simp only [OrderBook.executeTail, OrderBook._execute, OrderBook.cancel,
        OrderArena.get, OrderArena.delete, OrderBook.update_min_ask,
        OrderBook.update_max_bid, computedMinAsk, computedMaxBid]
      simp [OrderBook.new]
    rw [h2] at hb2
    subst hb2
    refine ⟨rfl, by simp [OrderBook.new], by simp [OrderBook.new], rfl, rfl, fun L io => rfl⟩
  · have hcan : ∀ bk : OrderBook,
        bk.arena = [(id, { user_id := u, id := id, qty := q, price := p })] →
        (OrderBook.execute bk (OrderType.Cancel id)).2 =
          { bk with
            asks := SideBook.updateExisting bk.asks p (fun qu => List.erase qu id),
            bids := SideBook.updateExisting bk.bids p (fun qu => List.erase qu id),
            min_ask := computedMinAsk (SideBook.updateExisting bk.asks p
              (fun qu => List.erase qu id)),
            max_bid := computedMaxBid (SideBook.updateExisting bk.bids p
              (fun qu => List.erase qu id)),
            arena := [] } := by
      intro bk hbk
      simp only [OrderBook.execute, OrderType.get_type, OrderType.get_id]
      rw [if_neg (show ¬ ("cancel" : String) ≠ "cancel" by decide)]
      simp only [OrderBook.executeTail, OrderBook._execute, OrderBook.cancel, hbk,
        OrderArena.get, OrderArena.delete, OrderBook.update_min_ask, OrderBook.update_max_bid]
      simp
    cases s with
    | Bid =>
      rw [limit_on_empty_rest_bid ts id u q p hid hq] at hb2
      rw [hcan _ rfl] at hb2
      subst hb2
      refine ⟨rfl, ?_, ?_, ?_, ?_, fun L io => ?_⟩
      · intro pq hpq
        simp [OrderBook.new, SideBook.updateExisting] at hpq
      · intro pq hpq
        simp [OrderBook.new, SideBook.updateExisting, List.erase_cons_head] at hpq
        rw [hpq]
      · simp [OrderBook.new, SideBook.updateExisting, computedMinAsk]
      · simp [OrderBook.new, SideBook.updateExisting, computedMaxBid,
          List.erase_cons_head, List.find?]
      · simp [OrderBook.new, SideBook.updateExisting, OrderBook.depth, levelQty,
          List.erase_cons_head]
    | Ask =>
      rw [limit_on_empty_rest_ask ts id u q p hid hq] at hb2
      rw [hcan _ rfl] at hb2
      subst hb2
      refine ⟨rfl, ?_, ?_, ?_, ?_, fun L io => ?_⟩
      · intro pq hpq
        simp [OrderBook.new, SideBook.updateExisting, List.erase_cons_head] at hpq
        rw [hpq]
      · intro pq hpq
        simp [OrderBook.new, SideBook.updateExisting] at hpq
      · simp [OrderBook.new, SideBook.updateExisting, computedMinAsk,
          List.erase_cons_head, List.find?]
      · simp [OrderBook.new, SideBook.updateExisting, computedMaxBid, List.find?]
      · simp [OrderBook.new, SideBook.updateExisting, OrderBook.depth, levelQty,
          List.erase_cons_head]

/-- Witness for C8 at a concrete command pair. -/
theorem limit_cancel_roundtrip_witness :
    (applyCmds [OrderType.Limit 4 2 Side.Bid 6 350, OrderType.Cancel 4]
        (OrderBook.new true)).arena = [] ∧
    (∀ pq ∈ (applyCmds [OrderType.Limit 4 2 Side.Bid 6 350, OrderType.Cancel 4]
        (OrderBook.new true)).asks, pq.2 = ([] : List Nat)) ∧
    (∀ pq ∈ (applyCmds [OrderType.Limit 4 2 Side.Bid 6 350, OrderType.Cancel 4]
        (OrderBook.new true)).bids, pq.2 = ([] : List Nat)) ∧
    (applyCmds [OrderType.Limit 4 2 Side.Bid 6 350, OrderType.Cancel 4]
        (OrderBook.new true)).min_ask = U64MAX ∧
    (applyCmds [OrderType.Limit 4 2 Side.Bid 6 350, OrderType.Cancel 4]
        (OrderBook.new true)).max_bid = 0 ∧
    (∀ L io, OrderBook.depth (applyCmds [OrderType.Limit 4 2 Side.Bid 6 350,
        OrderType.Cancel 4] (OrderBook.new true)) L io =
      OrderBook.depth (OrderBook.new true) L io) :=
  limit_cancel_roundtrip true 4 2 6 350 Side.Bid (by decide) _ rfl

/-! ## Claim C6: the depth snapshot -/

/-- C6 (evaluation at the failing input).  With two resting bid levels
(prices 100 and 200) a depth request for one level returns BOTH levels, and
returns them in ascending price order: `depth` never truncates to the
requested level count and iterates bids with `.iter()` (ascending), not
descending; only the `levels` echo and the per-level aggregation behave as
documented. -/
theorem depth_ignores_levels_and_orders_bids_ascending :
    OrderBook.depth (applyCmds [OrderType.Limit 1 1 Side.Bid 5 100,
        OrderType.Limit 2 2 Side.Bid 5 200] (OrderBook.new false)) 1 false =
      { levels := 1,
        asks := [],
        bids := [{ price := 100, qty := 5, orders := [] },
                 { price := 200, qty := 5, orders := [] }] } := by decide

/-! ## Claim C9: IOC never rests -/

theorem arena_get_delete_none (a : OrderArena) (k id : Nat)
    (h : OrderArena.get a id = none) :
    OrderArena.get (OrderArena.delete a k) id = none := by
  induction a with
  | nil => rfl
  | cons e rest ih =>
    obtain ⟨ek, ev⟩ := e
    simp only [OrderArena.get] at h
    by_cases hek : ek = id
    · rw [if_pos hek] at h
      exact absurd h (by simp)
    · rw [if_neg hek] at h
      simp only [OrderArena.delete]
      by_cases hk : ek = k
      · rw [if_pos hk]
        exact h
      · rw [if_neg hk]
        simp only [OrderArena.get, if_neg hek]
        exact ih h

theorem arena_get_decQty_none (a : OrderArena) (k dq id : Nat)
    (h : OrderArena.get a id = none) :
    OrderArena.get (OrderArena.decQty a k dq) id = none := by
  induction a with
  | nil => rfl
  | cons e rest ih =>
    obtain ⟨ek, ev⟩ := e
    simp only [OrderArena.get] at h
    by_cases hek : ek = id
    · rw [if_pos hek] at h
      exact absurd h (by simp)
    · rw [if_neg hek] at h
      simp only [OrderArena.decQty]
      by_cases hk : ek = k
      · rw [if_pos hk]
        simp only [OrderArena.get, if_neg hek]
        exact h
      · rw [if_neg hk]
        simp only [OrderArena.get, if_neg hek]
        exact ih h

theorem arena_get_mem (a : OrderArena) (id : Nat) (o : LimitOrder)
    (h : OrderArena.get a id = some o) : ∃ e ∈ a, e.1 = id := by
  induction a with
  | nil => exact absurd h (by simp [OrderArena.get])
  | cons e rest ih =>
    obtain ⟨ek, ev⟩ := e
    simp only [OrderArena.get] at h
    by_cases hek : ek = id
    · exact ⟨(ek, ev), List.mem_cons_self _ _, hek⟩
    · rw [if_neg hek] at h
      obtain ⟨e2, he2, hk2⟩ := ih h
      exact ⟨e2, List.mem_cons_of_mem _ he2, hk2⟩

theorem finalize_step_arena_none (b : OrderBook) (f : FillMetadata) (id : Nat)
    (h : OrderArena.get b.arena id = none) :
    OrderArena.get (OrderBook.finalize_step b f).arena id = none := by
  simp only [OrderBook.finalize_step]
  split <;> split <;>
    first
      | exact arena_get_delete_none _ _ _ h
      | exact arena_get_decQty_none _ _ _ _ h

theorem finalize_execution_arena_none (b : OrderBook) (fills : List FillMetadata)
    (id : Nat) (h : OrderArena.get b.arena id = none) :
    OrderArena.get (OrderBook.finalize_execution b fills).arena id = none := by
  simp only [OrderBook.finalize_execution, OrderBook.update_min_ask, OrderBook.update_max_bid]
  induction fills generalizing b with
  | nil => exact h
  | cons f t ih => exact ih _ (finalize_step_arena_none b f id h)

theorem executeTail_arena (b : OrderBook) (e : OrderType) :
    (OrderBook.executeTail b e).2.arena = (OrderBook._execute b e).2.arena := by
  simp only [OrderBook.executeTail]
  split
  · rfl
  · split <;> rfl

/-- C9 (amended).  After an accepted IOC command (its id exceeds the last
accepted sequence number) executed on a book whose directory ids are all at
most that sequence number — as in every reachable state — the directory
contains no entry with the command's id: the residual is discarded, never
rested. -/
theorem ioc_never_rests (b : OrderBook) (id uid : Nat) (s : Side) (q p : Nat)
    (hids : ∀ e ∈ b.arena, e.1 ≤ b.last_processed_order_id)
    (hacc : b.last_processed_order_id < id) :
    OrderArena.get (OrderBook.execute b (OrderType.IOC id uid s q p)).2.arena id = none := by
  have hnone : OrderArena.get b.arena id = none := by
    cases hga : OrderArena.get b.arena id with
    | none => rfl
    | some o =>
      obtain ⟨e, he, hek⟩ := arena_get_mem _ _ _ hga
      have := hids e he
      omega
  simp only [OrderBook.execute, OrderType.get_type, OrderType.get_id]
  rw [if_pos (show ("ioc" : String) ≠ "cancel" by decide),
    if_neg (Nat.not_le_of_lt hacc)]
  rw [executeTail_arena]
  simp only [OrderBook._execute, OrderBook.ioc]
  split
  · exact finalize_execution_arena_none _ _ _ hnone
  · split <;> exact finalize_execution_arena_none _ _ _ hnone

/-- Witness for C9's amended theorem: an accepted IOC against a resting
maker leaves no directory entry with the IOC's id. -/
theorem ioc_never_rests_witness :
    OrderArena.get (OrderBook.execute
      (applyCmds [OrderType.Limit 1 1 Side.Bid 5 100] (OrderBook.new false))
      (OrderType.IOC 2 2 Side.Ask 9 100)).2.arena 2 = none :=
  ioc_never_rests (applyCmds [OrderType.Limit 1 1 Side.Bid 5 100] (OrderBook.new false))
    2 2 Side.Ask 9 100 (by decide) (by decide)

/-- Counterexample to C9 as stated: an IOC whose id repeats the id of an
order already resting is rejected by admission, and the directory still
contains an entry with that id after the IOC command returns. -/
theorem ioc_stale_id_counterexample :
    (OrderBook.execute
      (applyCmds [OrderType.Limit 5 1 Side.Bid 10 100] (OrderBook.new false))
      (OrderType.IOC 5 1 Side.Bid 1 100)).1 = OrderEvent.Rejected 5 INVALID_ORDER_NUMBER ∧
    OrderArena.get (OrderBook.execute
      (applyCmds [OrderType.Limit 5 1 Side.Bid 10 100] (OrderBook.new false))
      (OrderType.IOC 5 1 Side.Bid 1 100)).2.arena 5 ≠ none := by decide

/-! ## Sorted association-list toolbox for the side books -/

theorem sbGet_mem (m : SideBook) (p : Nat) (q : List Nat) (h : sbGet m p = some q) :
    (p, q) ∈ m := by
  induction m with
  | nil => simp [sbGet] at h
  | cons e rest ih =>
    obtain ⟨k, q0⟩ := e
    simp only [sbGet] at h
    by_cases hk : k = p
    · subst hk
      rw [if_pos rfl] at h
      obtain rfl : q0 = q := by simpa using h
      exact List.mem_cons_self _ _
    · rw [if_neg hk] at h
      exact List.mem_cons_of_mem _ (ih h)

theorem mem_sbGet (m : SideBook) (hs : List.Pairwise (fun x y => x.1 ≠ y.1) m)
    (p : Nat) (q : List Nat) (hmem : (p, q) ∈ m) : sbGet m p = some q := by
  induction m with
  | nil => simp at hmem
  | cons e rest ih =>
    obtain ⟨k, q0⟩ := e
    rcases List.mem_cons.mp hmem with heq | hmem2
    · obtain ⟨rfl, rfl⟩ : k = p ∧ q0 = q := by
        constructor <;> (cases heq; rfl)
      simp [sbGet]
    · have hk : k ≠ p := List.rel_of_pairwise_cons hs hmem2
      simp only [sbGet, if_neg hk]
      exact ih hs.of_cons hmem2

theorem sorted_keys_ne (m : SideBook) (hs : List.Pairwise (fun x y => x.1 < y.1) m) :
    List.Pairwise (fun x y => x.1 ≠ y.1) m :=
  hs.imp (fun h => Nat.ne_of_lt h)

theorem sbGet_none_of_lt (m : SideBook) (p : Nat) (h : ∀ e ∈ m, p < e.1) :
    sbGet m p = none := by
  induction m with
  | nil => rfl
  | cons e rest ih =>
    obtain ⟨k, q0⟩ := e
    have hk : k ≠ p := Nat.ne_of_gt (h (k, q0) (List.mem_cons_self _ _))
    simp only [sbGet, if_neg hk]
    exact ih fun e he => h e (List.mem_cons_of_mem _ he)

theorem entryUpdate_keys (m : SideBook) (p : Nat) (f : List Nat → List Nat) :
    ∀ e ∈ SideBook.entryUpdate m p f, e.1 = p ∨ e ∈ m := by
  induction m with
  | nil =>
    intro e he
    simp only [SideBook.entryUpdate, List.mem_singleton] at he
    exact Or.inl (by rw [he])
  | cons hd rest ih =>
    obtain ⟨k, q0⟩ := hd
    intro e he
    simp only [SideBook.entryUpdate] at he
    by_cases h1 : p = k
    · rw [if_pos h1] at he
      rcases List.mem_cons.mp he with rfl | hm
      · exact Or.inl h1.symm
      · exact Or.inr (List.mem_cons_of_mem _ hm)
    · rw [if_neg h1] at he
      by_cases h2 : p < k
      · rw [if_pos h2] at he
        rcases List.mem_cons.mp he with rfl | hm
        · exact Or.inl rfl
        · exact Or.inr hm
      · rw [if_neg h2] at he
        rcases List.mem_cons.mp he with rfl | hm
        · exact Or.inr (List.mem_cons_self _ _)
        · rcases ih e hm with h | h
          · exact Or.inl h
          · exact Or.inr (List.mem_cons_of_mem _ h)

theorem entryUpdate_sorted (m : SideBook) (p : Nat) (f : List Nat → List Nat)
    (hs : List.Pairwise (fun x y => x.1 < y.1) m) :
    List.Pairwise (fun x y => x.1 < y.1) (SideBook.entryUpdate m p f) := by
  induction m with
  | nil => simp [SideBook.entryUpdate]
  | cons hd rest ih =>
    obtain ⟨k, q0⟩ := hd
    simp only [SideBook.entryUpdate]
    by_cases h1 : p = k
    · rw [if_pos h1]
      exact List.Pairwise.cons (fun y hy => List.rel_of_pairwise_cons hs hy) hs.of_cons
    · rw [if_neg h1]
      by_cases h2 : p < k
      · rw [if_pos h2]
        refine List.Pairwise.cons ?_ hs
        intro y hy
        rcases List.mem_cons.mp hy with rfl | hm
        · exact h2
        · exact lt_trans h2 (List.rel_of_pairwise_cons hs hm)
      · rw [if_neg h2]
        have hkp : k < p := by omega
        refine List.Pairwise.cons ?_ (ih hs.of_cons)
        intro y hy
        rcases entryUpdate_keys rest p f y hy with h | h
        · rw [h]; exact hkp
        · exact List.rel_of_pairwise_cons hs h

theorem sbGet_entryUpdate_self (m : SideBook) (p : Nat) (f : List Nat → List Nat)
    (hs : List.Pairwise (fun x y => x.1 < y.1) m) :
    sbGet (SideBook.entryUpdate m p f) p = some (f ((sbGet m p).getD [])) := by
  induction m with
  | nil => simp [SideBook.entryUpdate, sbGet]
  | cons hd rest ih =>
    obtain ⟨k, q0⟩ := hd
    simp only [SideBook.entryUpdate]
    by_cases h1 : p = k
    · subst h1
      rw [if_pos rfl]
      simp [sbGet]
    · rw [if_neg h1]
      by_cases h2 : p < k
      · rw [if_pos h2]
        have hnone : sbGet ((k, q0) :: rest) p = none := by
          refine sbGet_none_of_lt _ _ ?_
          intro e he
          rcases List.mem_cons.mp he with rfl | hm
          · exact h2
          · exact lt_trans h2 (List.rel_of_pairwise_cons hs hm)
        rw [hnone]
        simp [sbGet]
      · rw [if_neg h2]
        have hk : k ≠ p := fun h => h1 h.symm
        simp only [sbGet, if_neg hk]
        exact ih hs.of_cons

theorem sbGet_entryUpdate_other (m : SideBook) (p : Nat) (f : List Nat → List Nat)
    (x : Nat) (hx : x ≠ p) :
    sbGet (SideBook.entryUpdate m p f) x = sbGet m x := by
  induction m with
  | nil =>
    have : p ≠ x := fun h => hx h.symm
    simp [SideBook.entryUpdate, sbGet, this]
  | cons hd rest ih =>
    obtain ⟨k, q0⟩ := hd
    simp only [SideBook.entryUpdate]
    by_cases h1 : p = k
    · subst h1
      rw [if_pos rfl]
      have : p ≠ x := fun h => hx h.symm
      simp only [sbGet, if_neg this]
    · rw [if_neg h1]
      by_cases h2 : p < k
      · rw [if_pos h2]
        have hpx : p ≠ x := fun h => hx h.symm
        simp only [sbGet, if_neg hpx]
      · rw [if_neg h2]
        simp only [sbGet]
        by_cases hk : k = x
        · rw [if_pos hk, if_pos hk]
        · rw [if_neg hk, if_neg hk]
          exact ih

/-! ## Characterizing the recomputed best prices -/

theorem prodEq {p k : Nat} {q q0 : List Nat} (h : (p, q) = (k, q0)) : p = k ∧ q = q0 := by
  cases h
  exact ⟨rfl, rfl⟩

theorem cma_le (m : SideBook) (hs : List.Pairwise (fun x y => x.1 < y.1) m)
    (p : Nat) (q : List Nat) (hmem : (p, q) ∈ m) (hne : q ≠ []) :
    computedMinAsk m ≤ p := by
  induction m with
  | nil => cases hmem
  | cons hd rest ih =>
    obtain ⟨k, q0⟩ := hd
    rcases List.mem_cons.mp hmem with heq | hmem2
    · obtain ⟨rfl, rfl⟩ := prodEq heq
      have hpos : (!List.isEmpty q) = true := by simpa [List.isEmpty_iff] using hne
      unfold computedMinAsk
      rw [@List.find?_cons_of_pos _ (fun pq => !List.isEmpty pq.2) (p, q) rest hpos]
      simp
    · by_cases h0 : (!List.isEmpty q0) = true
      · unfold computedMinAsk
        rw [@List.find?_cons_of_pos _ (fun pq => !List.isEmpty pq.2) (k, q0) rest h0]
        simpa using le_of_lt (List.rel_of_pairwise_cons hs hmem2)
      · unfold computedMinAsk
        rw [@List.find?_cons_of_neg _ (fun pq => !List.isEmpty pq.2) (k, q0) rest
          (by simpa using h0)]
        exact ih hs.of_cons hmem2

theorem cma_mem (m : SideBook) :
    computedMinAsk m = U64MAX ∨
      ∃ pq ∈ m, pq.2 ≠ [] ∧ computedMinAsk m = pq.1 := by
  unfold computedMinAsk
  cases hf : List.find? (fun pq => !List.isEmpty pq.2) m with
  | none => exact Or.inl rfl
  | some pq =>
    refine Or.inr ⟨pq, List.mem_of_find?_eq_some hf, ?_, rfl⟩
    have := List.find?_some hf
    simpa [List.isEmpty_iff] using this

theorem cmb_cons (k : Nat) (q0 : List Nat) (rest : SideBook) :
    computedMaxBid ((k, q0) :: rest) =
      match List.find? (fun pq => !List.isEmpty pq.2) (List.reverse rest) with
      | some pq => pq.1
      | none => if List.isEmpty q0 then 0 else k := by
  unfold computedMaxBid
  rw [List.reverse_cons, List.find?_append]
  cases hf : List.find? (fun pq => !List.isEmpty pq.2) (List.reverse rest) with
  | some pq => simp
  | none =>
    by_cases h0 : List.isEmpty q0
    · simp [List.find?, h0]
    · simp [List.find?, h0]

theorem cmb_of_find (m : SideBook) (pq : Nat × List Nat)
    (hf : List.find? (fun pq => !List.isEmpty pq.2) (List.reverse m) = some pq) :
    computedMaxBid m = pq.1 := by
  unfold computedMaxBid
  rw [hf]
  rfl

theorem cmb_ge (m : SideBook) (hs : List.Pairwise (fun x y => x.1 < y.1) m)
    (p : Nat) (q : List Nat) (hmem : (p, q) ∈ m) (hne : q ≠ []) :
    p ≤ computedMaxBid m := by
  induction m with
  | nil => cases hmem
  | cons hd rest ih =>
    obtain ⟨k, q0⟩ := hd
    rw [cmb_cons]
    cases hf : List.find? (fun pq => !List.isEmpty pq.2) (List.reverse rest) with
    | some pq2 =>
      rcases List.mem_cons.mp hmem with heq | hmem2
      · obtain ⟨rfl, rfl⟩ := prodEq heq
        have hpq2 : pq2 ∈ rest := List.mem_reverse.mp (List.mem_of_find?_eq_some hf)
        exact le_of_lt (List.rel_of_pairwise_cons hs hpq2)
      · have hih := ih hs.of_cons hmem2
        rw [cmb_of_find rest pq2 hf] at hih
        exact hih
    | none =>
      rcases List.mem_cons.mp hmem with heq | hmem2
      · obtain ⟨rfl, rfl⟩ := prodEq heq
        rw [if_neg (by simpa [List.isEmpty_iff] using hne)]
      · exfalso
        have := List.find?_eq_none.mp hf (p, q) (List.mem_reverse.mpr hmem2)
        simp [List.isEmpty_iff] at this
        exact hne this

theorem cmb_mem (m : SideBook) :
    computedMaxBid m = 0 ∨
      ∃ pq ∈ m, pq.2 ≠ [] ∧ computedMaxBid m = pq.1 := by
  unfold computedMaxBid
  cases hf : List.find? (fun pq => !List.isEmpty pq.2) (List.reverse m) with
  | none => exact Or.inl rfl
  | some pq =>
    refine Or.inr ⟨pq, List.mem_reverse.mp (List.mem_of_find?_eq_some hf), ?_, rfl⟩
    have := List.find?_some hf
    simpa [List.isEmpty_iff] using this

theorem cma_cons_pos (k : Nat) (q0 : List Nat) (rest : SideBook) (h : q0 ≠ []) :
    computedMinAsk ((k, q0) :: rest) = k := by
  unfold computedMinAsk
  rw [@List.find?_cons_of_pos _ (fun pq => !List.isEmpty pq.2) (k, q0) rest
    (by simpa [List.isEmpty_iff] using h)]
  rfl

theorem cma_cons_neg (k : Nat) (rest : SideBook) :
    computedMinAsk ((k, []) :: rest) = computedMinAsk rest := by
  unfold computedMinAsk
  rw [@List.find?_cons_of_neg _ (fun pq => !List.isEmpty pq.2) (k, []) rest (by simp)]

theorem cmb_cons_neg (k : Nat) (rest : SideBook) :
    computedMaxBid ((k, []) :: rest) = computedMaxBid rest := by
  rw [cmb_cons]
  cases hf : List.find? (fun pq => !List.isEmpty pq.2) (List.reverse rest) with
  | some pq => rw [cmb_of_find rest pq hf]
  | none =>
    unfold computedMaxBid
    rw [hf]
    rfl

theorem cmb_none_eq_zero (m : SideBook)
    (hf : List.find? (fun pq => !List.isEmpty pq.2) (List.reverse m) = none) :
    computedMaxBid m = 0 := by
  unfold computedMaxBid
  rw [hf]
  rfl

theorem find_ne_isSome_of_mem (l : SideBook) (pq : Nat × List Nat)
    (h : pq ∈ l) (hne : pq.2 ≠ []) :
    ∃ r, List.find? (fun x => !List.isEmpty x.2) l = some r := by
  cases hf : List.find? (fun x => !List.isEmpty x.2) l with
  | some r => exact ⟨r, rfl⟩
  | none =>
    exfalso
    have := List.find?_eq_none.mp hf pq h
    simp [List.isEmpty_iff] at this
    exact hne this

theorem mem_entryUpdate_self (m : SideBook) (p : Nat) (f : List Nat → List Nat)
    (hs : List.Pairwise (fun x y => x.1 < y.1) m) :
    (p, f ((sbGet m p).getD [])) ∈ SideBook.entryUpdate m p f :=
  sbGet_mem _ _ _ (sbGet_entryUpdate_self m p f hs)

theorem cma_entryUpdate_push (m : SideBook) (p id : Nat)
    (hs : List.Pairwise (fun x y => x.1 < y.1) m) (hp : p ≤ U64MAX)
    (hb : ∀ pq ∈ m, pq.1 ≤ U64MAX) :
    computedMinAsk (SideBook.entryUpdate m p (fun q => q ++ [id])) =
      min (computedMinAsk m) p := by
  induction m with
  | nil =>
    show computedMinAsk [(p, [] ++ [id])] = min (computedMinAsk []) p
    rw [cma_cons_pos _ _ _ (by simp)]
    have : computedMinAsk [] = U64MAX := rfl
    rw [this, Nat.min_eq_right hp]
  | cons hd rest ih =>
    obtain ⟨k, q0⟩ := hd
    simp only [SideBook.entryUpdate]
    by_cases h1 : p = k
    · subst h1
      rw [if_pos rfl, cma_cons_pos _ _ _ (by simp)]
      rcases List.eq_nil_or_concat q0 with rfl | _
      · rw [cma_cons_neg]
        have hge : p ≤ computedMinAsk rest := by
          rcases cma_mem rest with h | ⟨pq, hpq, _, heq⟩
          · rw [h]
            exact hp
          · rw [heq]
            exact le_of_lt (List.rel_of_pairwise_cons hs hpq)
        rw [Nat.min_eq_right hge]
      · rename_i hq0
        have hq0ne : q0 ≠ [] := by
          obtain ⟨l2, a, rfl⟩ := hq0
          simp
        rw [cma_cons_pos _ _ _ hq0ne, Nat.min_self]
    · rw [if_neg h1]
      by_cases h2 : p < k
      · rw [if_pos h2, cma_cons_pos _ _ _ (by simp)]
        have hlt : ∀ e ∈ (k, q0) :: rest, p < e.1 := by
          intro e he
          rcases List.mem_cons.mp he with rfl | hm
          · exact h2
          · exact lt_trans h2 (List.rel_of_pairwise_cons hs hm)
        have hge : p ≤ computedMinAsk ((k, q0) :: rest) := by
          rcases cma_mem ((k, q0) :: rest) with h | ⟨pq, hpq, _, heq⟩
          · rw [h]
            exact hp
          · rw [heq]
            exact le_of_lt (hlt pq hpq)
        rw [Nat.min_eq_right hge]
      · rw [if_neg h2]
        have hkp : k < p := by omega
        rcases List.eq_nil_or_concat q0 with rfl | hq0
        · rw [cma_cons_neg, cma_cons_neg]
          exact ih hs.of_cons (fun pq hpq => hb pq (List.mem_cons_of_mem _ hpq))
        · have hq0ne : q0 ≠ [] := by
            obtain ⟨l2, a, rfl⟩ := hq0
            simp
          rw [cma_cons_pos _ _ _ hq0ne, cma_cons_pos _ _ _ hq0ne,
            Nat.min_eq_left (le_of_lt hkp)]

theorem cmb_entryUpdate_push (m : SideBook) (p id : Nat)
    (hs : List.Pairwise (fun x y => x.1 < y.1) m) :
    computedMaxBid (SideBook.entryUpdate m p (fun q => q ++ [id])) =
      max (computedMaxBid m) p := by
  induction m with
  | nil =>
    show computedMaxBid [(p, [] ++ [id])] = max (computedMaxBid []) p
    rw [cmb_cons]
    simp [computedMaxBid]
  | cons hd rest ih =>
    obtain ⟨k, q0⟩ := hd
    simp only [SideBook.entryUpdate]
    by_cases h1 : p = k
    · subst h1
      rw [if_pos rfl, cmb_cons, cmb_cons]
      cases hf : List.find? (fun pq => !List.isEmpty pq.2) (List.reverse rest) with
      | some pq2 =>
        have hpq2 : pq2 ∈ rest := List.mem_reverse.mp (List.mem_of_find?_eq_some hf)
        have : p < pq2.1 := List.rel_of_pairwise_cons hs hpq2
        simp only []
        omega
      | none =>
        simp only []
        rcases List.eq_nil_or_concat q0 with rfl | hq0
        · simp
        · have hq0ne : q0 ≠ [] := by
            obtain ⟨l2, a, rfl⟩ := hq0
            simp
          rw [if_neg (fun h => hq0ne (List.isEmpty_iff.mp h)),
            if_neg (by simp [List.isEmpty_iff])]
          omega
    · rw [if_neg h1]
      by_cases h2 : p < k
      · rw [if_pos h2]
        rw [cmb_cons]
        cases hf : List.find? (fun pq => !List.isEmpty pq.2)
            (List.reverse ((k, q0) :: rest)) with
        | some pq2 =>
          have hpq2 : pq2 ∈ (k, q0) :: rest :=
            List.mem_reverse.mp (List.mem_of_find?_eq_some hf)
          have hlt : p < pq2.1 := by
            rcases List.mem_cons.mp hpq2 with rfl | hm
            · exact h2
            · exact lt_trans h2 (List.rel_of_pairwise_cons hs hm)
          rw [cmb_of_find _ pq2 hf]
          simp only []
          omega
        | none =>
          rw [cmb_none_eq_zero _ hf]
          simp only [List.isEmpty_iff]
          rw [if_neg (by simp)]
          omega
      · rw [if_neg h2]
        have hkp : k < p := by omega
        have hmemp : (p, ((sbGet rest p).getD []) ++ [id]) ∈
            SideBook.entryUpdate rest p (fun q => q ++ [id]) :=
          mem_entryUpdate_self rest p _ hs.of_cons
        obtain ⟨r, hr⟩ := find_ne_isSome_of_mem
          (List.reverse (SideBook.entryUpdate rest p (fun q => q ++ [id])))
          (p, ((sbGet rest p).getD []) ++ [id])
          (List.mem_reverse.mpr hmemp) (by simp)
        rw [cmb_cons, hr]
        have hLHS : r.1 = computedMaxBid (SideBook.entryUpdate rest p (fun q => q ++ [id])) :=
          (cmb_of_find _ r hr).symm
        rw [ih hs.of_cons] at hLHS
        rcases List.eq_nil_or_concat q0 with rfl | hq0
        · rw [cmb_cons_neg]
          simp only []
          omega
        · have hq0ne : q0 ≠ [] := by
            obtain ⟨l2, a, rfl⟩ := hq0
            simp
          rw [cmb_cons]
          cases hf : List.find? (fun pq => !List.isEmpty pq.2) (List.reverse rest) with
          | some pq3 =>
            rw [cmb_of_find _ pq3 hf] at hLHS
            simp only []
            omega
          | none =>
            rw [cmb_none_eq_zero _ hf] at hLHS
            rw [if_neg (fun h => hq0ne (List.isEmpty_iff.mp h))]
            simp only []
            omega

/-! ## Correctness of the binary search on sorted queues -/

theorem bsLoop_some_spec (xs : List Nat) (t : Nat) :
    ∀ (fuel left right i : Nat), right ≤ xs.length →
      bsLoop xs t fuel left right = some i →
      i < xs.length ∧ xs.getD i 0 = t := by
  intro fuel
  induction fuel with
  | zero => intro left right i _ h; simp [bsLoop] at h
  | succ fuel ih =>
    intro left right i hr h
    simp only [bsLoop] at h
    by_cases hlr : left < right
    · rw [if_pos hlr] at h
      by_cases h1 : xs.getD (left + (right - left) / 2) 0 < t
      · rw [if_pos h1] at h
        exact ih _ _ _ hr h
      · rw [if_neg h1] at h
        by_cases h2 : t < xs.getD (left + (right - left) / 2) 0
        · rw [if_pos h2] at h
          exact ih _ _ _ (by omega) h
        · rw [if_neg h2] at h
          obtain rfl : left + (right - left) / 2 = i := by simpa using h
          exact ⟨by omega, by omega⟩
    · rw [if_neg hlr] at h
      cases h

theorem pairwise_getD_lt (xs : List Nat) (hs : List.Pairwise (· < ·) xs)
    (i j : Nat) (hij : i < j) (hj : j < xs.length) :
    xs.getD i 0 < xs.getD j 0 := by
  have hi : i < xs.length := lt_trans hij hj
  rw [List.getD_eq_get _ _ hi, List.getD_eq_get _ _ hj]
  exact List.pairwise_iff_get.mp hs ⟨i, hi⟩ ⟨j, hj⟩ hij

theorem bsLoop_finds (xs : List Nat) (t : Nat) (hs : List.Pairwise (· < ·) xs)
    (i0 : Nat) (hi0 : i0 < xs.length) (ht : xs.getD i0 0 = t) :
    ∀ (fuel left right : Nat), left ≤ i0 → i0 < right → right ≤ xs.length →
      right - left ≤ fuel → ∃ i, bsLoop xs t fuel left right = some i := by
  intro fuel
  induction fuel with
  | zero => intro left right h1 h2 _ h4; omega
  | succ fuel ih =>
    intro left right h1 h2 h3 h4
    have hlr : left < right := by omega
    simp only [bsLoop, if_pos hlr]
    by_cases hv1 : xs.getD (left + (right - left) / 2) 0 < t
    · rw [if_pos hv1]
      have hmid : left + (right - left) / 2 < i0 := by
        by_contra hc
        push_neg at hc
        rcases Nat.lt_or_ge i0 (left + (right - left) / 2) with hlt | hge
        · have := pairwise_getD_lt xs hs i0 (left + (right - left) / 2) hlt (by omega)
          omega
        · have : i0 = left + (right - left) / 2 := by omega
          rw [← this, ht] at hv1
          omega
      exact ih _ _ (by omega) h2 h3 (by omega)
    · rw [if_neg hv1]
      by_cases hv2 : t < xs.getD (left + (right - left) / 2) 0
      · rw [if_pos hv2]
        have hmid : i0 < left + (right - left) / 2 := by
          by_contra hc
          push_neg at hc
          rcases Nat.lt_or_ge (left + (right - left) / 2) i0 with hlt | hge
          · have := pairwise_getD_lt xs hs (left + (right - left) / 2) i0 hlt hi0
            omega
          · have : i0 = left + (right - left) / 2 := by omega
            rw [← this, ht] at hv2
            omega
        exact ih _ _ h1 hmid (by omega) (by omega)
      · rw [if_neg hv2]
        exact ⟨_, rfl⟩

theorem binarySearch_mem (xs : List Nat) (t : Nat) (hs : List.Pairwise (· < ·) xs)
    (hmem : t ∈ xs) :
    ∃ i, binarySearch xs t = some i ∧ i < xs.length ∧ xs.getD i 0 = t := by
  obtain ⟨⟨i0, hi0⟩, hget⟩ := List.mem_iff_get.mp hmem
  have hgetD : xs.getD i0 0 = t := by
    rw [List.getD_eq_get _ _ hi0]
    exact hget
  obtain ⟨i, hi⟩ := bsLoop_finds xs t hs i0 hi0 hgetD (xs.length + 1) 0 xs.length
    (Nat.zero_le _) hi0 le_rfl (by omega)
  obtain ⟨hlt, hval⟩ := bsLoop_some_spec xs t _ _ _ _ le_rfl hi
  exact ⟨i, hi, hlt, hval⟩

theorem eraseBS_head (a : Nat) (ts : List Nat)
    (hs : List.Pairwise (· < ·) (a :: ts)) :
    eraseBS (a :: ts) a = ts := by
  obtain ⟨i, hsome, hlt, hval⟩ :=
    binarySearch_mem (a :: ts) a hs (List.mem_cons_self a ts)
  have hi0 : i = 0 := by
    by_contra hne
    have h1 : 0 < i := Nat.pos_of_ne_zero hne
    have := pairwise_getD_lt (a :: ts) hs 0 i h1 hlt
    simp only [List.getD_cons_zero] at this
    omega
  subst hi0
  simp [eraseBS, hsome, List.eraseIdx]

theorem foldl_eraseBS_take (q : List Nat) (hs : List.Pairwise (· < ·) q) (k : Nat) :
    List.foldl eraseBS q (List.take k q) = List.drop k q := by
  induction q generalizing k with
  | nil => simp
  | cons a ts ih =>
    cases k with
    | zero => simp
    | succ k =>
      rw [List.take_succ_cons, List.foldl_cons, eraseBS_head a ts hs,
        List.drop_succ_cons]
      exact ih hs.of_cons k

/-! ## Structure of the fills emitted by `simulate_queue_fills` -/

theorem simulate_fill_fields (arena : OrderArena) (q : List Nat) (rq id : Nat)
    (side : Side) (P : Nat)
    (hq : ∀ oid ∈ q, ∃ o, OrderArena.get arena oid = some o ∧ o.id = oid ∧
      o.price = P ∧ 0 < o.qty) :
    ∀ f ∈ (OrderBook.simulate_queue_fills arena q rq id side).1,
      f.order_1 = id ∧ f.taker_side = side ∧ f.price = P ∧ f.order_2 ∈ q ∧ 0 < f.qty ∧
      ∃ o, OrderArena.get arena f.order_2 = some o ∧ o.id = f.order_2 ∧ o.price = P ∧
        f.qty ≤ o.qty ∧ (f.total_fill = false → f.qty < o.qty) ∧
        (f.total_fill = true → f.qty = o.qty) := by
  induction q generalizing rq with
  | nil => intro f hf; simp [OrderBook.simulate_queue_fills] at hf
  | cons hd ts ih =>
    intro f hf
    obtain ⟨o, hg, hid, hp, hpos⟩ := hq hd (List.mem_cons_self _ _)
    have hgp : OrderArena.getPanic arena hd = o := by
      simp [OrderArena.getPanic, hg]
    simp only [OrderBook.simulate_queue_fills, hgp] at hf
    by_cases h0 : rq = 0
    · rw [if_pos h0] at hf
      simp at hf
    · rw [if_neg h0, if_neg (by omega : ¬ o.qty = 0)] at hf
      by_cases h1 : o.qty ≤ rq
      · rw [if_pos h1] at hf
        rcases List.mem_cons.mp hf with rfl | hf2
        · refine ⟨rfl, rfl, by simp [hp], by simp [hid], by simpa using hpos,
            o, by simpa [hid] using hg, by simp [hid], hp, le_rfl, by simp, fun _ => rfl⟩
        · have := ih (rq - o.qty) (fun oid ho => hq oid (List.mem_cons_of_mem _ ho)) f hf2
          obtain ⟨ha, hb, hc, hd2, he, o2, h2g, h2a, h2b, h2c, h2d, h2e⟩ := this
          exact ⟨ha, hb, hc, List.mem_cons_of_mem _ hd2, he,
            o2, h2g, h2a, h2b, h2c, h2d, h2e⟩
      · rw [if_neg h1] at hf
        rcases List.mem_singleton.mp hf with rfl
        refine ⟨rfl, rfl, by simp [hp], by simp [hid], by simpa using Nat.pos_of_ne_zero h0,
          o, by simpa [hid] using hg, by simp [hid], hp, by simp; omega,
          fun _ => by simp; omega, by simp⟩

theorem simulate_fills_struct (arena : OrderArena) (q : List Nat) (rq id : Nat)
    (side : Side) (P : Nat)
    (hq : ∀ oid ∈ q, ∃ o, OrderArena.get arena oid = some o ∧ o.id = oid ∧
      o.price = P ∧ 0 < o.qty) :
    ∃ k fillsT fillsP,
      (OrderBook.simulate_queue_fills arena q rq id side).1 = fillsT ++ fillsP ∧
      List.map FillMetadata.order_2 fillsT = List.take k q ∧ k ≤ q.length ∧
      (∀ f ∈ fillsT, f.total_fill = true) ∧
      (fillsP = [] ∨ (∃ f0, fillsP = [f0] ∧ f0.total_fill = false ∧
        f0.order_2 ∈ List.drop k q ∧
        (OrderBook.simulate_queue_fills arena q rq id side).2 = rq)) := by
  induction q generalizing rq with
  | nil => exact ⟨0, [], [], by simp [OrderBook.simulate_queue_fills], by simp, by simp,
      by simp, Or.inl rfl⟩
  | cons hd ts ih =>
    obtain ⟨o, hg, hid, hp, hpos⟩ := hq hd (List.mem_cons_self _ _)
    have hgp : OrderArena.getPanic arena hd = o := by
      simp [OrderArena.getPanic, hg]
    by_cases h0 : rq = 0
    · exact ⟨0, [], [], by simp [OrderBook.simulate_queue_fills, h0], by simp, by simp,
        by simp, Or.inl rfl⟩
    · by_cases h1 : o.qty ≤ rq
      · obtain ⟨k, fT, fP, heq, hmap, hk, htot, hdich⟩ :=
          ih (rq - o.qty) (fun oid ho => hq oid (List.mem_cons_of_mem _ ho))
        refine ⟨k + 1,
          { order_1 := id, order_2 := o.id, qty := o.qty, price := o.price,
            taker_side := side, total_fill := true } :: fT, fP, ?_, ?_, ?_, ?_, ?_⟩
        · simp only [OrderBook.simulate_queue_fills, hgp]
          rw [if_neg h0, if_neg (by omega : ¬ o.qty = 0), if_pos h1]
          simp [heq]
        · simp [hmap, hid, List.take_succ_cons]
        · simp
          omega
        · intro f hf
          rcases List.mem_cons.mp hf with rfl | hf2
          · rfl
          · exact htot f hf2
        · rcases hdich with h | ⟨f0, hf0, hfa, hfm, hfb⟩
          · exact Or.inl h
          · refine Or.inr ⟨f0, hf0, hfa, by simpa using hfm, ?_⟩
            simp only [OrderBook.simulate_queue_fills, hgp]
            rw [if_neg h0, if_neg (by omega : ¬ o.qty = 0), if_pos h1]
            simp only []
            omega
      · refine ⟨0,
          [], [{ order_1 := id, order_2 := o.id, qty := rq, price := o.price,
                 taker_side := side, total_fill := false }], ?_, by simp, by simp, by simp, ?_⟩
        · simp only [OrderBook.simulate_queue_fills, hgp]
          rw [if_neg h0, if_neg (by omega : ¬ o.qty = 0), if_neg h1]
          simp
        · refine Or.inr ⟨_, rfl, rfl, by simp [hid], ?_⟩
          simp only [OrderBook.simulate_queue_fills, hgp]
          rw [if_neg h0, if_neg (by omega : ¬ o.qty = 0), if_neg h1]

theorem simulate_total_consume (arena : OrderArena) (q : List Nat) (rq id : Nat)
    (side : Side) (P : Nat)
    (hq : ∀ oid ∈ q, ∃ o, OrderArena.get arena oid = some o ∧ o.id = oid ∧
      o.price = P ∧ 0 < o.qty)
    (hlt : (OrderBook.simulate_queue_fills arena q rq id side).2 < rq) :
    List.map FillMetadata.order_2 (OrderBook.simulate_queue_fills arena q rq id side).1 = q ∧
    ∀ f ∈ (OrderBook.simulate_queue_fills arena q rq id side).1, f.total_fill = true := by
  induction q generalizing rq with
  | nil => exact ⟨by simp [OrderBook.simulate_queue_fills], by
      intro f hf; simp [OrderBook.simulate_queue_fills] at hf⟩
  | cons hd ts ih =>
    obtain ⟨o, hg, hid, hp, hpos⟩ := hq hd (List.mem_cons_self _ _)
    have hgp : OrderArena.getPanic arena hd = o := by
      simp [OrderArena.getPanic, hg]
    by_cases h0 : rq = 0
    · rw [h0] at hlt
      omega
    · by_cases h1 : o.qty ≤ rq
      · have hrec := ih (rq - o.qty) (fun oid ho => hq oid (List.mem_cons_of_mem _ ho))
        simp only [OrderBook.simulate_queue_fills, hgp] at hlt ⊢
        rw [if_neg h0, if_neg (by omega : ¬ o.qty = 0), if_pos h1] at hlt ⊢
        simp only [] at hlt
        have hlt2 : (OrderBook.simulate_queue_fills arena ts (rq - o.qty) id side).2
            < rq - o.qty := by omega
        obtain ⟨hmap, htot⟩ := hrec hlt2
        constructor
        · simp [hmap, hid]
        · intro f hf
          rcases List.mem_cons.mp hf with rfl | hf2
          · rfl
          · exact htot f hf2
      · exfalso
        simp only [OrderBook.simulate_queue_fills, hgp] at hlt
        rw [if_neg h0, if_neg (by omega : ¬ o.qty = 0), if_neg h1] at hlt
        simp at hlt

/-! ## Per-level effect of the fills on the maker-side queues -/

theorem finLevelStep_noop_price (ms : Side) (p : Nat) (q : List Nat) (f : FillMetadata)
    (h : f.price ≠ p) : finLevelStep ms p q f = q := by
  unfold finLevelStep
  rw [if_neg (fun hc => h hc.1)]

theorem finLevelStep_noop_partial (ms : Side) (p : Nat) (q : List Nat) (f : FillMetadata)
    (h : f.total_fill = false) : finLevelStep ms p q f = q := by
  unfold finLevelStep
  rw [if_neg (fun hc => by rw [h] at hc; exact Bool.false_ne_true hc.2.2)]

theorem foldl_finLevelStep_noop (ms : Side) (p : Nat) (F : List FillMetadata)
    (q : List Nat) (h : ∀ f ∈ F, f.price ≠ p) :
    List.foldl (finLevelStep ms p) q F = q := by
  induction F generalizing q with
  | nil => rfl
  | cons f F' ih =>
    rw [List.foldl_cons, finLevelStep_noop_price ms p q f (h f (List.mem_cons_self _ _))]
    exact ih q fun f2 hf2 => h f2 (List.mem_cons_of_mem _ hf2)

theorem foldl_finLevelStep_totals (side : Side) (p : Nat) (fT : List FillMetadata)
    (q : List Nat) (k : Nat) (hs : List.Pairwise (· < ·) q)
    (hmap : List.map FillMetadata.order_2 fT = List.take k q)
    (hf : ∀ f ∈ fT, f.price = p ∧ f.taker_side = side ∧ f.total_fill = true) :
    List.foldl (finLevelStep (Side.negate side) p) q fT = List.drop k q := by
  induction fT generalizing q k with
  | nil =>
    rcases List.take_eq_nil_iff.mp hmap.symm with rfl | rfl
    · simp
    · simp
  | cons f fT' ih =>
    cases k with
    | zero => simp at hmap
    | succ k =>
      cases q with
      | nil => simp at hmap
      | cons a q' =>
        rw [List.take_succ_cons] at hmap
        obtain ⟨h1, h2⟩ : f.order_2 = a ∧ List.map FillMetadata.order_2 fT' =
            List.take k q' := by
          constructor <;> (injection hmap)
        obtain ⟨hp, hside, htot⟩ := hf f (List.mem_cons_self _ _)
        rw [List.foldl_cons]
        have hstep : finLevelStep (Side.negate side) p (a :: q') f = q' := by
          unfold finLevelStep
          rw [if_pos ⟨hp, by rw [hside], htot⟩, h1, eraseBS_head a q' hs]
        rw [hstep, List.drop_succ_cons]
        exact ih q' k hs.of_cons h2 fun f2 hf2 => hf f2 (List.mem_cons_of_mem _ hf2)

theorem matchLoop_zero (arena : OrderArena) (levels : SideBook) (brk : Nat → Bool)
    (id : Nat) (side : Side) :
    OrderBook.matchLoop arena levels brk id 0 side = ([], 0) := by
  induction levels with
  | nil => rfl
  | cons lv rest ih =>
    obtain ⟨p, q⟩ := lv
    simp only [OrderBook.matchLoop]
    split
    · exact ih
    · split
      · rfl
      · rfl

theorem matchLoop_fill_fields (arena : OrderArena) (levels : SideBook) (brk : Nat → Bool)
    (id rq : Nat) (side : Side)
    (hdir : ∀ pq ∈ levels, ∀ oid ∈ pq.2, ∃ o, OrderArena.get arena oid = some o ∧
      o.id = oid ∧ o.price = pq.1 ∧ 0 < o.qty) :
    ∀ f ∈ (OrderBook.matchLoop arena levels brk id rq side).1,
      ∃ pq ∈ levels, f.price = pq.1 ∧ f.order_2 ∈ pq.2 ∧ f.taker_side = side ∧
        0 < f.qty ∧
        ∃ o, OrderArena.get arena f.order_2 = some o ∧ o.id = f.order_2 ∧
          o.price = pq.1 ∧ f.qty ≤ o.qty ∧ (f.total_fill = false → f.qty < o.qty) ∧
          (f.total_fill = true → f.qty = o.qty) := by
  induction levels generalizing rq with
  | nil => intro f hf; simp [OrderBook.matchLoop] at hf
  | cons lv rest ih =>
    obtain ⟨p, q⟩ := lv
    intro f hf
    simp only [OrderBook.matchLoop] at hf
    split at hf
    · obtain ⟨pq, hpq, hrest⟩ := ih rq (fun pq hpq => hdir pq (List.mem_cons_of_mem _ hpq)) f hf
      exact ⟨pq, List.mem_cons_of_mem _ hpq, hrest⟩
    · split at hf
      · simp at hf
      · split at hf
        · simp at hf
        · rcases List.mem_append.mp (by simpa using hf) with hf1 | hf2
          · obtain ⟨h1, h2, h3, h4, h5, o, h6⟩ :=
              simulate_fill_fields arena q rq id side p
                (hdir (p, q) (List.mem_cons_self _ _)) f hf1
            exact ⟨(p, q), List.mem_cons_self _ _, h3, h4, h2, h5, o, h6⟩
          · obtain ⟨pq, hpq, hrest⟩ := ih _
              (fun pq hpq => hdir pq (List.mem_cons_of_mem _ hpq)) f hf2
            exact ⟨pq, List.mem_cons_of_mem _ hpq, hrest⟩

theorem matchLoop_level_drop (arena : OrderArena) (levels : SideBook) (brk : Nat → Bool)
    (id rq : Nat) (side : Side)
    (hne : List.Pairwise (fun x y => x.1 ≠ y.1) levels)
    (hdir : ∀ pq ∈ levels, ∀ oid ∈ pq.2, ∃ o, OrderArena.get arena oid = some o ∧
      o.id = oid ∧ o.price = pq.1 ∧ 0 < o.qty)
    (hqs : ∀ pq ∈ levels, List.Pairwise (· < ·) pq.2) :
    ∀ pq ∈ levels, ∃ k,
      List.foldl (finLevelStep (Side.negate side) pq.1) pq.2
        (OrderBook.matchLoop arena levels brk id rq side).1 = List.drop k pq.2 ∧
      (∀ f ∈ (OrderBook.matchLoop arena levels brk id rq side).1, f.price = pq.1 →
        f.total_fill = true → f.order_2 ∈ List.take k pq.2) ∧
      (∀ f ∈ (OrderBook.matchLoop arena levels brk id rq side).1, f.price = pq.1 →
        f.total_fill = false → f.order_2 ∈ List.drop k pq.2) := by
  induction levels generalizing rq with
  | nil => intro pq hpq; cases hpq
  | cons lv rest ih =>
    obtain ⟨p, q⟩ := lv
    intro pq hpq
    simp only [OrderBook.matchLoop]
    by_cases hq : List.isEmpty q = true
    · rw [if_pos hq]
      have hprices : ∀ f ∈ (OrderBook.matchLoop arena rest brk id rq side).1,
          f.price ≠ p := by
        intro f hf
        obtain ⟨pq2, hpq2, hfp, _⟩ := matchLoop_fill_fields arena rest brk id rq side
          (fun pq2 hpq2 => hdir pq2 (List.mem_cons_of_mem _ hpq2)) f hf
        rw [hfp]
        exact (List.rel_of_pairwise_cons hne hpq2).symm
      rcases List.mem_cons.mp hpq with rfl | hm
      · refine ⟨0, ?_, ?_, ?_⟩
        · rw [List.drop_zero]
          exact foldl_finLevelStep_noop _ _ _ _ hprices
        · intro f hf hfp _
          exact absurd hfp (hprices f hf)
        · intro f hf hfp _
          exact absurd hfp (hprices f hf)
      · exact ih rq hne.of_cons
          (fun pq2 hpq2 => hdir pq2 (List.mem_cons_of_mem _ hpq2))
          (fun pq2 hpq2 => hqs pq2 (List.mem_cons_of_mem _ hpq2)) pq hm
    · rw [if_neg hq]
      by_cases hbrk : brk p = true
      · rw [if_pos hbrk]
        refine ⟨0, rfl, ?_, ?_⟩ <;> (intro f hf; simp at hf)
      · rw [if_neg hbrk]
        by_cases hrq : rq = 0
        · rw [if_pos hrq]
          refine ⟨0, rfl, ?_, ?_⟩ <;> (intro f hf; simp at hf)
        · rw [if_neg hrq]
          have hdirq := hdir (p, q) (List.mem_cons_self _ _)
          obtain ⟨k0, fT, fP, hsplit, hmap, hk, htot, hdich⟩ :=
            simulate_fills_struct arena q rq id side p hdirq
          have hfields := simulate_fill_fields arena q rq id side p hdirq
          have hresprices : ∀ pp, (∃ e ∈ rest, pp = e.1) ∨ pp = p →
              ∀ f ∈ (OrderBook.matchLoop arena rest brk id
                (rq - (OrderBook.simulate_queue_fills arena q rq id side).2) side).1,
              f.price = pp → ∃ e ∈ rest, pp = e.1 := by
            intro pp _ f hf hfp
            obtain ⟨pq2, hpq2, hfp2, _⟩ := matchLoop_fill_fields arena rest brk id _ side
              (fun pq2 hpq2 => hdir pq2 (List.mem_cons_of_mem _ hpq2)) f hf
            exact ⟨pq2, hpq2, by rw [← hfp, hfp2]⟩
          rcases List.mem_cons.mp hpq with rfl | hm
          · -- the level being processed
            have hresne : ∀ f ∈ (OrderBook.matchLoop arena rest brk id
                (rq - (OrderBook.simulate_queue_fills arena q rq id side).2) side).1,
                f.price ≠ p := by
              intro f hf
              obtain ⟨pq2, hpq2, hfp, _⟩ := matchLoop_fill_fields arena rest brk id _ side
                (fun pq2 hpq2 => hdir pq2 (List.mem_cons_of_mem _ hpq2)) f hf
              rw [hfp]
              exact (List.rel_of_pairwise_cons hne hpq2).symm
            have hsqmem : ∀ f, f ∈ (OrderBook.simulate_queue_fills arena q rq id side).1 ++
                (OrderBook.matchLoop arena rest brk id
                  (rq - (OrderBook.simulate_queue_fills arena q rq id side).2) side).1 →
                f.price = p →
                f ∈ (OrderBook.simulate_queue_fills arena q rq id side).1 := by
              intro f hf hfp
              rcases List.mem_append.mp hf with h | h
              · exact h
              · exact absurd hfp (hresne f h)
            refine ⟨k0, ?_, ?_, ?_⟩
            · simp only []
              rw [List.foldl_append]
              rw [show List.foldl (finLevelStep (Side.negate side) p) q
                  (OrderBook.simulate_queue_fills arena q rq id side).1 =
                  List.drop k0 q from ?_]
              · exact foldl_finLevelStep_noop _ _ _ _ hresne
              · rw [hsplit, List.foldl_append]
                have hT : List.foldl (finLevelStep (Side.negate side) p) q fT =
                    List.drop k0 q := by
                  refine foldl_finLevelStep_totals side p fT q k0
                    (hqs (p, q) (List.mem_cons_self _ _)) hmap ?_
                  intro f hf
                  have hfmem : f ∈ (OrderBook.simulate_queue_fills arena q rq id side).1 := by
                    rw [hsplit]
                    exact List.mem_append.mpr (Or.inl hf)
                  obtain ⟨_, hside2, hprice2, _⟩ := hfields f hfmem
                  exact ⟨hprice2, hside2, htot f hf⟩
                rw [hT]
                rcases hdich with rfl | ⟨f0, rfl, hf0, _, _⟩
                · rfl
                · rw [List.foldl_cons, finLevelStep_noop_partial _ _ _ _ hf0]
                  rfl
            · intro f hf hfp hft
              have hf2 := hsqmem f (by simpa using hf) hfp
              rw [hsplit] at hf2
              rcases List.mem_append.mp hf2 with hT2 | hP2
              · rw [← hmap]
                exact List.mem_map_of_mem _ hT2
              · rcases hdich with rfl | ⟨f0, rfl, hf0, _, _⟩
                · cases hP2
                · rcases List.mem_singleton.mp hP2 with rfl
                  rw [hft] at hf0
                  cases hf0
            · intro f hf hfp hft
              have hf2 := hsqmem f (by simpa using hf) hfp
              rw [hsplit] at hf2
              rcases List.mem_append.mp hf2 with hT2 | hP2
              · rw [htot f hT2] at hft
                cases hft
              · rcases hdich with rfl | ⟨f0, rfl, _, hmem0, _⟩
                · cases hP2
                · rcases List.mem_singleton.mp hP2 with rfl
                  exact hmem0
          · -- a deeper level
            have hsqne : ∀ f ∈ (OrderBook.simulate_queue_fills arena q rq id side).1,
                f.price ≠ pq.1 := by
              intro f hf
              obtain ⟨_, _, hfp, _⟩ := hfields f hf
              rw [hfp]
              exact List.rel_of_pairwise_cons hne hm
            obtain ⟨k, hfold, htake, hdrop⟩ := ih _ hne.of_cons
              (fun pq2 hpq2 => hdir pq2 (List.mem_cons_of_mem _ hpq2))
              (fun pq2 hpq2 => hqs pq2 (List.mem_cons_of_mem _ hpq2)) pq hm
            refine ⟨k, ?_, ?_, ?_⟩
            · simp only []
              rw [List.foldl_append, foldl_finLevelStep_noop _ _ _ _ hsqne]
              exact hfold
            · intro f hf hfp hft
              rcases List.mem_append.mp (by simpa using hf) with h | h
              · exact absurd hfp (hsqne f h)
              · exact htake f h hfp hft
            · intro f hf hfp hft
              rcases List.mem_append.mp (by simpa using hf) with h | h
              · exact absurd hfp (hsqne f h)
              · exact hdrop f h hfp hft

theorem matchLoop_level_empty (arena : OrderArena) (levels : SideBook) (brk : Nat → Bool)
    (id rq : Nat) (side : Side)
    (hne : List.Pairwise (fun x y => x.1 ≠ y.1) levels)
    (hmono : List.Pairwise (fun x y => brk x.1 = true → brk y.1 = true) levels)
    (hdir : ∀ pq ∈ levels, ∀ oid ∈ pq.2, ∃ o, OrderArena.get arena oid = some o ∧
      o.id = oid ∧ o.price = pq.1 ∧ 0 < o.qty)
    (hqs : ∀ pq ∈ levels, List.Pairwise (· < ·) pq.2)
    (hrem : 0 < (OrderBook.matchLoop arena levels brk id rq side).2) :
    ∀ pq ∈ levels, brk pq.1 = false →
      List.foldl (finLevelStep (Side.negate side) pq.1) pq.2
        (OrderBook.matchLoop arena levels brk id rq side).1 = [] := by
  induction levels generalizing rq with
  | nil => intro pq hpq; cases hpq
  | cons lv rest ih =>
    obtain ⟨p, q⟩ := lv
    intro pq hpq hbrkpq
    simp only [OrderBook.matchLoop] at hrem ⊢
    by_cases hq : List.isEmpty q = true
    · rw [if_pos hq] at hrem ⊢
      have hq' : q = [] := List.isEmpty_iff.mp hq
      rcases List.mem_cons.mp hpq with rfl | hm
      · simp only [hq']
        refine foldl_finLevelStep_noop _ _ _ _ ?_
        intro f hf
        obtain ⟨pq2, hpq2, hfp, _⟩ := matchLoop_fill_fields arena rest brk id rq side
          (fun pq2 hpq2 => hdir pq2 (List.mem_cons_of_mem _ hpq2)) f hf
        rw [hfp]
        exact (List.rel_of_pairwise_cons hne hpq2).symm
      · exact ih rq hne.of_cons hmono.of_cons
          (fun pq2 hpq2 => hdir pq2 (List.mem_cons_of_mem _ hpq2))
          (fun pq2 hpq2 => hqs pq2 (List.mem_cons_of_mem _ hpq2)) hrem pq hm hbrkpq
    · rw [if_neg hq] at hrem ⊢
      by_cases hbrk : brk p = true
      · exfalso
        rcases List.mem_cons.mp hpq with rfl | hm
        · rw [hbrk] at hbrkpq
          cases hbrkpq
        · have : brk pq.1 = true := List.rel_of_pairwise_cons hmono hm hbrk
          rw [this] at hbrkpq
          cases hbrkpq
      · rw [if_neg hbrk] at hrem ⊢
        by_cases hrq : rq = 0
        · rw [if_pos hrq] at hrem
          simp [hrq] at hrem
        · rw [if_neg hrq] at hrem ⊢
          have hdirq := hdir (p, q) (List.mem_cons_self _ _)
          have hfields := simulate_fill_fields arena q rq id side p hdirq
          have hrem2 : 0 < (OrderBook.matchLoop arena rest brk id
              (rq - (OrderBook.simulate_queue_fills arena q rq id side).2) side).2 := by
            simpa using hrem
          have hlt : (OrderBook.simulate_queue_fills arena q rq id side).2 < rq := by
            have h1 := matchLoop_rem_le arena rest brk id
              (rq - (OrderBook.simulate_queue_fills arena q rq id side).2) side
            have h2 := simulate_filled_le arena q rq id side
            omega
          obtain ⟨hmap, htotal⟩ := simulate_total_consume arena q rq id side p hdirq hlt
          rcases List.mem_cons.mp hpq with rfl | hm
          · simp only []
            rw [List.foldl_append]
            have hrec : ∀ qq : List Nat, List.foldl (finLevelStep (Side.negate side) p) qq
                (OrderBook.matchLoop arena rest brk id
                  (rq - (OrderBook.simulate_queue_fills arena q rq id side).2) side).1 =
                qq := by
              intro qq
              refine foldl_finLevelStep_noop _ _ _ _ ?_
              intro f hf
              obtain ⟨pq2, hpq2, hfp, _⟩ := matchLoop_fill_fields arena rest brk id _ side
                (fun pq2 hpq2 => hdir pq2 (List.mem_cons_of_mem _ hpq2)) f hf
              rw [hfp]
              exact (List.rel_of_pairwise_cons hne hpq2).symm
            rw [hrec]
            have hT : List.foldl (finLevelStep (Side.negate side) p) q
                (OrderBook.simulate_queue_fills arena q rq id side).1 =
                List.drop q.length q := by
              refine foldl_finLevelStep_totals side p _ q q.length
                (hqs (p, q) (List.mem_cons_self _ _)) (by rw [hmap, List.take_length]) ?_
              intro f hf
              obtain ⟨_, hside2, hprice2, _⟩ := hfields f hf
              exact ⟨hprice2, hside2, htotal f hf⟩
            rw [hT, List.drop_length]
          · simp only []
            rw [List.foldl_append]
            have hhead : List.foldl (finLevelStep (Side.negate side) pq.1) pq.2
                (OrderBook.simulate_queue_fills arena q rq id side).1 = pq.2 := by
              refine foldl_finLevelStep_noop _ _ _ _ ?_
              intro f hf
              obtain ⟨_, _, hfp, _⟩ := hfields f hf
              rw [hfp]
              exact List.rel_of_pairwise_cons hne hm
            rw [hhead]
            exact ih _ hne.of_cons hmono.of_cons
              (fun pq2 hpq2 => hdir pq2 (List.mem_cons_of_mem _ hpq2))
              (fun pq2 hpq2 => hqs pq2 (List.mem_cons_of_mem _ hpq2)) hrem2 pq hm hbrkpq

/-! ## Arena and finalize-step bookkeeping -/

theorem side_negate_eq_ask (s : Side) (h : ¬ Side.negate s = Side.Bid) :
    Side.negate s = Side.Ask := by
  cases s with
  | Bid => rfl
  | Ask => exact absurd rfl h

theorem mem_key_unique (m : SideBook) (hne : List.Pairwise (fun x y => x.1 ≠ y.1) m)
    (a b : Nat × List Nat) (ha : a ∈ m) (hb : b ∈ m) (h : a.1 = b.1) : a = b := by
  have h1 : sbGet m a.1 = some a.2 := mem_sbGet m hne a.1 a.2 ha
  have h2 : sbGet m b.1 = some b.2 := mem_sbGet m hne b.1 b.2 hb
  rw [h, h2] at h1
  have : b.2 = a.2 := by simpa using h1
  exact Prod.ext h (this.symm)

theorem simulate_makers_sublist (arena : OrderArena) (q : List Nat) (rq id : Nat)
    (side : Side) (P : Nat)
    (hq : ∀ oid ∈ q, ∃ o, OrderArena.get arena oid = some o ∧ o.id = oid ∧
      o.price = P ∧ 0 < o.qty) :
    List.Sublist (List.map FillMetadata.order_2
      (OrderBook.simulate_queue_fills arena q rq id side).1) q := by
  induction q generalizing rq with
  | nil => simp [OrderBook.simulate_queue_fills]
  | cons hd ts ih =>
    obtain ⟨o, hg, hid, hp, hpos⟩ := hq hd (List.mem_cons_self _ _)
    have hgp : OrderArena.getPanic arena hd = o := by
      simp [OrderArena.getPanic, hg]
    have ih2 := fun rq => ih rq (fun oid ho => hq oid (List.mem_cons_of_mem _ ho))
    simp only [OrderBook.simulate_queue_fills, hgp]
    by_cases h0 : rq = 0
    · rw [if_pos h0]
      simp
    · rw [if_neg h0, if_neg (by omega : ¬ o.qty = 0)]
      by_cases h1 : o.qty ≤ rq
      · rw [if_pos h1]
        simp only [List.map_cons, hid]
        exact List.Sublist.cons₂ hd (ih2 (rq - o.qty))
      · rw [if_neg h1]
        simp only [List.map_cons, List.map_nil, hid]
        exact List.Sublist.cons₂ hd (List.nil_sublist ts)

theorem arena_get_delete_self (a : OrderArena) (k : Nat)
    (hnd : List.Pairwise (fun x y => x.1 ≠ y.1) a) :
    OrderArena.get (OrderArena.delete a k) k = none := by
  induction a with
  | nil => rfl
  | cons e rest ih =>
    obtain ⟨ek, ev⟩ := e
    simp only [OrderArena.delete]
    by_cases hk : ek = k
    · rw [if_pos hk]
      subst hk
      cases hg : OrderArena.get rest ek with
      | none => rfl
      | some o =>
        exfalso
        obtain ⟨e2, he2, hke⟩ := arena_get_mem rest ek o hg
        exact (List.rel_of_pairwise_cons hnd he2) hke.symm
    · rw [if_neg hk]
      simp only [OrderArena.get, if_neg hk]
      exact ih hnd.of_cons

theorem arena_get_delete_other (a : OrderArena) (k x : Nat) (h : k ≠ x) :
    OrderArena.get (OrderArena.delete a k) x = OrderArena.get a x := by
  induction a with
  | nil => rfl
  | cons e rest ih =>
    obtain ⟨ek, ev⟩ := e
    simp only [OrderArena.delete, OrderArena.get]
    by_cases hk : ek = k
    · rw [if_pos hk, if_neg (by omega : ¬ ek = x)]
    · rw [if_neg hk]
      simp only [OrderArena.get]
      by_cases hx : ek = x
      · rw [if_pos hx, if_pos hx]
      · rw [if_neg hx, if_neg hx]
        exact ih

theorem arena_get_decQty_other (a : OrderArena) (k d x : Nat) (h : k ≠ x) :
    OrderArena.get (OrderArena.decQty a k d) x = OrderArena.get a x := by
  induction a with
  | nil => rfl
  | cons e rest ih =>
    obtain ⟨ek, ev⟩ := e
    simp only [OrderArena.decQty, OrderArena.get]
    by_cases hk : ek = k
    · rw [if_pos hk]
      simp only [OrderArena.get, if_neg (by omega : ¬ ek = x)]
    · rw [if_neg hk]
      simp only [OrderArena.get]
      by_cases hx : ek = x
      · rw [if_pos hx, if_pos hx]
      · rw [if_neg hx, if_neg hx]
        exact ih

theorem arena_get_decQty_found (a : OrderArena) (k d : Nat) (o : LimitOrder)
    (hg : OrderArena.get a k = some o) :
    OrderArena.get (OrderArena.decQty a k d) k = some { o with qty := o.qty - d } := by
  induction a with
  | nil => simp [OrderArena.get] at hg
  | cons e rest ih =>
    obtain ⟨ek, ev⟩ := e
    simp only [OrderArena.get] at hg
    simp only [OrderArena.decQty]
    by_cases hk : ek = k
    · rw [if_pos hk] at hg ⊢
      simp only [OrderArena.get, if_pos hk]
      obtain rfl : ev = o := by simpa using hg
      rfl
    · rw [if_neg hk] at hg ⊢
      simp only [OrderArena.get, if_neg hk]
      exact ih hg

theorem arena_delete_sublist (a : OrderArena) (k : Nat) :
    List.Sublist (OrderArena.delete a k) a := by
  induction a with
  | nil => simp [OrderArena.delete]
  | cons e rest ih =>
    obtain ⟨ek, ev⟩ := e
    simp only [OrderArena.delete]
    split
    · exact List.sublist_cons_self _ _
    · exact List.Sublist.cons₂ _ ih

theorem arena_decQty_map_fst (a : OrderArena) (k d : Nat) :
    List.map Prod.fst (OrderArena.decQty a k d) = List.map Prod.fst a := by
  induction a with
  | nil => rfl
  | cons e rest ih =>
    obtain ⟨ek, ev⟩ := e
    simp only [OrderArena.decQty]
    split <;> simp [ih]

theorem arena_decQty_mem (a : OrderArena) (k d : Nat) :
    ∀ e ∈ OrderArena.decQty a k d, ∃ e0 ∈ a, e0.1 = e.1 := by
  induction a with
  | nil => intro e he; cases he
  | cons hd rest ih =>
    obtain ⟨ek, ev⟩ := hd
    intro e he
    simp only [OrderArena.decQty] at he
    split at he
    · rcases List.mem_cons.mp he with rfl | hm
      · exact ⟨(ek, ev), List.mem_cons_self _ _, rfl⟩
      · exact ⟨e, List.mem_cons_of_mem _ hm, rfl⟩
    · rcases List.mem_cons.mp he with rfl | hm
      · exact ⟨(ek, ev), List.mem_cons_self _ _, rfl⟩
      · obtain ⟨e0, he0, hk0⟩ := ih e hm
        exact ⟨e0, List.mem_cons_of_mem _ he0, hk0⟩

theorem finalize_step_asks_eq (b : OrderBook) (f : FillMetadata) :
    (OrderBook.finalize_step b f).asks =
      if Side.negate f.taker_side = Side.Bid then b.asks
      else SideBook.entryUpdate b.asks f.price
        (fun entry => if f.total_fill then eraseBS entry f.order_2 else entry) := by
  simp only [OrderBook.finalize_step]
  by_cases hms : Side.negate f.taker_side = Side.Bid
  · rw [if_pos hms, if_pos hms]
    split <;> rfl
  · rw [if_neg hms, if_neg hms]
    split <;> rfl

theorem finalize_step_bids_eq (b : OrderBook) (f : FillMetadata) :
    (OrderBook.finalize_step b f).bids =
      if Side.negate f.taker_side = Side.Bid then
        SideBook.entryUpdate b.bids f.price
          (fun entry => if f.total_fill then eraseBS entry f.order_2 else entry)
      else b.bids := by
  simp only [OrderBook.finalize_step]
  by_cases hms : Side.negate f.taker_side = Side.Bid
  · rw [if_pos hms, if_pos hms]
    split <;> rfl
  · rw [if_neg hms, if_neg hms]
    split <;> rfl

theorem finalize_step_arena_eq (b : OrderBook) (f : FillMetadata) :
    (OrderBook.finalize_step b f).arena =
      if f.total_fill then OrderArena.delete b.arena f.order_2
      else OrderArena.decQty b.arena f.order_2 f.qty := by
  simp only [OrderBook.finalize_step]
  by_cases ht : f.total_fill
  · rw [if_pos ht, if_pos ht]
    split <;> rfl
  · rw [if_neg ht, if_neg ht]
    split <;> rfl

theorem eraseBS_nil (x : Nat) : eraseBS [] x = [] := rfl

theorem matchLoop_makers_nodup (arena : OrderArena) (levels : SideBook) (brk : Nat → Bool)
    (id rq : Nat) (side : Side)
    (hne : List.Pairwise (fun x y => x.1 ≠ y.1) levels)
    (hdir : ∀ pq ∈ levels, ∀ oid ∈ pq.2, ∃ o, OrderArena.get arena oid = some o ∧
      o.id = oid ∧ o.price = pq.1 ∧ 0 < o.qty)
    (hqs : ∀ pq ∈ levels, List.Pairwise (· < ·) pq.2) :
    List.Nodup (List.map FillMetadata.order_2
      (OrderBook.matchLoop arena levels brk id rq side).1) := by
  induction levels generalizing rq with
  | nil => simp [OrderBook.matchLoop]
  | cons lv rest ih =>
    obtain ⟨p, q⟩ := lv
    simp only [OrderBook.matchLoop]
    have ihr := fun rq => ih rq hne.of_cons
      (fun pq2 hpq2 => hdir pq2 (List.mem_cons_of_mem _ hpq2))
      (fun pq2 hpq2 => hqs pq2 (List.mem_cons_of_mem _ hpq2))
    split
    · exact ihr rq
    · split
      · simp
      · split
        · simp
        · simp only [List.map_append]
          have hdirq := hdir (p, q) (List.mem_cons_self _ _)
          refine List.Nodup.append ?_ (ihr _) ?_
          · exact (simulate_makers_sublist arena q rq id side p hdirq).nodup
              ((hqs (p, q) (List.mem_cons_self _ _)).imp (fun h => Nat.ne_of_lt h))
          · rw [List.disjoint_left]
            intro x hx1 hx2
            obtain ⟨f1, hf1, rfl⟩ := List.mem_map.mp hx1
            obtain ⟨f2, hf2, hff⟩ := List.mem_map.mp hx2
            obtain ⟨_, _, _, hq1, _, o1, hg1, ho1, hop1, _⟩ :=
              simulate_fill_fields arena q rq id side p hdirq f1 hf1
            obtain ⟨pq2, hpq2, hfp2, _, _, _, o2, hg2, ho2, hop2, _⟩ :=
              matchLoop_fill_fields arena rest brk id _ side
                (fun pq2 hpq2 => hdir pq2 (List.mem_cons_of_mem _ hpq2)) f2 hf2
            rw [hff] at hg2
            rw [hg1] at hg2
            obtain rfl : o1 = o2 := by simpa using hg2
            rw [hop1] at hop2
            exact (List.rel_of_pairwise_cons hne hpq2) hop2

theorem foldl_finalize_asks_sorted (b : OrderBook) (F : List FillMetadata)
    (hs : List.Pairwise (fun x y => x.1 < y.1) b.asks) :
    List.Pairwise (fun x y => x.1 < y.1) (List.foldl OrderBook.finalize_step b F).asks := by
  induction F generalizing b with
  | nil => exact hs
  | cons f F' ih =>
    rw [List.foldl_cons]
    refine ih _ ?_
    rw [finalize_step_asks_eq]
    split
    · exact hs
    · exact entryUpdate_sorted _ _ _ hs

theorem foldl_finalize_bids_sorted (b : OrderBook) (F : List FillMetadata)
    (hs : List.Pairwise (fun x y => x.1 < y.1) b.bids) :
    List.Pairwise (fun x y => x.1 < y.1) (List.foldl OrderBook.finalize_step b F).bids := by
  induction F generalizing b with
  | nil => exact hs
  | cons f F' ih =>
    rw [List.foldl_cons]
    refine ih _ ?_
    rw [finalize_step_bids_eq]
    split
    · exact entryUpdate_sorted _ _ _ hs
    · exact hs

theorem foldl_finalize_bids_frame (b : OrderBook) (F : List FillMetadata)
    (h : ∀ f ∈ F, f.taker_side = Side.Bid) :
    (List.foldl OrderBook.finalize_step b F).bids = b.bids := by
  induction F generalizing b with
  | nil => rfl
  | cons f F' ih =>
    rw [List.foldl_cons, ih _ (fun f2 hf2 => h f2 (List.mem_cons_of_mem _ hf2)),
      finalize_step_bids_eq, if_neg]
    rw [h f (List.mem_cons_self _ _)]
    simp [Side.negate]

theorem foldl_finalize_asks_frame (b : OrderBook) (F : List FillMetadata)
    (h : ∀ f ∈ F, f.taker_side = Side.Ask) :
    (List.foldl OrderBook.finalize_step b F).asks = b.asks := by
  induction F generalizing b with
  | nil => rfl
  | cons f F' ih =>
    rw [List.foldl_cons, ih _ (fun f2 hf2 => h f2 (List.mem_cons_of_mem _ hf2)),
      finalize_step_asks_eq, if_pos]
    rw [h f (List.mem_cons_self _ _)]
    rfl

theorem foldl_finalize_asks_sbGet (b : OrderBook) (F : List FillMetadata) (p : Nat)
    (q : List Nat)
    (hs : List.Pairwise (fun x y => x.1 < y.1) b.asks)
    (hget : sbGet b.asks p = some q) :
    sbGet (List.foldl OrderBook.finalize_step b F).asks p =
      some (List.foldl (finLevelStep Side.Ask p) q F) := by
  induction F generalizing b q with
  | nil => exact hget
  | cons f F' ih =>
    rw [List.foldl_cons, List.foldl_cons]
    have hs' : List.Pairwise (fun x y => x.1 < y.1) (OrderBook.finalize_step b f).asks := by
      rw [finalize_step_asks_eq]
      split
      · exact hs
      · exact entryUpdate_sorted _ _ _ hs
    refine ih _ _ hs' ?_
    rw [finalize_step_asks_eq]
    by_cases hms : Side.negate f.taker_side = Side.Bid
    · rw [if_pos hms, hget]
      unfold finLevelStep
      rw [if_neg]
      intro hc
      rw [hc.2.1] at hms
      cases hms
    · rw [if_neg hms]
      by_cases hp : f.price = p
      · subst hp
        rw [sbGet_entryUpdate_self _ _ _ hs, hget]
        unfold finLevelStep
        by_cases ht : f.total_fill = true
        · rw [if_pos ht, if_pos ⟨rfl, side_negate_eq_ask _ hms, ht⟩]
          simp
        · rw [if_neg ht, if_neg (fun hc => ht hc.2.2)]
          simp
      · rw [sbGet_entryUpdate_other _ _ _ _ (fun h => hp h.symm), hget]
        unfold finLevelStep
        rw [if_neg (fun hc => hp hc.1)]

theorem foldl_finalize_bids_sbGet (b : OrderBook) (F : List FillMetadata) (p : Nat)
    (q : List Nat)
    (hs : List.Pairwise (fun x y => x.1 < y.1) b.bids)
    (hget : sbGet b.bids p = some q) :
    sbGet (List.foldl OrderBook.finalize_step b F).bids p =
      some (List.foldl (finLevelStep Side.Bid p) q F) := by
  induction F generalizing b q with
  | nil => exact hget
  | cons f F' ih =>
    rw [List.foldl_cons, List.foldl_cons]
    have hs' : List.Pairwise (fun x y => x.1 < y.1) (OrderBook.finalize_step b f).bids := by
      rw [finalize_step_bids_eq]
      split
      · exact entryUpdate_sorted _ _ _ hs
      · exact hs
    refine ih _ _ hs' ?_
    rw [finalize_step_bids_eq]
    by_cases hms : Side.negate f.taker_side = Side.Bid
    · rw [if_pos hms]
      by_cases hp : f.price = p
      · subst hp
        rw [sbGet_entryUpdate_self _ _ _ hs, hget]
        unfold finLevelStep
        by_cases ht : f.total_fill = true
        · rw [if_pos ht, if_pos ⟨rfl, hms, ht⟩]
          simp
        · rw [if_neg ht, if_neg (fun hc => ht hc.2.2)]
          simp
      · rw [sbGet_entryUpdate_other _ _ _ _ (fun h => hp h.symm), hget]
        unfold finLevelStep
        rw [if_neg (fun hc => hp hc.1)]
    · rw [if_neg hms, hget]
      unfold finLevelStep
      rw [if_neg]
      intro hc
      rw [hc.2.1] at hms
      exact hms rfl

theorem finalize_u_nil (f : FillMetadata) :
    (if f.total_fill then eraseBS ([] : List Nat) f.order_2 else []) = [] := by
  split <;> rfl

theorem foldl_finalize_asks_shrink (b : OrderBook) (F : List FillMetadata) (p : Nat)
    (q' : List Nat)
    (hs : List.Pairwise (fun x y => x.1 < y.1) b.asks)
    (hget' : sbGet (List.foldl OrderBook.finalize_step b F).asks p = some q')
    (hne : q' ≠ []) :
    ∃ q0, sbGet b.asks p = some q0 ∧ q0 ≠ [] := by
  induction F generalizing b with
  | nil => exact ⟨q', hget', hne⟩
  | cons f F' ih =>
    rw [List.foldl_cons] at hget'
    have hs' : List.Pairwise (fun x y => x.1 < y.1) (OrderBook.finalize_step b f).asks := by
      rw [finalize_step_asks_eq]
      split
      · exact hs
      · exact entryUpdate_sorted _ _ _ hs
    obtain ⟨q1, hq1, hq1ne⟩ := ih _ hs' hget'
    rw [finalize_step_asks_eq] at hq1
    by_cases hms : Side.negate f.taker_side = Side.Bid
    · rw [if_pos hms] at hq1
      exact ⟨q1, hq1, hq1ne⟩
    · rw [if_neg hms] at hq1
      by_cases hp : f.price = p
      · subst hp
        rw [sbGet_entryUpdate_self _ _ _ hs] at hq1
        cases hget0 : sbGet b.asks f.price with
        | none =>
          rw [hget0] at hq1
          simp only [Option.getD_none] at hq1
          rw [finalize_u_nil] at hq1
          exact absurd (Option.some.inj hq1).symm hq1ne
        | some q0 =>
          rw [hget0] at hq1
          simp only [Option.getD_some] at hq1
          refine ⟨q0, rfl, ?_⟩
          intro h0
          subst h0
          rw [finalize_u_nil] at hq1
          exact hq1ne (Option.some.inj hq1).symm
      · rw [sbGet_entryUpdate_other _ _ _ _ (fun h => hp h.symm)] at hq1
        exact ⟨q1, hq1, hq1ne⟩

theorem foldl_finalize_bids_shrink (b : OrderBook) (F : List FillMetadata) (p : Nat)
    (q' : List Nat)
    (hs : List.Pairwise (fun x y => x.1 < y.1) b.bids)
    (hget' : sbGet (List.foldl OrderBook.finalize_step b F).bids p = some q')
    (hne : q' ≠ []) :
    ∃ q0, sbGet b.bids p = some q0 ∧ q0 ≠ [] := by
  induction F generalizing b with
  | nil => exact ⟨q', hget', hne⟩
  | cons f F' ih =>
    rw [List.foldl_cons] at hget'
    have hs' : List.Pairwise (fun x y => x.1 < y.1) (OrderBook.finalize_step b f).bids := by
      rw [finalize_step_bids_eq]
      split
      · exact entryUpdate_sorted _ _ _ hs
      · exact hs
    obtain ⟨q1, hq1, hq1ne⟩ := ih _ hs' hget'
    rw [finalize_step_bids_eq] at hq1
    by_cases hms : Side.negate f.taker_side = Side.Bid
    · rw [if_pos hms] at hq1
      by_cases hp : f.price = p
      · subst hp
        rw [sbGet_entryUpdate_self _ _ _ hs] at hq1
        cases hget0 : sbGet b.bids f.price with
        | none =>
          rw [hget0] at hq1
          simp only [Option.getD_none] at hq1
          rw [finalize_u_nil] at hq1
          exact absurd (Option.some.inj hq1).symm hq1ne
        | some q0 =>
          rw [hget0] at hq1
          simp only [Option.getD_some] at hq1
          refine ⟨q0, rfl, ?_⟩
          intro h0
          subst h0
          rw [finalize_u_nil] at hq1
          exact hq1ne (Option.some.inj hq1).symm
      · rw [sbGet_entryUpdate_other _ _ _ _ (fun h => hp h.symm)] at hq1
        exact ⟨q1, hq1, hq1ne⟩
    · rw [if_neg hms] at hq1
      exact ⟨q1, hq1, hq1ne⟩

theorem foldl_finalize_asks_keys (b : OrderBook) (F : List FillMetadata) :
    ∀ e ∈ (List.foldl OrderBook.finalize_step b F).asks,
      e.1 ∈ List.map Prod.fst b.asks ∨ ∃ f ∈ F, f.price = e.1 := by
  induction F generalizing b with
  | nil =>
    intro e he
    exact Or.inl (List.mem_map.mpr ⟨e, he, rfl⟩)
  | cons f F' ih =>
    intro e he
    rw [List.foldl_cons] at he
    rcases ih _ e he with hk | ⟨f2, hf2, hfp⟩
    · obtain ⟨e1, he1, hke⟩ := List.mem_map.mp hk
      rw [finalize_step_asks_eq] at he1
      by_cases hms : Side.negate f.taker_side = Side.Bid
      · rw [if_pos hms] at he1
        exact Or.inl (by rw [← hke]; exact List.mem_map.mpr ⟨e1, he1, rfl⟩)
      · rw [if_neg hms] at he1
        rcases entryUpdate_keys _ _ _ e1 he1 with hpe | he1b
        · exact Or.inr ⟨f, List.mem_cons_self _ _, by rw [hpe] at hke; exact hke⟩
        · exact Or.inl (by rw [← hke]; exact List.mem_map.mpr ⟨e1, he1b, rfl⟩)
    · exact Or.inr ⟨f2, List.mem_cons_of_mem _ hf2, hfp⟩

theorem foldl_finalize_bids_keys (b : OrderBook) (F : List FillMetadata) :
    ∀ e ∈ (List.foldl OrderBook.finalize_step b F).bids,
      e.1 ∈ List.map Prod.fst b.bids ∨ ∃ f ∈ F, f.price = e.1 := by
  induction F generalizing b with
  | nil =>
    intro e he
    exact Or.inl (List.mem_map.mpr ⟨e, he, rfl⟩)
  | cons f F' ih =>
    intro e he
    rw [List.foldl_cons] at he
    rcases ih _ e he with hk | ⟨f2, hf2, hfp⟩
    · obtain ⟨e1, he1, hke⟩ := List.mem_map.mp hk
      rw [finalize_step_bids_eq] at he1
      by_cases hms : Side.negate f.taker_side = Side.Bid
      · rw [if_pos hms] at he1
        rcases entryUpdate_keys _ _ _ e1 he1 with hpe | he1b
        · exact Or.inr ⟨f, List.mem_cons_self _ _, by rw [hpe] at hke; exact hke⟩
        · exact Or.inl (by rw [← hke]; exact List.mem_map.mpr ⟨e1, he1b, rfl⟩)
      · rw [if_neg hms] at he1
        exact Or.inl (by rw [← hke]; exact List.mem_map.mpr ⟨e1, he1, rfl⟩)
    · exact Or.inr ⟨f2, List.mem_cons_of_mem _ hf2, hfp⟩

theorem eraseBS_sublist (q : List Nat) (x : Nat) : List.Sublist (eraseBS q x) q := by
  unfold eraseBS
  cases binarySearch q x with
  | none => exact List.Sublist.refl q
  | some i => exact List.eraseIdx_sublist q i

theorem eraseBS_not_mem (q : List Nat) (x : Nat) (hs : List.Pairwise (· < ·) q) :
    x ∉ eraseBS q x := by
  by_cases hm : x ∈ q
  · obtain ⟨i, hsome, hlt, hval⟩ := binarySearch_mem q x hs hm
    unfold eraseBS
    rw [hsome]
    show x ∉ List.eraseIdx q i
    have hnd : q.Nodup := hs.imp (fun h => Nat.ne_of_lt h)
    have hcount : q.count x ≤ 1 := List.nodup_iff_count_le_one.mp hnd x
    have hdecomp : q = q.take i ++ x :: q.drop (i + 1) := by
      conv_lhs => rw [← List.take_append_drop i q]
      rw [List.drop_eq_get_cons hlt]
      congr 2
      rw [← hval, List.getD_eq_get _ _ hlt]
    rw [List.eraseIdx_eq_take_drop_succ]
    intro hx
    have h1 : 0 < (q.take i ++ q.drop (i + 1)).count x := List.count_pos_iff_mem.mpr hx
    rw [hdecomp] at hcount
    rw [List.count_append] at h1
    rw [List.count_append, List.count_cons_self] at hcount
    omega
  · intro hx
    exact hm ((eraseBS_sublist q x).mem hx)

theorem finLevelStep_sublist (ms : Side) (p : Nat) (q : List Nat) (f : FillMetadata) :
    List.Sublist (finLevelStep ms p q f) q := by
  unfold finLevelStep
  split
  · exact eraseBS_sublist q f.order_2
  · exact List.Sublist.refl q

theorem finLevel_fold_sublist (ms : Side) (p : Nat) (q : List Nat) (F : List FillMetadata) :
    List.Sublist (List.foldl (finLevelStep ms p) q F) q := by
  induction F generalizing q with
  | nil => exact List.Sublist.refl q
  | cons f F' ih =>
    rw [List.foldl_cons]
    exact (ih _).trans (finLevelStep_sublist ms p q f)

theorem finLevel_fold_mem (ms : Side) (p : Nat) (q : List Nat) (F : List FillMetadata)
    (oid : Nat) (hs : List.Pairwise (· < ·) q)
    (hmem : oid ∈ List.foldl (finLevelStep ms p) q F) :
    oid ∈ q ∧ ∀ f ∈ F, f.price = p → Side.negate f.taker_side = ms →
      f.total_fill = true → f.order_2 ≠ oid := by
  induction F generalizing q with
  | nil =>
    refine ⟨hmem, ?_⟩
    intro f hf
    simp at hf
  | cons f F' ih =>
    rw [List.foldl_cons] at hmem
    have hs1 : List.Pairwise (· < ·) (finLevelStep ms p q f) :=
      List.Pairwise.sublist (finLevelStep_sublist ms p q f) hs
    obtain ⟨h1, h2⟩ := ih _ hs1 hmem
    have hq : oid ∈ q := (finLevelStep_sublist ms p q f).mem h1
    refine ⟨hq, ?_⟩
    intro f2 hf2 hp2 hside2 ht2 heq2
    rcases List.mem_cons.mp hf2 with rfl | hf2r
    · unfold finLevelStep at h1
      rw [if_pos ⟨hp2, hside2, ht2⟩] at h1
      rw [heq2] at h1
      exact eraseBS_not_mem q oid hs h1
    · exact h2 f2 hf2r hp2 hside2 ht2 heq2

theorem finalize_step_arena_nodup (b : OrderBook) (f : FillMetadata)
    (hnd : List.Pairwise (fun x y => x.1 ≠ y.1) b.arena) :
    List.Pairwise (fun x y => x.1 ≠ y.1) (OrderBook.finalize_step b f).arena := by
  rw [finalize_step_arena_eq]
  split
  · exact List.Pairwise.sublist (arena_delete_sublist _ _) hnd
  · have h1 : List.Pairwise Ne (List.map Prod.fst
        (OrderArena.decQty b.arena f.order_2 f.qty)) := by
      rw [arena_decQty_map_fst]
      exact List.pairwise_map.mpr hnd
    exact List.pairwise_map.mp h1

theorem foldl_finalize_arena_nodup (b : OrderBook) (F : List FillMetadata)
    (hnd : List.Pairwise (fun x y => x.1 ≠ y.1) b.arena) :
    List.Pairwise (fun x y => x.1 ≠ y.1) (List.foldl OrderBook.finalize_step b F).arena := by
  induction F generalizing b with
  | nil => exact hnd
  | cons f F' ih =>
    rw [List.foldl_cons]
    exact ih _ (finalize_step_arena_nodup b f hnd)

theorem foldl_finalize_arena_keys (b : OrderBook) (F : List FillMetadata) :
    ∀ e ∈ (List.foldl OrderBook.finalize_step b F).arena, ∃ e0 ∈ b.arena, e0.1 = e.1 := by
  induction F generalizing b with
  | nil => intro e he; exact ⟨e, he, rfl⟩
  | cons f F' ih =>
    intro e he
    rw [List.foldl_cons] at he
    obtain ⟨e1, he1, hk1⟩ := ih _ e he
    rw [finalize_step_arena_eq] at he1
    rcases hif : f.total_fill with _ | _
    · rw [hif] at he1
      simp only [Bool.false_eq_true, if_false] at he1
      obtain ⟨e0, he0, hk0⟩ := arena_decQty_mem _ _ _ e1 he1
      exact ⟨e0, he0, hk0.trans hk1⟩
    · rw [hif] at he1
      simp only [if_true] at he1
      exact ⟨e1, (arena_delete_sublist _ _).mem he1, hk1⟩

theorem foldl_finalize_arena_other (b : OrderBook) (F : List FillMetadata) (oid : Nat)
    (h : oid ∉ List.map FillMetadata.order_2 F) :
    OrderArena.get (List.foldl OrderBook.finalize_step b F).arena oid =
      OrderArena.get b.arena oid := by
  induction F generalizing b with
  | nil => rfl
  | cons f F' ih =>
    have hne : f.order_2 ≠ oid := by
      intro hc
      exact h (by rw [List.map_cons, hc]; exact List.mem_cons_self _ _)
    have htl : oid ∉ List.map FillMetadata.order_2 F' := by
      intro hc
      exact h (by rw [List.map_cons]; exact List.mem_cons_of_mem _ hc)
    rw [List.foldl_cons, ih _ htl, finalize_step_arena_eq]
    split
    · exact arena_get_delete_other _ _ _ hne
    · exact arena_get_decQty_other _ _ _ _ hne

theorem foldl_finalize_arena_surviving (b : OrderBook) (F : List FillMetadata)
    (oid : Nat) (o : LimitOrder)
    (hg : OrderArena.get b.arena oid = some o)
    (hF : ∀ f ∈ F, f.order_2 = oid → f.total_fill = false ∧ f.qty < o.qty)
    (hcnt : List.count oid (List.map FillMetadata.order_2 F) ≤ 1) :
    ∃ o', OrderArena.get (List.foldl OrderBook.finalize_step b F).arena oid = some o' ∧
      o'.id = o.id ∧ o'.price = o.price ∧ o'.qty ≤ o.qty ∧
      (o.qty ≤ o'.qty ∨ (∃ f ∈ F, f.order_2 = oid ∧ o'.qty = o.qty - f.qty)) ∧
      (0 < o.qty → 0 < o'.qty) := by
  induction F generalizing b with
  | nil =>
    exact ⟨o, hg, rfl, rfl, le_rfl, Or.inl le_rfl, fun h => h⟩
  | cons f F' ih =>
    rw [List.foldl_cons]
    by_cases hfo : f.order_2 = oid
    · obtain ⟨hpart, hlt⟩ := hF f (List.mem_cons_self _ _) hfo
      have hstep : OrderArena.get (OrderBook.finalize_step b f).arena oid =
          some { o with qty := o.qty - f.qty } := by
        rw [finalize_step_arena_eq, hpart]
        simp only [Bool.false_eq_true, if_false]
        rw [hfo]
        exact arena_get_decQty_found _ _ _ _ hg
      have hnotl : oid ∉ List.map FillMetadata.order_2 F' := by
        intro hc
        have h1 : 1 ≤ List.count oid (List.map FillMetadata.order_2 F') :=
          List.count_pos_iff_mem.mpr hc
        rw [List.map_cons, hfo, List.count_cons_self] at hcnt
        omega
      rw [foldl_finalize_arena_other _ _ _ hnotl, hstep]
      refine ⟨_, rfl, rfl, rfl, ?_, Or.inr ⟨f, List.mem_cons_self _ _, hfo, rfl⟩, ?_⟩
      · show o.qty - f.qty ≤ o.qty
        omega
      · intro h0
        show 0 < o.qty - f.qty
        omega
    · have hstep : OrderArena.get (OrderBook.finalize_step b f).arena oid =
          OrderArena.get b.arena oid := by
        rw [finalize_step_arena_eq]
        split
        · exact arena_get_delete_other _ _ _ hfo
        · exact arena_get_decQty_other _ _ _ _ hfo
      have hcnt' : List.count oid (List.map FillMetadata.order_2 F') ≤ 1 := by
        rw [List.map_cons] at hcnt
        calc List.count oid (List.map FillMetadata.order_2 F')
            ≤ List.count oid (f.order_2 :: List.map FillMetadata.order_2 F') :=
              List.count_le_count_cons _ _ _
          _ ≤ 1 := hcnt
      obtain ⟨o', ho', hid, hpr, hle, hor, hpos⟩ := ih (OrderBook.finalize_step b f)
        (hstep.trans hg) (fun f2 hf2 => hF f2 (List.mem_cons_of_mem _ hf2)) hcnt'
      exact ⟨o', ho', hid, hpr, hle,
        (by rcases hor with h | ⟨f2, hf2, hh⟩
            · exact Or.inl h
            · exact Or.inr ⟨f2, List.mem_cons_of_mem _ hf2, hh⟩), hpos⟩

theorem finalize_execution_asks (b : OrderBook) (F : List FillMetadata) :
    (OrderBook.finalize_execution b F).asks = (List.foldl OrderBook.finalize_step b F).asks := rfl

theorem finalize_execution_bids (b : OrderBook) (F : List FillMetadata) :
    (OrderBook.finalize_execution b F).bids = (List.foldl OrderBook.finalize_step b F).bids := rfl

theorem finalize_execution_arena (b : OrderBook) (F : List FillMetadata) :
    (OrderBook.finalize_execution b F).arena = (List.foldl OrderBook.finalize_step b F).arena := rfl

theorem finalize_execution_min_ask (b : OrderBook) (F : List FillMetadata) :
    (OrderBook.finalize_execution b F).min_ask =
      computedMinAsk (List.foldl OrderBook.finalize_step b F).asks := rfl

theorem finalize_execution_max_bid (b : OrderBook) (F : List FillMetadata) :
    (OrderBook.finalize_execution b F).max_bid =
      computedMaxBid (List.foldl OrderBook.finalize_step b F).bids := rfl

theorem arena_get_insert_self (a : OrderArena) (id u p q : Nat) :
    OrderArena.get (OrderArena.insert a id u p q) id =
      some { user_id := u, id := id, qty := q, price := p } := by
  induction a with
  | nil => simp [OrderArena.insert, OrderArena.get]
  | cons e rest ih =>
    obtain ⟨k, v⟩ := e
    simp only [OrderArena.insert]
    by_cases hk : k = id
    · rw [if_pos hk]
      simp [OrderArena.get]
    · rw [if_neg hk]
      simp only [OrderArena.get, if_neg hk]
      exact ih

theorem arena_get_insert_other (a : OrderArena) (id u p q x : Nat) (hx : x ≠ id) :
    OrderArena.get (OrderArena.insert a id u p q) x = OrderArena.get a x := by
  induction a with
  | nil =>
    simp only [OrderArena.insert, OrderArena.get]
    rw [if_neg (fun h => hx h.symm)]
  | cons e rest ih =>
    obtain ⟨k, v⟩ := e
    simp only [OrderArena.insert]
    by_cases hk : k = id
    · subst hk
      rw [if_pos rfl]
      simp only [OrderArena.get]
      rw [if_neg (fun h => hx h.symm), if_neg (fun h => hx h.symm)]
    · rw [if_neg hk]
      simp only [OrderArena.get]
      by_cases hkx : k = x
      · rw [if_pos hkx, if_pos hkx]
      · rw [if_neg hkx, if_neg hkx]
        exact ih

theorem arena_insert_fresh (a : OrderArena) (id u p q : Nat)
    (h : ∀ e ∈ a, e.1 ≠ id) :
    OrderArena.insert a id u p q =
      a ++ [(id, { user_id := u, id := id, qty := q, price := p })] := by
  induction a with
  | nil => rfl
  | cons e rest ih =>
    obtain ⟨k, v⟩ := e
    simp only [OrderArena.insert]
    rw [if_neg (h (k, v) (List.mem_cons_self _ _)), List.cons_append]
    rw [ih (fun e2 he2 => h e2 (List.mem_cons_of_mem _ he2))]

theorem updateExisting_map_fst (m : SideBook) (p : Nat) (f : List Nat → List Nat) :
    List.map Prod.fst (SideBook.updateExisting m p f) = List.map Prod.fst m := by
  induction m with
  | nil => rfl
  | cons e rest ih =>
    obtain ⟨k, q⟩ := e
    simp only [SideBook.updateExisting]
    split
    · simp
    · simp [ih]

theorem updateExisting_mem (m : SideBook) (p : Nat) (f : List Nat → List Nat) :
    ∀ e ∈ SideBook.updateExisting m p f,
      e ∈ m ∨ ∃ q0, (e.1, q0) ∈ m ∧ e.1 = p ∧ e.2 = f q0 := by
  induction m with
  | nil => intro e he; cases he
  | cons hd rest ih =>
    obtain ⟨k, q⟩ := hd
    intro e he
    simp only [SideBook.updateExisting] at he
    by_cases hk : k = p
    · rw [if_pos hk] at he
      rcases List.mem_cons.mp he with rfl | hm
      · exact Or.inr ⟨q, List.mem_cons_self _ _, hk, rfl⟩
      · exact Or.inl (List.mem_cons_of_mem _ hm)
    · rw [if_neg hk] at he
      rcases List.mem_cons.mp he with rfl | hm
      · exact Or.inl (List.mem_cons_self _ _)
      · rcases ih e hm with h1 | ⟨q0, hq0, hep, heq⟩
        · exact Or.inl (List.mem_cons_of_mem _ h1)
        · exact Or.inr ⟨q0, List.mem_cons_of_mem _ hq0, hep, heq⟩

theorem updateExisting_sorted (m : SideBook) (p : Nat) (f : List Nat → List Nat)
    (hs : List.Pairwise (fun x y => x.1 < y.1) m) :
    List.Pairwise (fun x y => x.1 < y.1) (SideBook.updateExisting m p f) := by
  have h1 : List.Pairwise (· < ·) (List.map Prod.fst (SideBook.updateExisting m p f)) := by
    rw [updateExisting_map_fst]
    exact List.pairwise_map.mpr hs
  exact List.pairwise_map.mp h1

theorem cma_bounded (m : SideBook) (hb : ∀ pq ∈ m, pq.1 ≤ U64MAX) :
    computedMinAsk m ≤ U64MAX := by
  rcases cma_mem m with h | ⟨pq, hpq, _, h⟩
  · rw [h]
  · rw [h]
    exact hb pq hpq

theorem sb_key_mem (m : SideBook) (p : Nat) (h : p ∈ List.map Prod.fst m) :
    ∃ q, (p, q) ∈ m := by
  obtain ⟨e, he, hk⟩ := List.mem_map.mp h
  exact ⟨e.2, by rw [← hk]; exact he⟩

theorem matchfin_bid (b : OrderBook) (id qty : Nat) (lp : Option Nat) (hinv : BookInv b)
    (F : List FillMetadata) (rem : Nat)
    (hFr : OrderBook.match_with_asks b id qty lp = (F, rem))
    (b1 : OrderBook) (hb1 : b1 = OrderBook.finalize_execution b F) :
    BookInv b1 ∧ b1.bids = b.bids ∧
    b1.last_processed_order_id = b.last_processed_order_id ∧
    (∀ p q', sbGet b1.asks p = some q' → q' ≠ [] →
      ∃ q0, sbGet b.asks p = some q0 ∧ q0 ≠ []) ∧
    (∀ e ∈ b1.arena, ∃ e0 ∈ b.arena, e0.1 = e.1) ∧
    (∀ l, lp = some l → 0 < rem → ∀ p q', sbGet b1.asks p = some q' → p ≤ l → q' = []) := by
  subst hb1
  have hF : F = (OrderBook.match_with_asks b id qty lp).1 := by rw [hFr]
  have hremE : rem = (OrderBook.match_with_asks b id qty lp).2 := by rw [hFr]
  have hdir := hinv.asksDir
  have hfields : ∀ f ∈ F, ∃ pq ∈ b.asks, f.price = pq.1 ∧ f.order_2 ∈ pq.2 ∧
      f.taker_side = Side.Bid ∧ 0 < f.qty ∧
      ∃ o, OrderArena.get b.arena f.order_2 = some o ∧ o.id = f.order_2 ∧ o.price = pq.1 ∧
        f.qty ≤ o.qty ∧ (f.total_fill = false → f.qty < o.qty) ∧
        (f.total_fill = true → f.qty = o.qty) := by
    rw [hF]
    exact matchLoop_fill_fields b.arena b.asks _ id qty Side.Bid hdir
  have hside : ∀ f ∈ F, f.taker_side = Side.Bid := by
    intro f hf
    obtain ⟨pq, _, _, _, hs, _⟩ := hfields f hf
    exact hs
  have hnodupF : List.Nodup (List.map FillMetadata.order_2 F) := by
    rw [hF]
    exact matchLoop_makers_nodup b.arena b.asks _ id qty Side.Bid
      (sorted_keys_ne _ hinv.asksSorted) hdir hinv.asksQSorted
  have hbidsF : (OrderBook.finalize_execution b F).bids = b.bids :=
    foldl_finalize_bids_frame b F hside
  have hsorted' : List.Pairwise (fun x y => x.1 < y.1)
      (List.foldl OrderBook.finalize_step b F).asks :=
    foldl_finalize_asks_sorted b F hinv.asksSorted
  have hkeys : ∀ e ∈ (List.foldl OrderBook.finalize_step b F).asks,
      e.1 ∈ List.map Prod.fst b.asks := by
    intro e he
    rcases foldl_finalize_asks_keys b F e he with h | ⟨f, hf, hfp⟩
    · exact h
    · obtain ⟨pq, hpq, hfp2, _⟩ := hfields f hf
      rw [← hfp, hfp2]
      exact List.mem_map.mpr ⟨pq, hpq, rfl⟩
  have hlevel : ∀ p q', sbGet (List.foldl OrderBook.finalize_step b F).asks p = some q' →
      ∃ q0, sbGet b.asks p = some q0 ∧ q' = List.foldl (finLevelStep Side.Ask p) q0 F := by
    intro p q' h
    have hm := sbGet_mem _ _ _ h
    have hpk : p ∈ List.map Prod.fst b.asks := hkeys (p, q') hm
    obtain ⟨q0m, hq0m⟩ := sb_key_mem _ _ hpk
    have hq0 : sbGet b.asks p = some q0m :=
      mem_sbGet _ (sorted_keys_ne _ hinv.asksSorted) _ _ hq0m
    have hdc := foldl_finalize_asks_sbGet b F p q0m hinv.asksSorted hq0
    rw [h] at hdc
    exact ⟨q0m, hq0, Option.some.inj hdc⟩
  refine ⟨?_, hbidsF, finalize_execution_last b F, ?_, ?_, ?_⟩
  · refine ⟨hsorted', ?_, ?_, ?_, ?_, ?_, ?_, ?_, ?_, rfl, rfl, ?_, ?_⟩
    · rw [hbidsF]
      exact hinv.bidsSorted
    · intro pq hpq
      obtain ⟨p, q'⟩ := pq
      have hget' : sbGet (List.foldl OrderBook.finalize_step b F).asks p = some q' :=
        mem_sbGet _ (sorted_keys_ne _ hsorted') _ _ hpq
      obtain ⟨q0, hq0, hq'⟩ := hlevel p q' hget'
      have hq0s := hinv.asksQSorted (p, q0) (sbGet_mem _ _ _ hq0)
      rw [hq']
      exact List.Pairwise.sublist (finLevel_fold_sublist _ _ _ _) hq0s
    · rw [hbidsF]
      exact hinv.bidsQSorted
    · intro pq hpq oid hoid
      obtain ⟨p, q'⟩ := pq
      have hget' : sbGet (List.foldl OrderBook.finalize_step b F).asks p = some q' :=
        mem_sbGet _ (sorted_keys_ne _ hsorted') _ _ hpq
      obtain ⟨q0, hq0, hq'⟩ := hlevel p q' hget'
      have hq0s := hinv.asksQSorted (p, q0) (sbGet_mem _ _ _ hq0)
      rw [hq'] at hoid
      obtain ⟨hoidq0, hnotot⟩ := finLevel_fold_mem Side.Ask p q0 F oid hq0s hoid
      obtain ⟨o, hgo, hoi, hop, hoq⟩ := hdir (p, q0) (sbGet_mem _ _ _ hq0) oid hoidq0
      have hFo : ∀ f ∈ F, f.order_2 = oid → f.total_fill = false ∧ f.qty < o.qty := by
        intro f hf hfo
        obtain ⟨pq2, hpq2, hfp, _, hts, _, o2, hg2, _, hop2, _, hpartlt, _⟩ := hfields f hf
        rw [hfo, hgo] at hg2
        obtain rfl : o = o2 := by simpa using hg2
        have hfprice : f.price = p := by rw [hfp, ← hop2, hop]
        have hneg : Side.negate f.taker_side = Side.Ask := by rw [hts]; rfl
        cases hft : f.total_fill with
        | true => exact absurd hfo (hnotot f hf hfprice hneg hft)
        | false => exact ⟨rfl, hpartlt hft⟩
      have hcnt : List.count oid (List.map FillMetadata.order_2 F) ≤ 1 :=
        List.nodup_iff_count_le_one.mp hnodupF oid
      obtain ⟨o', hgo', hid', hpr', _, _, hpos'⟩ :=
        foldl_finalize_arena_surviving b F oid o hgo hFo hcnt
      exact ⟨o', hgo', by rw [hid', hoi], by rw [hpr', hop], hpos' hoq⟩
    · intro pq hpq oid hoid
      rw [hbidsF] at hpq
      obtain ⟨o, hgo, hoi, hop, hoq⟩ := hinv.bidsDir pq hpq oid hoid
      have hnot : oid ∉ List.map FillMetadata.order_2 F := by
        intro hc
        obtain ⟨f, hf, hfo⟩ := List.mem_map.mp hc
        obtain ⟨pq2, hpq2, _, hmem2, _⟩ := hfields f hf
        rw [hfo] at hmem2
        exact hinv.sidesDisjoint pq2 hpq2 pq hpq oid hmem2 hoid
      refine ⟨o, ?_, hoi, hop, hoq⟩
      show OrderArena.get (List.foldl OrderBook.finalize_step b F).arena oid = some o
      rw [foldl_finalize_arena_other b F oid hnot]
      exact hgo
    · intro pq hpq pq2 hpq2 oid hoid
      rw [hbidsF] at hpq2
      obtain ⟨p, q'⟩ := pq
      have hget' : sbGet (List.foldl OrderBook.finalize_step b F).asks p = some q' :=
        mem_sbGet _ (sorted_keys_ne _ hsorted') _ _ hpq
      obtain ⟨q0, hq0, hq'⟩ := hlevel p q' hget'
      rw [hq'] at hoid
      have hoid0 : oid ∈ q0 := (finLevel_fold_sublist _ _ _ _).mem hoid
      exact hinv.sidesDisjoint (p, q0) (sbGet_mem _ _ _ hq0) pq2 hpq2 oid hoid0
    · intro e he
      obtain ⟨e0, he0, hk0⟩ := foldl_finalize_arena_keys b F e he
      show e.1 ≤ (OrderBook.finalize_execution b F).last_processed_order_id
      rw [finalize_execution_last]
      rw [← hk0]
      exact hinv.arenaLe e0 he0
    · exact foldl_finalize_arena_nodup b F hinv.arenaNodup
    · intro pq hpq
      have hpk : pq.1 ∈ List.map Prod.fst b.asks := hkeys pq hpq
      obtain ⟨q0m, hq0m⟩ := sb_key_mem _ _ hpk
      exact hinv.asksBounded (pq.1, q0m) hq0m
    · rw [hbidsF]
      exact hinv.bidsBounded
  · intro p q' hget hne
    obtain ⟨q0, hq0, hq0ne⟩ :=
      foldl_finalize_asks_shrink b F p q' hinv.asksSorted hget hne
    exact ⟨q0, hq0, hq0ne⟩
  · exact foldl_finalize_arena_keys b F
  · intro l hlp hrem p q' hget hple
    subst hlp
    obtain ⟨q0, hq0, hq'⟩ := hlevel p q' hget
    have hmono : List.Pairwise (fun x y =>
        (decide (l < x.1) = true → decide (l < y.1) = true)) b.asks := by
      refine hinv.asksSorted.imp ?_
      intro x y hxy h1
      simp only [decide_eq_true_eq] at h1 ⊢
      omega
    have hbrk : decide (l < p) = false := by
      simp only [decide_eq_false_iff_not]
      omega
    have hrem' : 0 < (OrderBook.matchLoop b.arena b.asks
        (fun p0 => decide (l < p0)) id qty Side.Bid).2 := hremE ▸ hrem
    have hemp := matchLoop_level_empty b.arena b.asks (fun p0 => decide (l < p0))
      id qty Side.Bid (sorted_keys_ne _ hinv.asksSorted) hmono hdir hinv.asksQSorted
      hrem' (p, q0) (sbGet_mem _ _ _ hq0) hbrk
    rw [hq']
    rw [hF]
    exact hemp

theorem matchfin_ask (b : OrderBook) (id qty : Nat) (lp : Option Nat) (hinv : BookInv b)
    (F : List FillMetadata) (rem : Nat)
    (hFr : OrderBook.match_with_bids b id qty lp = (F, rem))
    (b1 : OrderBook) (hb1 : b1 = OrderBook.finalize_execution b F) :
    BookInv b1 ∧ b1.asks = b.asks ∧
    b1.last_processed_order_id = b.last_processed_order_id ∧
    (∀ p q', sbGet b1.bids p = some q' → q' ≠ [] →
      ∃ q0, sbGet b.bids p = some q0 ∧ q0 ≠ []) ∧
    (∀ e ∈ b1.arena, ∃ e0 ∈ b.arena, e0.1 = e.1) ∧
    (∀ l, lp = some l → 0 < rem → ∀ p q', sbGet b1.bids p = some q' → l ≤ p → q' = []) := by
  subst hb1
  have hF : F = (OrderBook.match_with_bids b id qty lp).1 := by rw [hFr]
  have hremE : rem = (OrderBook.match_with_bids b id qty lp).2 := by rw [hFr]
  have hdirR : ∀ pq ∈ List.reverse b.bids, ∀ oid ∈ pq.2,
      ∃ o, OrderArena.get b.arena oid = some o ∧ o.id = oid ∧ o.price = pq.1 ∧ 0 < o.qty :=
    fun pq hpq => hinv.bidsDir pq (List.mem_reverse.mp hpq)
  have hneR : List.Pairwise (fun x y => x.1 ≠ y.1) (List.reverse b.bids) :=
    List.pairwise_reverse.mpr (hinv.bidsSorted.imp (fun h => Nat.ne_of_gt h))
  have hqsR : ∀ pq ∈ List.reverse b.bids, List.Pairwise (· < ·) pq.2 :=
    fun pq hpq => hinv.bidsQSorted pq (List.mem_reverse.mp hpq)
  have hfields : ∀ f ∈ F, ∃ pq ∈ List.reverse b.bids, f.price = pq.1 ∧ f.order_2 ∈ pq.2 ∧
      f.taker_side = Side.Ask ∧ 0 < f.qty ∧
      ∃ o, OrderArena.get b.arena f.order_2 = some o ∧ o.id = f.order_2 ∧ o.price = pq.1 ∧
        f.qty ≤ o.qty ∧ (f.total_fill = false → f.qty < o.qty) ∧
        (f.total_fill = true → f.qty = o.qty) := by
    rw [hF]
    exact matchLoop_fill_fields b.arena (List.reverse b.bids) _ id qty Side.Ask hdirR
  have hside : ∀ f ∈ F, f.taker_side = Side.Ask := by
    intro f hf
    obtain ⟨pq, _, _, _, hs, _⟩ := hfields f hf
    exact hs
  have hnodupF : List.Nodup (List.map FillMetadata.order_2 F) := by
    rw [hF]
    exact matchLoop_makers_nodup b.arena (List.reverse b.bids) _ id qty Side.Ask
      hneR hdirR hqsR
  have hasksF : (OrderBook.finalize_execution b F).asks = b.asks :=
    foldl_finalize_asks_frame b F hside
  have hsorted' : List.Pairwise (fun x y => x.1 < y.1)
      (List.foldl OrderBook.finalize_step b F).bids :=
    foldl_finalize_bids_sorted b F hinv.bidsSorted
  have hkeys : ∀ e ∈ (List.foldl OrderBook.finalize_step b F).bids,
      e.1 ∈ List.map Prod.fst b.bids := by
    intro e he
    rcases foldl_finalize_bids_keys b F e he with h | ⟨f, hf, hfp⟩
    · exact h
    · obtain ⟨pq, hpq, hfp2, _⟩ := hfields f hf
      rw [← hfp, hfp2]
      exact List.mem_map.mpr ⟨pq, List.mem_reverse.mp hpq, rfl⟩
  have hlevel : ∀ p q', sbGet (List.foldl OrderBook.finalize_step b F).bids p = some q' →
      ∃ q0, sbGet b.bids p = some q0 ∧ q' = List.foldl (finLevelStep Side.Bid p) q0 F := by
    intro p q' h
    have hm := sbGet_mem _ _ _ h
    have hpk : p ∈ List.map Prod.fst b.bids := hkeys (p, q') hm
    obtain ⟨q0m, hq0m⟩ := sb_key_mem _ _ hpk
    have hq0 : sbGet b.bids p = some q0m :=
      mem_sbGet _ (sorted_keys_ne _ hinv.bidsSorted) _ _ hq0m
    have hdc := foldl_finalize_bids_sbGet b F p q0m hinv.bidsSorted hq0
    rw [h] at hdc
    exact ⟨q0m, hq0, Option.some.inj hdc⟩
  refine ⟨?_, hasksF, finalize_execution_last b F, ?_, ?_, ?_⟩
  · refine ⟨?_, hsorted', ?_, ?_, ?_, ?_, ?_, ?_, ?_, rfl, rfl, ?_, ?_⟩
    · rw [hasksF]
      exact hinv.asksSorted
    · rw [hasksF]
      exact hinv.asksQSorted
    · intro pq hpq
      obtain ⟨p, q'⟩ := pq
      have hget' : sbGet (List.foldl OrderBook.finalize_step b F).bids p = some q' :=
        mem_sbGet _ (sorted_keys_ne _ hsorted') _ _ hpq
      obtain ⟨q0, hq0, hq'⟩ := hlevel p q' hget'
      have hq0s := hinv.bidsQSorted (p, q0) (sbGet_mem _ _ _ hq0)
      rw [hq']
      exact List.Pairwise.sublist (finLevel_fold_sublist _ _ _ _) hq0s
    · intro pq hpq oid hoid
      rw [hasksF] at hpq
      obtain ⟨o, hgo, hoi, hop, hoq⟩ := hinv.asksDir pq hpq oid hoid
      have hnot : oid ∉ List.map FillMetadata.order_2 F := by
        intro hc
        obtain ⟨f, hf, hfo⟩ := List.mem_map.mp hc
        obtain ⟨pq2, hpq2, _, hmem2, _⟩ := hfields f hf
        rw [hfo] at hmem2
        exact hinv.sidesDisjoint pq hpq pq2 (List.mem_reverse.mp hpq2) oid hoid hmem2
      refine ⟨o, ?_, hoi, hop, hoq⟩
      show OrderArena.get (List.foldl OrderBook.finalize_step b F).arena oid = some o
      rw [foldl_finalize_arena_other b F oid hnot]
      exact hgo
    · intro pq hpq oid hoid
      obtain ⟨p, q'⟩ := pq
      have hget' : sbGet (List.foldl OrderBook.finalize_step b F).bids p = some q' :=
        mem_sbGet _ (sorted_keys_ne _ hsorted') _ _ hpq
      obtain ⟨q0, hq0, hq'⟩ := hlevel p q' hget'
      have hq0s := hinv.bidsQSorted (p, q0) (sbGet_mem _ _ _ hq0)
      rw [hq'] at hoid
      obtain ⟨hoidq0, hnotot⟩ := finLevel_fold_mem Side.Bid p q0 F oid hq0s hoid
      obtain ⟨o, hgo, hoi, hop, hoq⟩ := hinv.bidsDir (p, q0) (sbGet_mem _ _ _ hq0) oid hoidq0
      have hFo : ∀ f ∈ F, f.order_2 = oid → f.total_fill = false ∧ f.qty < o.qty := by
        intro f hf hfo
        obtain ⟨pq2, hpq2, hfp, _, hts, _, o2, hg2, _, hop2, _, hpartlt, _⟩ := hfields f hf
        rw [hfo, hgo] at hg2
        obtain rfl : o = o2 := by simpa using hg2
        have hfprice : f.price = p := by rw [hfp, ← hop2, hop]
        have hneg : Side.negate f.taker_side = Side.Bid := by rw [hts]; rfl
        cases hft : f.total_fill with
        | true => exact absurd hfo (hnotot f hf hfprice hneg hft)
        | false => exact ⟨rfl, hpartlt hft⟩
      have hcnt : List.count oid (List.map FillMetadata.order_2 F) ≤ 1 :=
        List.nodup_iff_count_le_one.mp hnodupF oid
      obtain ⟨o', hgo', hid', hpr', _, _, hpos'⟩ :=
        foldl_finalize_arena_surviving b F oid o hgo hFo hcnt
      exact ⟨o', hgo', by rw [hid', hoi], by rw [hpr', hop], hpos' hoq⟩
    · intro pq hpq pq2 hpq2 oid hoid
      rw [hasksF] at hpq
      intro hoid2
      obtain ⟨p, q'⟩ := pq2
      have hget' : sbGet (List.foldl OrderBook.finalize_step b F).bids p = some q' :=
        mem_sbGet _ (sorted_keys_ne _ hsorted') _ _ hpq2
      obtain ⟨q0, hq0, hq'⟩ := hlevel p q' hget'
      rw [hq'] at hoid2
      have hoid0 : oid ∈ q0 := (finLevel_fold_sublist _ _ _ _).mem hoid2
      exact hinv.sidesDisjoint pq hpq (p, q0) (sbGet_mem _ _ _ hq0) oid hoid hoid0
    · intro e he
      obtain ⟨e0, he0, hk0⟩ := foldl_finalize_arena_keys b F e he
      show e.1 ≤ (OrderBook.finalize_execution b F).last_processed_order_id
      rw [finalize_execution_last]
      rw [← hk0]
      exact hinv.arenaLe e0 he0
    · exact foldl_finalize_arena_nodup b F hinv.arenaNodup
    · rw [hasksF]
      exact hinv.asksBounded
    · intro pq hpq
      have hpk : pq.1 ∈ List.map Prod.fst b.bids := hkeys pq hpq
      obtain ⟨q0m, hq0m⟩ := sb_key_mem _ _ hpk
      exact hinv.bidsBounded (pq.1, q0m) hq0m
  · intro p q' hget hne
    exact foldl_finalize_bids_shrink b F p q' hinv.bidsSorted hget hne
  · exact foldl_finalize_arena_keys b F
  · intro l hlp hrem p q' hget hple
    subst hlp
    obtain ⟨q0, hq0, hq'⟩ := hlevel p q' hget
    have hmono : List.Pairwise (fun x y =>
        (decide (x.1 < l) = true → decide (y.1 < l) = true)) (List.reverse b.bids) := by
      refine List.pairwise_reverse.mpr (hinv.bidsSorted.imp ?_)
      intro x y hxy h1
      simp only [decide_eq_true_eq] at h1 ⊢
      omega
    have hbrk : decide (p < l) = false := by
      simp only [decide_eq_false_iff_not]
      omega
    have hrem' : 0 < (OrderBook.matchLoop b.arena (List.reverse b.bids)
        (fun p0 => decide (p0 < l)) id qty Side.Ask).2 := hremE ▸ hrem
    have hemp := matchLoop_level_empty b.arena (List.reverse b.bids)
      (fun p0 => decide (p0 < l)) id qty Side.Ask hneR hmono hdirR hqsR
      hrem' (p, q0) (List.mem_reverse.mpr (sbGet_mem _ _ _ hq0)) hbrk
    rw [hq']
    rw [hF]
    exact hemp

theorem arena_get_pair_mem (a : OrderArena) (k : Nat) (o : LimitOrder)
    (h : OrderArena.get a k = some o) : (k, o) ∈ a := by
  induction a with
  | nil => simp [OrderArena.get] at h
  | cons e rest ih =>
    obtain ⟨ek, ev⟩ := e
    simp only [OrderArena.get] at h
    by_cases hk : ek = k
    · subst hk
      rw [if_pos rfl] at h
      obtain rfl : ev = o := by simpa using h
      exact List.mem_cons_self _ _
    · rw [if_neg hk] at h
      exact List.mem_cons_of_mem _ (ih h)


theorem limitrest_bid (b1 : OrderBook) (id uid price rem : Nat) (hinv : BookInv b1)
    (hfresh : ∀ e ∈ b1.arena, e.1 < id)
    (hidlast : id ≤ b1.last_processed_order_id)
    (hprice : price ≤ U64MAX) (hrem : 0 < rem)
    (b3 : OrderBook)
    (hb3 : b3 = (fun b2 => if b2.max_bid < price then { b2 with max_bid := price } else b2)
      { b1 with arena := OrderArena.insert b1.arena id uid price rem,
                bids := SideBook.entryUpdate b1.bids price (fun q => q ++ [id]) }) :
    BookInv b3 ∧ b3.asks = b1.asks ∧ b3.min_ask = b1.min_ask ∧
    b3.max_bid = max b1.max_bid price ∧
    b3.last_processed_order_id = b1.last_processed_order_id := by
  have hq0s : List.Pairwise (· < ·) ((sbGet b1.bids price).getD []) := by
    cases hg : sbGet b1.bids price with
    | none => simp
    | some q =>
      simpa using hinv.bidsQSorted (price, q) (sbGet_mem _ _ _ hg)
  have hq0dir : ∀ x ∈ (sbGet b1.bids price).getD [],
      ∃ o, OrderArena.get b1.arena x = some o ∧ o.id = x ∧ o.price = price ∧ 0 < o.qty := by
    cases hg : sbGet b1.bids price with
    | none => simp
    | some q =>
      simpa using hinv.bidsDir (price, q) (sbGet_mem _ _ _ hg)
  have hq0lt : ∀ x ∈ (sbGet b1.bids price).getD [], x < id := by
    intro x hx
    obtain ⟨o, hgo, _⟩ := hq0dir x hx
    exact hfresh (x, o) (arena_get_pair_mem _ _ _ hgo)
  have hqn_sorted : List.Pairwise (· < ·) ((sbGet b1.bids price).getD [] ++ [id]) := by
    rw [List.pairwise_append]
    exact ⟨hq0s, List.pairwise_singleton _ _, fun x hx y hy => by
      obtain rfl : y = id := by simpa using hy
      exact hq0lt x hx⟩
  have hbids' : ∀ pq ∈ SideBook.entryUpdate b1.bids price (fun q => q ++ [id]),
      (pq.1 = price ∧ pq.2 = (sbGet b1.bids price).getD [] ++ [id]) ∨ pq ∈ b1.bids := by
    intro pq hpq
    have h1 : sbGet (SideBook.entryUpdate b1.bids price (fun q => q ++ [id])) pq.1 =
        some pq.2 :=
      mem_sbGet _ (sorted_keys_ne _ (entryUpdate_sorted _ _ _ hinv.bidsSorted)) _ _ (by
        obtain ⟨a1, a2⟩ := pq
        exact hpq)
    by_cases hk : pq.1 = price
    · left
      refine ⟨hk, ?_⟩
      rw [hk, sbGet_entryUpdate_self _ _ _ hinv.bidsSorted] at h1
      exact (Option.some.inj h1).symm
    · right
      rw [sbGet_entryUpdate_other _ _ _ _ hk] at h1
      exact sbGet_mem _ _ _ h1
  have harena' : ∀ x, x ≠ id → OrderArena.get (OrderArena.insert b1.arena id uid price rem) x =
      OrderArena.get b1.arena x := fun x hx => arena_get_insert_other _ _ _ _ _ _ hx
  have hgetid : OrderArena.get (OrderArena.insert b1.arena id uid price rem) id =
      some { user_id := uid, id := id, qty := rem, price := price } :=
    arena_get_insert_self _ _ _ _ _
  have hins : OrderArena.insert b1.arena id uid price rem =
      b1.arena ++ [(id, { user_id := uid, id := id, qty := rem, price := price })] :=
    arena_insert_fresh b1.arena id uid price rem (fun e he => Nat.ne_of_lt (hfresh e he))
  have hmemins : ∀ e ∈ OrderArena.insert b1.arena id uid price rem,
      e = (id, { user_id := uid, id := id, qty := rem, price := price }) ∨ e ∈ b1.arena := by
    rw [hins]
    intro e he
    rcases List.mem_append.mp he with h1 | h2
    · exact Or.inr h1
    · exact Or.inl (by simpa using h2)
  have hqn_dir : ∀ x ∈ (sbGet b1.bids price).getD [] ++ [id],
      ∃ o, OrderArena.get (OrderArena.insert b1.arena id uid price rem) x = some o ∧
        o.id = x ∧ o.price = price ∧ 0 < o.qty := by
    intro x hx
    rcases List.mem_append.mp hx with hx0 | hxid
    · obtain ⟨o, hgo, hoi, hop, hoq⟩ := hq0dir x hx0
      refine ⟨o, ?_, hoi, hop, hoq⟩
      rw [harena' x (Nat.ne_of_lt (hq0lt x hx0))]
      exact hgo
    · obtain rfl : x = id := by simpa using hxid
      exact ⟨_, hgetid, rfl, rfl, hrem⟩
  have hcmb : computedMaxBid (SideBook.entryUpdate b1.bids price (fun q => q ++ [id])) =
      max (computedMaxBid b1.bids) price :=
    cmb_entryUpdate_push b1.bids price id hinv.bidsSorted
  have hinv2 : BookInv { b1 with
      arena := OrderArena.insert b1.arena id uid price rem,
      bids := SideBook.entryUpdate b1.bids price (fun q => q ++ [id]),
      max_bid := max b1.max_bid price } := by
    refine ⟨hinv.asksSorted, entryUpdate_sorted _ _ _ hinv.bidsSorted,
      hinv.asksQSorted, ?_, ?_, ?_, ?_, ?_, ?_, hinv.minAskEq, ?_, hinv.asksBounded, ?_⟩
    · intro pq hpq
      rcases hbids' pq hpq with ⟨_, h2⟩ | hold
      · rw [h2]
        exact hqn_sorted
      · exact hinv.bidsQSorted pq hold
    · intro pq hpq oid hoid
      obtain ⟨o, hgo, hoi, hop, hoq⟩ := hinv.asksDir pq hpq oid hoid
      refine ⟨o, ?_, hoi, hop, hoq⟩
      show OrderArena.get (OrderArena.insert b1.arena id uid price rem) oid = some o
      rw [harena' oid (Nat.ne_of_lt (hfresh (oid, o) (arena_get_pair_mem _ _ _ hgo)))]
      exact hgo
    · intro pq hpq oid hoid
      rcases hbids' pq hpq with ⟨hk, h2⟩ | hold
      · rw [h2] at hoid
        obtain ⟨o, hgo, hoi, hop, hoq⟩ := hqn_dir oid hoid
        exact ⟨o, hgo, hoi, by rw [hop, hk], hoq⟩
      · obtain ⟨o, hgo, hoi, hop, hoq⟩ := hinv.bidsDir pq hold oid hoid
        refine ⟨o, ?_, hoi, hop, hoq⟩
        show OrderArena.get (OrderArena.insert b1.arena id uid price rem) oid = some o
        rw [harena' oid (Nat.ne_of_lt (hfresh (oid, o) (arena_get_pair_mem _ _ _ hgo)))]
        exact hgo
    · intro pq hpq pq2 hpq2 oid hoid
      have hlt : oid < id := by
        obtain ⟨o, hgo, _⟩ := hinv.asksDir pq hpq oid hoid
        exact hfresh (oid, o) (arena_get_pair_mem _ _ _ hgo)
      rcases hbids' pq2 hpq2 with ⟨hk, h2⟩ | hold
      · rw [h2]
        intro hc
        rcases List.mem_append.mp hc with h0 | hid2
        · revert h0
          cases hg : sbGet b1.bids price with
          | none => simp
          | some q =>
            intro h0
            exact hinv.sidesDisjoint pq hpq (price, q) (sbGet_mem _ _ _ hg) oid hoid
              (by simpa using h0)
        · exact absurd (by simpa using hid2) (Nat.ne_of_lt hlt)
      · exact hinv.sidesDisjoint pq hpq pq2 hold oid hoid
    · intro e he
      rcases hmemins e he with rfl | hold
      · exact hidlast
      · exact le_trans (Nat.le_of_lt (hfresh e hold)) hidlast
    · rw [hins]
      rw [List.pairwise_append]
      refine ⟨hinv.arenaNodup, List.pairwise_singleton _ _, ?_⟩
      intro x hx y hy
      obtain rfl : y = (id, { user_id := uid, id := id, qty := rem, price := price }) := by
        simpa using hy
      exact Nat.ne_of_lt (hfresh x hx)
    · show max b1.max_bid price =
        computedMaxBid (SideBook.entryUpdate b1.bids price (fun q => q ++ [id]))
      rw [hcmb, hinv.maxBidEq]
    · intro pq hpq
      rcases hbids' pq hpq with ⟨hk, _⟩ | hold
      · rw [hk]
        exact hprice
      · exact hinv.bidsBounded pq hold
  have hb3eq : b3 = { b1 with
      arena := OrderArena.insert b1.arena id uid price rem,
      bids := SideBook.entryUpdate b1.bids price (fun q => q ++ [id]),
      max_bid := max b1.max_bid price } := by
    rw [hb3]
    show (if b1.max_bid < price then _ else _) = _
    by_cases h : b1.max_bid < price
    · rw [if_pos h, Nat.max_eq_right (Nat.le_of_lt h)]
    · rw [if_neg h, Nat.max_eq_left (Nat.not_lt.mp h)]
  rw [hb3eq]
  exact ⟨hinv2, rfl, rfl, rfl, rfl⟩

theorem limitrest_ask (b1 : OrderBook) (id uid price rem : Nat) (hinv : BookInv b1)
    (hfresh : ∀ e ∈ b1.arena, e.1 < id)
    (hidlast : id ≤ b1.last_processed_order_id)
    (hprice : price ≤ U64MAX) (hrem : 0 < rem)
    (b3 : OrderBook)
    (hb3 : b3 = (fun b2 => if price < b2.min_ask then { b2 with min_ask := price } else b2)
      { b1 with arena := OrderArena.insert b1.arena id uid price rem,
                asks := SideBook.entryUpdate b1.asks price (fun q => q ++ [id]) }) :
    BookInv b3 ∧ b3.bids = b1.bids ∧ b3.max_bid = b1.max_bid ∧
    b3.min_ask = min b1.min_ask price ∧
    b3.last_processed_order_id = b1.last_processed_order_id := by
  have hq0s : List.Pairwise (· < ·) ((sbGet b1.asks price).getD []) := by
    cases hg : sbGet b1.asks price with
    | none => simp
    | some q =>
      simpa using hinv.asksQSorted (price, q) (sbGet_mem _ _ _ hg)
  have hq0dir : ∀ x ∈ (sbGet b1.asks price).getD [],
      ∃ o, OrderArena.get b1.arena x = some o ∧ o.id = x ∧ o.price = price ∧ 0 < o.qty := by
    cases hg : sbGet b1.asks price with
    | none => simp
    | some q =>
      simpa using hinv.asksDir (price, q) (sbGet_mem _ _ _ hg)
  have hq0lt : ∀ x ∈ (sbGet b1.asks price).getD [], x < id := by
    intro x hx
    obtain ⟨o, hgo, _⟩ := hq0dir x hx
    exact hfresh (x, o) (arena_get_pair_mem _ _ _ hgo)
  have hqn_sorted : List.Pairwise (· < ·) ((sbGet b1.asks price).getD [] ++ [id]) := by
    rw [List.pairwise_append]
    exact ⟨hq0s, List.pairwise_singleton _ _, fun x hx y hy => by
      obtain rfl : y = id := by simpa using hy
      exact hq0lt x hx⟩
  have hasks' : ∀ pq ∈ SideBook.entryUpdate b1.asks price (fun q => q ++ [id]),
      (pq.1 = price ∧ pq.2 = (sbGet b1.asks price).getD [] ++ [id]) ∨ pq ∈ b1.asks := by
    intro pq hpq
    have h1 : sbGet (SideBook.entryUpdate b1.asks price (fun q => q ++ [id])) pq.1 =
        some pq.2 :=
      mem_sbGet _ (sorted_keys_ne _ (entryUpdate_sorted _ _ _ hinv.asksSorted)) _ _ (by
        obtain ⟨a1, a2⟩ := pq
        exact hpq)
    by_cases hk : pq.1 = price
    · left
      refine ⟨hk, ?_⟩
      rw [hk, sbGet_entryUpdate_self _ _ _ hinv.asksSorted] at h1
      exact (Option.some.inj h1).symm
    · right
      rw [sbGet_entryUpdate_other _ _ _ _ hk] at h1
      exact sbGet_mem _ _ _ h1
  have harena' : ∀ x, x ≠ id → OrderArena.get (OrderArena.insert b1.arena id uid price rem) x =
      OrderArena.get b1.arena x := fun x hx => arena_get_insert_other _ _ _ _ _ _ hx
  have hgetid : OrderArena.get (OrderArena.insert b1.arena id uid price rem) id =
      some { user_id := uid, id := id, qty := rem, price := price } :=
    arena_get_insert_self _ _ _ _ _
  have hins : OrderArena.insert b1.arena id uid price rem =
      b1.arena ++ [(id, { user_id := uid, id := id, qty := rem, price := price })] :=
    arena_insert_fresh b1.arena id uid price rem (fun e he => Nat.ne_of_lt (hfresh e he))
  have hmemins : ∀ e ∈ OrderArena.insert b1.arena id uid price rem,
      e = (id, { user_id := uid, id := id, qty := rem, price := price }) ∨ e ∈ b1.arena := by
    rw [hins]
    intro e he
    rcases List.mem_append.mp he with h1 | h2
    · exact Or.inr h1
    · exact Or.inl (by simpa using h2)
  have hqn_dir : ∀ x ∈ (sbGet b1.asks price).getD [] ++ [id],
      ∃ o, OrderArena.get (OrderArena.insert b1.arena id uid price rem) x = some o ∧
        o.id = x ∧ o.price = price ∧ 0 < o.qty := by
    intro x hx
    rcases List.mem_append.mp hx with hx0 | hxid
    · obtain ⟨o, hgo, hoi, hop, hoq⟩ := hq0dir x hx0
      refine ⟨o, ?_, hoi, hop, hoq⟩
      rw [harena' x (Nat.ne_of_lt (hq0lt x hx0))]
      exact hgo
    · obtain rfl : x = id := by simpa using hxid
      exact ⟨_, hgetid, rfl, rfl, hrem⟩
  have hcma : computedMinAsk (SideBook.entryUpdate b1.asks price (fun q => q ++ [id])) =
      min (computedMinAsk b1.asks) price :=
    cma_entryUpdate_push b1.asks price id hinv.asksSorted hprice hinv.asksBounded
  have hinv2 : BookInv { b1 with
      arena := OrderArena.insert b1.arena id uid price rem,
      asks := SideBook.entryUpdate b1.asks price (fun q => q ++ [id]),
      min_ask := min b1.min_ask price } := by
    refine ⟨entryUpdate_sorted _ _ _ hinv.asksSorted, hinv.bidsSorted,
      ?_, hinv.bidsQSorted, ?_, ?_, ?_, ?_, ?_, ?_, hinv.maxBidEq, ?_, hinv.bidsBounded⟩
    · intro pq hpq
      rcases hasks' pq hpq with ⟨_, h2⟩ | hold
      · rw [h2]
        exact hqn_sorted
      · exact hinv.asksQSorted pq hold
    · intro pq hpq oid hoid
      rcases hasks' pq hpq with ⟨hk, h2⟩ | hold
      · rw [h2] at hoid
        obtain ⟨o, hgo, hoi, hop, hoq⟩ := hqn_dir oid hoid
        exact ⟨o, hgo, hoi, by rw [hop, hk], hoq⟩
      · obtain ⟨o, hgo, hoi, hop, hoq⟩ := hinv.asksDir pq hold oid hoid
        refine ⟨o, ?_, hoi, hop, hoq⟩
        show OrderArena.get (OrderArena.insert b1.arena id uid price rem) oid = some o
        rw [harena' oid (Nat.ne_of_lt (hfresh (oid, o) (arena_get_pair_mem _ _ _ hgo)))]
        exact hgo
    · intro pq hpq oid hoid
      obtain ⟨o, hgo, hoi, hop, hoq⟩ := hinv.bidsDir pq hpq oid hoid
      refine ⟨o, ?_, hoi, hop, hoq⟩
      show OrderArena.get (OrderArena.insert b1.arena id uid price rem) oid = some o
      rw [harena' oid (Nat.ne_of_lt (hfresh (oid, o) (arena_get_pair_mem _ _ _ hgo)))]
      exact hgo
    · intro pq hpq pq2 hpq2 oid hoid
      rcases hasks' pq hpq with ⟨hk, h2⟩ | hold
      · rw [h2] at hoid
        rcases List.mem_append.mp hoid with h0 | hid2
        · revert h0
          cases hg : sbGet b1.asks price with
          | none => simp
          | some q =>
            intro h0
            exact hinv.sidesDisjoint (price, q) (sbGet_mem _ _ _ hg) pq2 hpq2 oid
              (by simpa using h0)
        · obtain rfl : oid = id := by simpa using hid2
          intro hc
          obtain ⟨o, hgo, _⟩ := hinv.bidsDir pq2 hpq2 oid hc
          exact absurd rfl (Nat.ne_of_lt (hfresh (oid, o) (arena_get_pair_mem _ _ _ hgo)))
      · exact hinv.sidesDisjoint pq hold pq2 hpq2 oid hoid
    · intro e he
      rcases hmemins e he with rfl | hold
      · exact hidlast
      · exact le_trans (Nat.le_of_lt (hfresh e hold)) hidlast
    · rw [hins]
      rw [List.pairwise_append]
      refine ⟨hinv.arenaNodup, List.pairwise_singleton _ _, ?_⟩
      intro x hx y hy
      obtain rfl : y = (id, { user_id := uid, id := id, qty := rem, price := price }) := by
        simpa using hy
      exact Nat.ne_of_lt (hfresh x hx)
    · show min b1.min_ask price =
        computedMinAsk (SideBook.entryUpdate b1.asks price (fun q => q ++ [id]))
      rw [hcma, hinv.minAskEq]
    · intro pq hpq
      rcases hasks' pq hpq with ⟨hk, _⟩ | hold
      · rw [hk]
        exact hprice
      · exact hinv.asksBounded pq hold
  have hb3eq : b3 = { b1 with
      arena := OrderArena.insert b1.arena id uid price rem,
      asks := SideBook.entryUpdate b1.asks price (fun q => q ++ [id]),
      min_ask := min b1.min_ask price } := by
    rw [hb3]
    show (if price < b1.min_ask then _ else _) = _
    by_cases h : price < b1.min_ask
    · rw [if_pos h, Nat.min_eq_right (Nat.le_of_lt h)]
    · rw [if_neg h, Nat.min_eq_left (Nat.not_lt.mp h)]
  rw [hb3eq]
  exact ⟨hinv2, rfl, rfl, rfl, rfl⟩

theorem updateExisting_sbGet (m : SideBook) (p : Nat) (f : List Nat → List Nat) (x : Nat) :
    sbGet (SideBook.updateExisting m p f) x =
      if x = p then Option.map f (sbGet m p) else sbGet m x := by
  induction m with
  | nil =>
    simp only [SideBook.updateExisting, sbGet]
    split <;> rfl
  | cons hd rest ih =>
    obtain ⟨k, q⟩ := hd
    simp only [SideBook.updateExisting]
    by_cases hk : k = p
    · rw [if_pos hk]
      subst hk
      by_cases hx : k = x
      · subst hx
        simp [sbGet]
      · simp only [sbGet, if_neg hx]
        rw [if_neg (show ¬x = k from fun h => hx h.symm)]
    · rw [if_neg hk]
      by_cases hx : k = x
      · subst hx
        simp [sbGet, if_neg hk]
      · simp only [sbGet, if_neg hx, if_neg hk]
        exact ih

theorem cma_mono (m m2 : SideBook)
    (hs : List.Pairwise (fun x y => x.1 < y.1) m)
    (hs2 : List.Pairwise (fun x y => x.1 < y.1) m2)
    (hb : ∀ pq ∈ m, pq.1 ≤ U64MAX)
    (hshrink : ∀ p q', sbGet m2 p = some q' → q' ≠ [] →
      ∃ q0, sbGet m p = some q0 ∧ q0 ≠ []) :
    computedMinAsk m ≤ computedMinAsk m2 := by
  rcases cma_mem m2 with h | ⟨pq, hpq, hne, h⟩
  · rw [h]
    exact cma_bounded m hb
  · rw [h]
    obtain ⟨q0, hq0, hq0ne⟩ := hshrink pq.1 pq.2
      (mem_sbGet _ (sorted_keys_ne _ hs2) _ _ (by obtain ⟨a1, a2⟩ := pq; exact hpq)) hne
    exact cma_le m hs pq.1 q0 (sbGet_mem _ _ _ hq0) hq0ne

theorem cmb_mono (m m2 : SideBook)
    (hs : List.Pairwise (fun x y => x.1 < y.1) m)
    (hs2 : List.Pairwise (fun x y => x.1 < y.1) m2)
    (hshrink : ∀ p q', sbGet m2 p = some q' → q' ≠ [] →
      ∃ q0, sbGet m p = some q0 ∧ q0 ≠ []) :
    computedMaxBid m2 ≤ computedMaxBid m := by
  rcases cmb_mem m2 with h | ⟨pq, hpq, hne, h⟩
  · rw [h]
    exact Nat.zero_le _
  · rw [h]
    obtain ⟨q0, hq0, hq0ne⟩ := hshrink pq.1 pq.2
      (mem_sbGet _ (sorted_keys_ne _ hs2) _ _ (by obtain ⟨a1, a2⟩ := pq; exact hpq)) hne
    exact cmb_ge m hs pq.1 q0 (sbGet_mem _ _ _ hq0) hq0ne

theorem recordTrade_inv (b : OrderBook) (q : Nat) (fl : List FillMetadata)
    (h : BookInv b) : BookInv (OrderBook.recordTrade b q fl) :=
  ⟨h.asksSorted, h.bidsSorted, h.asksQSorted, h.bidsQSorted, h.asksDir, h.bidsDir,
    h.sidesDisjoint, h.arenaLe, h.arenaNodup, h.minAskEq, h.maxBidEq,
    h.asksBounded, h.bidsBounded⟩

theorem executeTail_book (b : OrderBook) (c : OrderType) :
    (OrderBook.executeTail b c).2 = (OrderBook._execute b c).2 ∨
    ∃ q fl, (OrderBook.executeTail b c).2 =
      OrderBook.recordTrade (OrderBook._execute b c).2 q fl := by
  simp only [OrderBook.executeTail]
  split
  · exact Or.inl rfl
  · split
    · exact Or.inr ⟨_, _, rfl⟩
    · exact Or.inr ⟨_, _, rfl⟩
    · exact Or.inl rfl

theorem executeTail_good (b : OrderBook) (c : OrderType)
    (h : BookInv (OrderBook._execute b c).2 ∧
      (OrderBook._execute b c).2.max_bid ≤ (OrderBook._execute b c).2.min_ask) :
    BookInv (OrderBook.executeTail b c).2 ∧
      (OrderBook.executeTail b c).2.max_bid ≤ (OrderBook.executeTail b c).2.min_ask := by
  rcases executeTail_book b c with he | ⟨q, fl, he⟩
  · rw [he]
    exact h
  · rw [he]
    exact ⟨recordTrade_inv _ _ _ h.1, h.2⟩

theorem _execute_market_book (b : OrderBook) (id uid : Nat) (side : Side) (qty : Nat) :
    (OrderBook._execute b (OrderType.Market id uid side qty)).2 =
      (OrderBook.market b id side qty).1 := by
  simp only [OrderBook._execute]
  split
  · rfl
  · split <;> rfl

theorem _execute_limit_book (b : OrderBook) (id uid : Nat) (side : Side) (qty price : Nat) :
    (OrderBook._execute b (OrderType.Limit id uid side qty price)).2 =
      (OrderBook.limit b id uid side qty price).1 := by
  simp only [OrderBook._execute]
  split
  · rfl
  · split <;> rfl

theorem _execute_ioc_book (b : OrderBook) (id uid : Nat) (side : Side) (qty price : Nat) :
    (OrderBook._execute b (OrderType.IOC id uid side qty price)).2 =
      (OrderBook.ioc b id side qty price).1 := by
  simp only [OrderBook._execute]
  split
  · rfl
  · split <;> rfl

theorem _execute_fok_book (b : OrderBook) (id uid : Nat) (side : Side) (qty price : Nat) :
    (OrderBook._execute b (OrderType.FOK id uid side qty price)).2 =
      (OrderBook.fok b id uid side qty price).1 := by
  simp only [OrderBook._execute]
  split
  · rfl
  · split
    · rfl
    · split <;> rfl

theorem _execute_cancel_book (b : OrderBook) (id : Nat) :
    (OrderBook._execute b (OrderType.Cancel id)).2 = OrderBook.cancel b id := rfl

theorem cancel_good (b : OrderBook) (id : Nat) (hinv : BookInv b)
    (hnc : b.max_bid ≤ b.min_ask) :
    BookInv (OrderBook.cancel b id) ∧
      (OrderBook.cancel b id).max_bid ≤ (OrderBook.cancel b id).min_ask := by
  cases hga : OrderArena.get b.arena id with
  | none =>
    have hc : OrderBook.cancel b id = { b with
        min_ask := computedMinAsk b.asks,
        max_bid := computedMaxBid b.bids,
        arena := OrderArena.delete b.arena id } := by
      simp only [OrderBook.cancel, hga, OrderBook.update_min_ask, OrderBook.update_max_bid]
    rw [hc]
    have hdirs : ∀ (dir : ∀ pq ∈ b.asks, ∀ oid ∈ pq.2, ∃ o,
        OrderArena.get b.arena oid = some o ∧ o.id = oid ∧ o.price = pq.1 ∧ 0 < o.qty),
        ∀ pq ∈ b.asks, ∀ oid ∈ pq.2, ∃ o,
        OrderArena.get (OrderArena.delete b.arena id) oid = some o ∧ o.id = oid ∧
          o.price = pq.1 ∧ 0 < o.qty := by
      intro dir pq hpq oid hoid
      obtain ⟨o, hgo, hoi, hop, hoq⟩ := dir pq hpq oid hoid
      have hne : id ≠ oid := by
        intro h
        rw [← h, hga] at hgo
        exact Option.noConfusion hgo
      refine ⟨o, ?_, hoi, hop, hoq⟩
      rw [arena_get_delete_other b.arena id oid hne]
      exact hgo
    refine ⟨⟨hinv.asksSorted, hinv.bidsSorted, hinv.asksQSorted, hinv.bidsQSorted,
      hdirs hinv.asksDir, ?_, hinv.sidesDisjoint, ?_, ?_, rfl, rfl,
      hinv.asksBounded, hinv.bidsBounded⟩, ?_⟩
    · intro pq hpq oid hoid
      obtain ⟨o, hgo, hoi, hop, hoq⟩ := hinv.bidsDir pq hpq oid hoid
      have hne : id ≠ oid := by
        intro h
        rw [← h, hga] at hgo
        exact Option.noConfusion hgo
      refine ⟨o, ?_, hoi, hop, hoq⟩
      rw [arena_get_delete_other b.arena id oid hne]
      exact hgo
    · intro e he
      exact hinv.arenaLe e ((arena_delete_sublist b.arena id).mem he)
    · exact List.Pairwise.sublist (arena_delete_sublist b.arena id) hinv.arenaNodup
    · show computedMaxBid b.bids ≤ computedMinAsk b.asks
      rw [← hinv.maxBidEq, ← hinv.minAskEq]
      exact hnc
  | some order =>
    have hc : OrderBook.cancel b id = { b with
        asks := SideBook.updateExisting b.asks order.price (fun q => List.erase q id),
        bids := SideBook.updateExisting b.bids order.price (fun q => List.erase q id),
        min_ask := computedMinAsk
          (SideBook.updateExisting b.asks order.price (fun q => List.erase q id)),
        max_bid := computedMaxBid
          (SideBook.updateExisting b.bids order.price (fun q => List.erase q id)),
        arena := OrderArena.delete b.arena id } := by
      simp only [OrderBook.cancel, hga, OrderBook.update_min_ask, OrderBook.update_max_bid]
    rw [hc]
    have hshrinkA : ∀ p q', sbGet (SideBook.updateExisting b.asks order.price
        (fun q => List.erase q id)) p = some q' → q' ≠ [] →
        ∃ q0, sbGet b.asks p = some q0 ∧ q0 ≠ [] := by
      intro p q' h hne
      rw [updateExisting_sbGet] at h
      by_cases hk : p = order.price
      · rw [if_pos hk] at h
        cases hg : sbGet b.asks order.price with
        | none => rw [hg] at h; exact Option.noConfusion h
        | some q0 =>
          rw [hg] at h
          obtain hq' : q' = List.erase q0 id := by simpa using h.symm
          refine ⟨q0, by rw [hk]; exact hg, ?_⟩
          intro h0
          subst h0
          exact hne (by simpa using hq')
      · rw [if_neg hk] at h
        refine ⟨q', h, hne⟩
    have hshrinkB : ∀ p q', sbGet (SideBook.updateExisting b.bids order.price
        (fun q => List.erase q id)) p = some q' → q' ≠ [] →
        ∃ q0, sbGet b.bids p = some q0 ∧ q0 ≠ [] := by
      intro p q' h hne
      rw [updateExisting_sbGet] at h
      by_cases hk : p = order.price
      · rw [if_pos hk] at h
        cases hg : sbGet b.bids order.price with
        | none => rw [hg] at h; exact Option.noConfusion h
        | some q0 =>
          rw [hg] at h
          obtain hq' : q' = List.erase q0 id := by simpa using h.symm
          refine ⟨q0, by rw [hk]; exact hg, ?_⟩
          intro h0
          subst h0
          exact hne (by simpa using hq')
      · rw [if_neg hk] at h
        refine ⟨q', h, hne⟩
    have hlevA : ∀ pq ∈ SideBook.updateExisting b.asks order.price
        (fun q => List.erase q id), ∃ q, (pq.1, q) ∈ b.asks ∧
        ((pq.1 ≠ order.price ∧ pq.2 = q) ∨ (pq.1 = order.price ∧ pq.2 = List.erase q id)) := by
      intro pq hpq
      have h1 : sbGet (SideBook.updateExisting b.asks order.price
          (fun q => List.erase q id)) pq.1 = some pq.2 :=
        mem_sbGet _ (sorted_keys_ne _ (updateExisting_sorted _ _ _ hinv.asksSorted)) _ _
          (by obtain ⟨a1, a2⟩ := pq; exact hpq)
      rw [updateExisting_sbGet] at h1
      by_cases hk : pq.1 = order.price
      · rw [if_pos hk] at h1
        cases hg : sbGet b.asks order.price with
        | none => rw [hg] at h1; exact Option.noConfusion h1
        | some q0 =>
          rw [hg] at h1
          exact ⟨q0, by rw [hk]; exact sbGet_mem _ _ _ hg,
            Or.inr ⟨hk, by simpa using h1.symm⟩⟩
      · rw [if_neg hk] at h1
        exact ⟨pq.2, sbGet_mem _ _ _ h1, Or.inl ⟨hk, rfl⟩⟩
    have hlevB : ∀ pq ∈ SideBook.updateExisting b.bids order.price
        (fun q => List.erase q id), ∃ q, (pq.1, q) ∈ b.bids ∧
        ((pq.1 ≠ order.price ∧ pq.2 = q) ∨ (pq.1 = order.price ∧ pq.2 = List.erase q id)) := by
      intro pq hpq
      have h1 : sbGet (SideBook.updateExisting b.bids order.price
          (fun q => List.erase q id)) pq.1 = some pq.2 :=
        mem_sbGet _ (sorted_keys_ne _ (updateExisting_sorted _ _ _ hinv.bidsSorted)) _ _
          (by obtain ⟨a1, a2⟩ := pq; exact hpq)
      rw [updateExisting_sbGet] at h1
      by_cases hk : pq.1 = order.price
      · rw [if_pos hk] at h1
        cases hg : sbGet b.bids order.price with
        | none => rw [hg] at h1; exact Option.noConfusion h1
        | some q0 =>
          rw [hg] at h1
          exact ⟨q0, by rw [hk]; exact sbGet_mem _ _ _ hg,
            Or.inr ⟨hk, by simpa using h1.symm⟩⟩
      · rw [if_neg hk] at h1
        exact ⟨pq.2, sbGet_mem _ _ _ h1, Or.inl ⟨hk, rfl⟩⟩
    refine ⟨⟨updateExisting_sorted _ _ _ hinv.asksSorted,
      updateExisting_sorted _ _ _ hinv.bidsSorted, ?_, ?_, ?_, ?_, ?_, ?_, ?_, rfl, rfl,
      ?_, ?_⟩, ?_⟩
    · intro pq hpq
      obtain ⟨q, hq, hcase⟩ := hlevA pq hpq
      have hqs := hinv.asksQSorted (pq.1, q) hq
      rcases hcase with ⟨_, h1⟩ | ⟨_, h2⟩
      · rw [h1]
        exact hqs
      · rw [h2]
        exact List.Pairwise.sublist (q.erase_sublist id) hqs
    · intro pq hpq
      obtain ⟨q, hq, hcase⟩ := hlevB pq hpq
      have hqs := hinv.bidsQSorted (pq.1, q) hq
      rcases hcase with ⟨_, h1⟩ | ⟨_, h2⟩
      · rw [h1]
        exact hqs
      · rw [h2]
        exact List.Pairwise.sublist (q.erase_sublist id) hqs
    · intro pq hpq oid hoid
      obtain ⟨q, hq, hcase⟩ := hlevA pq hpq
      have hnd : q.Nodup := (hinv.asksQSorted (pq.1, q) hq).imp (fun h => Nat.ne_of_lt h)
      have hmain : oid ∈ q ∧ oid ≠ id := by
        rcases hcase with ⟨hk1, h1⟩ | ⟨hk, h2⟩
        · rw [h1] at hoid
          refine ⟨hoid, ?_⟩
          intro h0
          obtain ⟨o, hgo, hoi, hop, _⟩ := hinv.asksDir (pq.1, q) hq oid hoid
          rw [h0, hga] at hgo
          obtain rfl : order = o := by simpa using hgo
          exact hk1 hop.symm
        · rw [h2] at hoid
          obtain ⟨hne, hmem⟩ := hnd.mem_erase_iff.mp hoid
          exact ⟨hmem, hne⟩
      obtain ⟨o, hgo, hoi, hop, hoq⟩ := hinv.asksDir (pq.1, q) hq oid hmain.1
      refine ⟨o, ?_, hoi, hop, hoq⟩
      rw [arena_get_delete_other b.arena id oid (fun h => hmain.2 h.symm)]
      exact hgo
    · intro pq hpq oid hoid
      obtain ⟨q, hq, hcase⟩ := hlevB pq hpq
      have hnd : q.Nodup := (hinv.bidsQSorted (pq.1, q) hq).imp (fun h => Nat.ne_of_lt h)
      have hmain : oid ∈ q ∧ oid ≠ id := by
        rcases hcase with ⟨hk1, h1⟩ | ⟨hk, h2⟩
        · rw [h1] at hoid
          refine ⟨hoid, ?_⟩
          intro h0
          obtain ⟨o, hgo, hoi, hop, _⟩ := hinv.bidsDir (pq.1, q) hq oid hoid
          rw [h0, hga] at hgo
          obtain rfl : order = o := by simpa using hgo
          exact hk1 hop.symm
        · rw [h2] at hoid
          obtain ⟨hne, hmem⟩ := hnd.mem_erase_iff.mp hoid
          exact ⟨hmem, hne⟩
      obtain ⟨o, hgo, hoi, hop, hoq⟩ := hinv.bidsDir (pq.1, q) hq oid hmain.1
      refine ⟨o, ?_, hoi, hop, hoq⟩
      rw [arena_get_delete_other b.arena id oid (fun h => hmain.2 h.symm)]
      exact hgo
    · intro pq hpq pq2 hpq2 oid hoid
      obtain ⟨q, hq, hcase⟩ := hlevA pq hpq
      obtain ⟨q2, hq2, hcase2⟩ := hlevB pq2 hpq2
      have hoidq : oid ∈ q := by
        rcases hcase with ⟨_, h1⟩ | ⟨_, h2⟩
        · rw [h1] at hoid; exact hoid
        · rw [h2] at hoid; exact (q.erase_sublist id).mem hoid
      have hdisj := hinv.sidesDisjoint (pq.1, q) hq (pq2.1, q2) hq2 oid hoidq
      rcases hcase2 with ⟨_, h1⟩ | ⟨_, h2⟩
      · rw [h1]; exact hdisj
      · rw [h2]
        intro hc2
        exact hdisj ((q2.erase_sublist id).mem hc2)
    · intro e he
      exact hinv.arenaLe e ((arena_delete_sublist b.arena id).mem he)
    · exact List.Pairwise.sublist (arena_delete_sublist b.arena id) hinv.arenaNodup
    · intro pq hpq
      obtain ⟨q, hq, _⟩ := hlevA pq hpq
      exact hinv.asksBounded (pq.1, q) hq
    · intro pq hpq
      obtain ⟨q, hq, _⟩ := hlevB pq hpq
      exact hinv.bidsBounded (pq.1, q) hq
    · show computedMaxBid (SideBook.updateExisting b.bids order.price
          (fun q => List.erase q id)) ≤
        computedMinAsk (SideBook.updateExisting b.asks order.price
          (fun q => List.erase q id))
      calc computedMaxBid (SideBook.updateExisting b.bids order.price
            (fun q => List.erase q id))
          ≤ computedMaxBid b.bids := cmb_mono b.bids _ hinv.bidsSorted
            (updateExisting_sorted _ _ _ hinv.bidsSorted) hshrinkB
        _ ≤ computedMinAsk b.asks := by rw [← hinv.maxBidEq, ← hinv.minAskEq]; exact hnc
        _ ≤ computedMinAsk (SideBook.updateExisting b.asks order.price
            (fun q => List.erase q id)) := cma_mono b.asks _ hinv.asksSorted
            (updateExisting_sorted _ _ _ hinv.asksSorted) hinv.asksBounded hshrinkA

theorem cross_of_shrink_bid (b b1 : OrderBook) (hinv : BookInv b) (hinv1 : BookInv b1)
    (hnc : b.max_bid ≤ b.min_ask)
    (hbids : b1.bids = b.bids)
    (hshrink : ∀ p q', sbGet b1.asks p = some q' → q' ≠ [] →
      ∃ q0, sbGet b.asks p = some q0 ∧ q0 ≠ []) :
    b1.max_bid ≤ b1.min_ask := by
  rw [hinv1.maxBidEq, hinv1.minAskEq, hbids, ← hinv.maxBidEq]
  calc b.max_bid ≤ b.min_ask := hnc
    _ = computedMinAsk b.asks := hinv.minAskEq
    _ ≤ computedMinAsk b1.asks := cma_mono _ _ hinv.asksSorted hinv1.asksSorted
        hinv.asksBounded hshrink

theorem cross_of_shrink_ask (b b1 : OrderBook) (hinv : BookInv b) (hinv1 : BookInv b1)
    (hnc : b.max_bid ≤ b.min_ask)
    (hasks : b1.asks = b.asks)
    (hshrink : ∀ p q', sbGet b1.bids p = some q' → q' ≠ [] →
      ∃ q0, sbGet b.bids p = some q0 ∧ q0 ≠ []) :
    b1.max_bid ≤ b1.min_ask := by
  rw [hinv1.maxBidEq, hinv1.minAskEq, hasks, ← hinv.minAskEq]
  calc computedMaxBid b1.bids ≤ computedMaxBid b.bids :=
      cmb_mono _ _ hinv.bidsSorted hinv1.bidsSorted hshrink
    _ = b.max_bid := hinv.maxBidEq.symm
    _ ≤ b.min_ask := hnc

theorem price_le_minask (b1 : OrderBook) (hinv1 : BookInv b1) (price : Nat)
    (hprice : price ≤ U64MAX)
    (hempty : ∀ p q', sbGet b1.asks p = some q' → p ≤ price → q' = []) :
    price ≤ b1.min_ask := by
  rw [hinv1.minAskEq]
  rcases cma_mem b1.asks with h | ⟨pq, hpq, hne, h⟩
  · rw [h]
    exact hprice
  · rw [h]
    by_contra hlt
    push_neg at hlt
    refine hne (hempty pq.1 pq.2 ?_ (Nat.le_of_lt hlt))
    exact mem_sbGet _ (sorted_keys_ne _ hinv1.asksSorted) _ _
      (by obtain ⟨a1, a2⟩ := pq; exact hpq)

theorem maxbid_le_price (b1 : OrderBook) (hinv1 : BookInv b1) (price : Nat)
    (hempty : ∀ p q', sbGet b1.bids p = some q' → price ≤ p → q' = []) :
    b1.max_bid ≤ price := by
  rw [hinv1.maxBidEq]
  rcases cmb_mem b1.bids with h | ⟨pq, hpq, hne, h⟩
  · rw [h]
    exact Nat.zero_le _
  · rw [h]
    by_contra hlt
    push_neg at hlt
    refine hne (hempty pq.1 pq.2 ?_ (Nat.le_of_lt hlt))
    exact mem_sbGet _ (sorted_keys_ne _ hinv1.bidsSorted) _ _
      (by obtain ⟨a1, a2⟩ := pq; exact hpq)

theorem market_good (b : OrderBook) (id : Nat) (side : Side) (qty : Nat)
    (hinv : BookInv b) (hnc : b.max_bid ≤ b.min_ask) :
    BookInv (OrderBook.market b id side qty).1 ∧
      (OrderBook.market b id side qty).1.max_bid ≤
        (OrderBook.market b id side qty).1.min_ask := by
  cases side with
  | Bid =>
    obtain ⟨hinv1, hbids, hlast1, hshrink, hkeys, _⟩ :=
      matchfin_bid b id qty none hinv
        (OrderBook.match_with_asks b id qty none).1
        (OrderBook.match_with_asks b id qty none).2 rfl
        (OrderBook.finalize_execution b (OrderBook.match_with_asks b id qty none).1) rfl
    exact ⟨hinv1, cross_of_shrink_bid b _ hinv hinv1 hnc hbids hshrink⟩
  | Ask =>
    obtain ⟨hinv1, hasks, hlast1, hshrink, hkeys, _⟩ :=
      matchfin_ask b id qty none hinv
        (OrderBook.match_with_bids b id qty none).1
        (OrderBook.match_with_bids b id qty none).2 rfl
        (OrderBook.finalize_execution b (OrderBook.match_with_bids b id qty none).1) rfl
    exact ⟨hinv1, cross_of_shrink_ask b _ hinv hinv1 hnc hasks hshrink⟩

theorem ioc_good (b : OrderBook) (id : Nat) (side : Side) (qty price : Nat)
    (hinv : BookInv b) (hnc : b.max_bid ≤ b.min_ask) :
    BookInv (OrderBook.ioc b id side qty price).1 ∧
      (OrderBook.ioc b id side qty price).1.max_bid ≤
        (OrderBook.ioc b id side qty price).1.min_ask := by
  cases side with
  | Bid =>
    obtain ⟨hinv1, hbids, hlast1, hshrink, hkeys, _⟩ :=
      matchfin_bid b id qty (some price) hinv
        (OrderBook.match_with_asks b id qty (some price)).1
        (OrderBook.match_with_asks b id qty (some price)).2 rfl
        (OrderBook.finalize_execution b
          (OrderBook.match_with_asks b id qty (some price)).1) rfl
    exact ⟨hinv1, cross_of_shrink_bid b _ hinv hinv1 hnc hbids hshrink⟩
  | Ask =>
    obtain ⟨hinv1, hasks, hlast1, hshrink, hkeys, _⟩ :=
      matchfin_ask b id qty (some price) hinv
        (OrderBook.match_with_bids b id qty (some price)).1
        (OrderBook.match_with_bids b id qty (some price)).2 rfl
        (OrderBook.finalize_execution b
          (OrderBook.match_with_bids b id qty (some price)).1) rfl
    exact ⟨hinv1, cross_of_shrink_ask b _ hinv hinv1 hnc hasks hshrink⟩

theorem limit_good (b : OrderBook) (id uid : Nat) (side : Side) (qty price : Nat)
    (hinv : BookInv b) (hnc : b.max_bid ≤ b.min_ask)
    (hfresh : ∀ e ∈ b.arena, e.1 < id)
    (hidlast : id ≤ b.last_processed_order_id)
    (hprice : price ≤ U64MAX) :
    BookInv (OrderBook.limit b id uid side qty price).1 ∧
      (OrderBook.limit b id uid side qty price).1.max_bid ≤
        (OrderBook.limit b id uid side qty price).1.min_ask := by
  cases side with
  | Bid =>
    obtain ⟨hinv1, hbids, hlast1, hshrink, hkeys, hempty⟩ :=
      matchfin_bid b id qty (some price) hinv
        (OrderBook.match_with_asks b id qty (some price)).1
        (OrderBook.match_with_asks b id qty (some price)).2 rfl
        (OrderBook.finalize_execution b
          (OrderBook.match_with_asks b id qty (some price)).1) rfl
    have hcross1 := cross_of_shrink_bid b _ hinv hinv1 hnc hbids hshrink
    by_cases hr : 0 < (OrderBook.match_with_asks b id qty (some price)).2
    · have hfresh1 : ∀ e ∈ (OrderBook.finalize_execution b
          (OrderBook.match_with_asks b id qty (some price)).1).arena, e.1 < id := by
        intro e he
        obtain ⟨e0, he0, hk0⟩ := hkeys e he
        rw [← hk0]
        exact hfresh e0 he0
      have hidlast1 : id ≤ (OrderBook.finalize_execution b
          (OrderBook.match_with_asks b id qty (some price)).1).last_processed_order_id := by
        rw [hlast1]
        exact hidlast
      have hbook : (OrderBook.limit b id uid Side.Bid qty price).1 =
          (fun b2 => if b2.max_bid < price then { b2 with max_bid := price } else b2)
          { (OrderBook.finalize_execution b
              (OrderBook.match_with_asks b id qty (some price)).1) with
            arena := OrderArena.insert (OrderBook.finalize_execution b
              (OrderBook.match_with_asks b id qty (some price)).1).arena id uid price
              (OrderBook.match_with_asks b id qty (some price)).2,
            bids := SideBook.entryUpdate (OrderBook.finalize_execution b
              (OrderBook.match_with_asks b id qty (some price)).1).bids price
              (fun q => q ++ [id]) } := by
        simp only [OrderBook.limit]
        rw [if_pos hr]
      obtain ⟨hinv3, hasks3, hmin3, hmax3, hlast3⟩ :=
        limitrest_bid _ id uid price (OrderBook.match_with_asks b id qty (some price)).2
          hinv1 hfresh1 hidlast1 hprice hr _ hbook
      refine ⟨hinv3, ?_⟩
      rw [hmax3, hmin3]
      refine Nat.max_le.mpr ⟨hcross1, ?_⟩
      exact price_le_minask _ hinv1 price hprice (fun p q' hg hple =>
        hempty price rfl hr p q' hg hple)
    · have hbook : (OrderBook.limit b id uid Side.Bid qty price).1 =
          OrderBook.finalize_execution b
            (OrderBook.match_with_asks b id qty (some price)).1 := by
        simp only [OrderBook.limit]
        rw [if_neg hr]
      rw [hbook]
      exact ⟨hinv1, hcross1⟩
  | Ask =>
    obtain ⟨hinv1, hasks, hlast1, hshrink, hkeys, hempty⟩ :=
      matchfin_ask b id qty (some price) hinv
        (OrderBook.match_with_bids b id qty (some price)).1
        (OrderBook.match_with_bids b id qty (some price)).2 rfl
        (OrderBook.finalize_execution b
          (OrderBook.match_with_bids b id qty (some price)).1) rfl
    have hcross1 := cross_of_shrink_ask b _ hinv hinv1 hnc hasks hshrink
    by_cases hr : 0 < (OrderBook.match_with_bids b id qty (some price)).2
    · have hfresh1 : ∀ e ∈ (OrderBook.finalize_execution b
          (OrderBook.match_with_bids b id qty (some price)).1).arena, e.1 < id := by
        intro e he
        obtain ⟨e0, he0, hk0⟩ := hkeys e he
        rw [← hk0]
        exact hfresh e0 he0
      have hidlast1 : id ≤ (OrderBook.finalize_execution b
          (OrderBook.match_with_bids b id qty (some price)).1).last_processed_order_id := by
        rw [hlast1]
        exact hidlast
      have hbook : (OrderBook.limit b id uid Side.Ask qty price).1 =
          (fun b2 => if price < b2.min_ask then { b2 with min_ask := price } else b2)
          { (OrderBook.finalize_execution b
              (OrderBook.match_with_bids b id qty (some price)).1) with
            arena := OrderArena.insert (OrderBook.finalize_execution b
              (OrderBook.match_with_bids b id qty (some price)).1).arena id uid price
              (OrderBook.match_with_bids b id qty (some price)).2,
            asks := SideBook.entryUpdate (OrderBook.finalize_execution b
              (OrderBook.match_with_bids b id qty (some price)).1).asks price
              (fun q => q ++ [id]) } := by
        simp only [OrderBook.limit]
        rw [if_pos hr]
      obtain ⟨hinv3, hbids3, hmax3, hmin3, hlast3⟩ :=
        limitrest_ask _ id uid price (OrderBook.match_with_bids b id qty (some price)).2
          hinv1 hfresh1 hidlast1 hprice hr _ hbook
      refine ⟨hinv3, ?_⟩
      rw [hmax3, hmin3]
      refine Nat.le_min.mpr ⟨hcross1, ?_⟩
      exact maxbid_le_price _ hinv1 price (fun p q' hg hple =>
        hempty price rfl hr p q' hg hple)
    · have hbook : (OrderBook.limit b id uid Side.Ask qty price).1 =
          OrderBook.finalize_execution b
            (OrderBook.match_with_bids b id qty (some price)).1 := by
        simp only [OrderBook.limit]
        rw [if_neg hr]
      rw [hbook]
      exact ⟨hinv1, hcross1⟩

theorem fok_good (b : OrderBook) (id uid : Nat) (side : Side) (qty price : Nat)
    (hinv : BookInv b) (hnc : b.max_bid ≤ b.min_ask)
    (hfresh : ∀ e ∈ b.arena, e.1 < id)
    (hidlast : id ≤ b.last_processed_order_id)
    (hprice : price ≤ U64MAX) :
    BookInv (OrderBook.fok b id uid side qty price).1 ∧
      (OrderBook.fok b id uid side qty price).1.max_bid ≤
        (OrderBook.fok b id uid side qty price).1.min_ask := by
  simp only [OrderBook.fok]
  split
  · exact ⟨hinv, hnc⟩
  · exact limit_good b id uid side qty price hinv hnc hfresh hidlast hprice

theorem execute_good (b : OrderBook) (c : OrderType) (hinv : BookInv b)
    (hnc : b.max_bid ≤ b.min_ask) (hwf : wfCmd c) :
    BookInv (OrderBook.execute b c).2 ∧
      (OrderBook.execute b c).2.max_bid ≤ (OrderBook.execute b c).2.min_ask := by
  cases c with
  | Market id uid side qty =>
    simp only [OrderBook.execute, OrderType.get_id, OrderType.get_type]
    rw [if_pos (show ("market" : String) ≠ "cancel" from by decide)]
    by_cases hle : id ≤ b.last_processed_order_id
    · rw [if_pos hle]
      exact ⟨hinv, hnc⟩
    · rw [if_neg hle]
      have hgt : b.last_processed_order_id < id := Nat.not_le.mp hle
      have hinv' : BookInv { b with last_processed_order_id := id } :=
        ⟨hinv.asksSorted, hinv.bidsSorted, hinv.asksQSorted, hinv.bidsQSorted,
         hinv.asksDir, hinv.bidsDir, hinv.sidesDisjoint,
         fun e he => le_trans (hinv.arenaLe e he) (Nat.le_of_lt hgt),
         hinv.arenaNodup, hinv.minAskEq, hinv.maxBidEq, hinv.asksBounded, hinv.bidsBounded⟩
      apply executeTail_good
      rw [_execute_market_book]
      exact market_good _ id side qty hinv' hnc
  | Limit id uid side qty price =>
    obtain ⟨_, _, _, hpr⟩ := hwf
    simp only [OrderBook.execute, OrderType.get_id, OrderType.get_type]
    rw [if_pos (show ("limit" : String) ≠ "cancel" from by decide)]
    by_cases hle : id ≤ b.last_processed_order_id
    · rw [if_pos hle]
      exact ⟨hinv, hnc⟩
    · rw [if_neg hle]
      have hgt : b.last_processed_order_id < id := Nat.not_le.mp hle
      have hinv' : BookInv { b with last_processed_order_id := id } :=
        ⟨hinv.asksSorted, hinv.bidsSorted, hinv.asksQSorted, hinv.bidsQSorted,
         hinv.asksDir, hinv.bidsDir, hinv.sidesDisjoint,
         fun e he => le_trans (hinv.arenaLe e he) (Nat.le_of_lt hgt),
         hinv.arenaNodup, hinv.minAskEq, hinv.maxBidEq, hinv.asksBounded, hinv.bidsBounded⟩
      apply executeTail_good
      rw [_execute_limit_book]
      exact limit_good _ id uid side qty price hinv' hnc
        (fun e he => Nat.lt_of_le_of_lt (hinv.arenaLe e he) hgt) le_rfl hpr
  | IOC id uid side qty price =>
    simp only [OrderBook.execute, OrderType.get_id, OrderType.get_type]
    rw [if_pos (show ("ioc" : String) ≠ "cancel" from by decide)]
    by_cases hle : id ≤ b.last_processed_order_id
    · rw [if_pos hle]
      exact ⟨hinv, hnc⟩
    · rw [if_neg hle]
      have hgt : b.last_processed_order_id < id := Nat.not_le.mp hle
      have hinv' : BookInv { b with last_processed_order_id := id } :=
        ⟨hinv.asksSorted, hinv.bidsSorted, hinv.asksQSorted, hinv.bidsQSorted,
         hinv.asksDir, hinv.bidsDir, hinv.sidesDisjoint,
         fun e he => le_trans (hinv.arenaLe e he) (Nat.le_of_lt hgt),
         hinv.arenaNodup, hinv.minAskEq, hinv.maxBidEq, hinv.asksBounded, hinv.bidsBounded⟩
      apply executeTail_good
      rw [_execute_ioc_book]
      exact ioc_good _ id side qty price hinv' hnc
  | FOK id uid side qty price =>
    obtain ⟨_, _, _, hpr⟩ := hwf
    simp only [OrderBook.execute, OrderType.get_id, OrderType.get_type]
    rw [if_pos (show ("fok" : String) ≠ "cancel" from by decide)]
    by_cases hle : id ≤ b.last_processed_order_id
    · rw [if_pos hle]
      exact ⟨hinv, hnc⟩
    · rw [if_neg hle]
      have hgt : b.last_processed_order_id < id := Nat.not_le.mp hle
      have hinv' : BookInv { b with last_processed_order_id := id } :=
        ⟨hinv.asksSorted, hinv.bidsSorted, hinv.asksQSorted, hinv.bidsQSorted,
         hinv.asksDir, hinv.bidsDir, hinv.sidesDisjoint,
         fun e he => le_trans (hinv.arenaLe e he) (Nat.le_of_lt hgt),
         hinv.arenaNodup, hinv.minAskEq, hinv.maxBidEq, hinv.asksBounded, hinv.bidsBounded⟩
      apply executeTail_good
      rw [_execute_fok_book]
      exact fok_good _ id uid side qty price hinv' hnc
        (fun e he => Nat.lt_of_le_of_lt (hinv.arenaLe e he) hgt) le_rfl hpr
  | Cancel id =>
    simp only [OrderBook.execute, OrderType.get_id, OrderType.get_type]
    rw [if_neg (fun h : ("cancel" : String) ≠ "cancel" => h rfl)]
    apply executeTail_good
    rw [_execute_cancel_book]
    exact cancel_good b id hinv hnc

theorem new_good (ts : Bool) :
    BookInv (OrderBook.new ts) ∧
      (OrderBook.new ts).max_bid ≤ (OrderBook.new ts).min_ask := by
  refine ⟨⟨List.Pairwise.nil, List.Pairwise.nil, ?_, ?_, ?_, ?_, ?_, ?_,
    List.Pairwise.nil, rfl, rfl, ?_, ?_⟩, Nat.zero_le _⟩ <;>
    (intro pq hpq; cases hpq)

theorem applyCmds_good (cmds : List OrderType) (b : OrderBook) (hinv : BookInv b)
    (hnc : b.max_bid ≤ b.min_ask) (hwf : ∀ c ∈ cmds, wfCmd c) :
    BookInv (applyCmds cmds b) ∧
      (applyCmds cmds b).max_bid ≤ (applyCmds cmds b).min_ask := by
  induction cmds generalizing b with
  | nil => exact ⟨hinv, hnc⟩
  | cons c cs ih =>
    obtain ⟨h1, h2⟩ := execute_good b c hinv hnc (hwf c (List.mem_cons_self _ _))
    have hstep : applyCmds (c :: cs) b = applyCmds cs (OrderBook.execute b c).2 := by
      simp only [applyCmds, List.foldl_cons]
    rw [hstep]
    exact ih _ h1 h2 (fun c2 hc2 => hwf c2 (List.mem_cons_of_mem _ hc2))

/-- Counterexample to C2 as stated: the strict no-cross inequality
`max_bid < min_ask` fails on a reachable book.  A limit ask resting at
price 0 (a legal u64 price) sets `min_ask = 0`, which collides with the
empty-bid sentinel `max_bid = 0`. -/
theorem no_cross_counterexample :
    ¬ ((applyCmds [OrderType.Limit 1 1 Side.Ask 1 0] (OrderBook.new false)).max_bid <
       (applyCmds [OrderType.Limit 1 1 Side.Ask 1 0] (OrderBook.new false)).min_ask) := by
  decide

/-- C2 (amended): for every sequence of u64-ranged commands applied to a
fresh book, after each command `max_bid ≤ min_ask` holds (non-strict; the
strict version fails exactly when a resting price collides with an
empty-side sentinel, see the counterexample). -/
theorem no_cross_weak (ts : Bool) (cmds : List OrderType)
    (hwf : ∀ c ∈ cmds, wfCmd c) :
    (applyCmds cmds (OrderBook.new ts)).max_bid ≤
      (applyCmds cmds (OrderBook.new ts)).min_ask :=
  (applyCmds_good cmds (OrderBook.new ts) (new_good ts).1 (new_good ts).2 hwf).2

/-- Witness for C2: the amended theorem applied to a concrete crossing-free
command sequence (a resting bid at 100, then an ask at 200). -/
theorem no_cross_weak_witness :
    (∀ c ∈ [OrderType.Limit 1 7 Side.Bid 5 100, OrderType.Limit 2 7 Side.Ask 5 200],
      wfCmd c) ∧
    (applyCmds [OrderType.Limit 1 7 Side.Bid 5 100, OrderType.Limit 2 7 Side.Ask 5 200]
        (OrderBook.new false)).max_bid ≤
      (applyCmds [OrderType.Limit 1 7 Side.Bid 5 100, OrderType.Limit 2 7 Side.Ask 5 200]
        (OrderBook.new false)).min_ask := by
  have hw : ∀ c ∈ [OrderType.Limit 1 7 Side.Bid 5 100, OrderType.Limit 2 7 Side.Ask 5 200],
      wfCmd c := by
    intro c hc
    rcases List.mem_cons.mp hc with rfl | hc2
    · exact ⟨by decide, by decide, by decide, by decide⟩
    · rcases List.mem_cons.mp hc2 with rfl | hc3
      · exact ⟨by decide, by decide, by decide, by decide⟩
      · cases hc3
  exact ⟨hw, no_cross_weak false _ hw⟩

/-- C7: best-price cache correctness.  After any sequence of u64-ranged
commands on a fresh book, `min_ask` is a lower bound of every ask price
level with a non-empty queue and is either the sentinel `u64::MAX` or one
of those prices (i.e. it is their minimum), and symmetrically `max_bid` is
an upper bound of the non-empty bid levels and is either `0` or one of
their prices (their maximum).  Empty queues left at dead price keys do not
influence either value. -/
theorem best_price_cache_correct (ts : Bool) (cmds : List OrderType)
    (hwf : ∀ c ∈ cmds, wfCmd c) :
    ((∀ pq ∈ (applyCmds cmds (OrderBook.new ts)).asks, pq.2 ≠ [] →
        (applyCmds cmds (OrderBook.new ts)).min_ask ≤ pq.1) ∧
      ((applyCmds cmds (OrderBook.new ts)).min_ask = U64MAX ∨
        ∃ pq ∈ (applyCmds cmds (OrderBook.new ts)).asks, pq.2 ≠ [] ∧
          (applyCmds cmds (OrderBook.new ts)).min_ask = pq.1)) ∧
    ((∀ pq ∈ (applyCmds cmds (OrderBook.new ts)).bids, pq.2 ≠ [] →
        pq.1 ≤ (applyCmds cmds (OrderBook.new ts)).max_bid) ∧
      ((applyCmds cmds (OrderBook.new ts)).max_bid = 0 ∨
        ∃ pq ∈ (applyCmds cmds (OrderBook.new ts)).bids, pq.2 ≠ [] ∧
          (applyCmds cmds (OrderBook.new ts)).max_bid = pq.1)) := by
  obtain ⟨hinv, _⟩ :=
    applyCmds_good cmds (OrderBook.new ts) (new_good ts).1 (new_good ts).2 hwf
  refine ⟨⟨?_, ?_⟩, ?_, ?_⟩
  · intro pq hpq hne
    rw [hinv.minAskEq]
    obtain ⟨p, q⟩ := pq
    exact cma_le _ hinv.asksSorted p q hpq hne
  · rw [hinv.minAskEq]
    exact cma_mem _
  · intro pq hpq hne
    rw [hinv.maxBidEq]
    obtain ⟨p, q⟩ := pq
    exact cmb_ge _ hinv.bidsSorted p q hpq hne
  · rw [hinv.maxBidEq]
    exact cmb_mem _

/-- Witness for C7: the cache-correctness theorem applied to a concrete
sequence that rests a bid, rests an ask, and cancels the bid (leaving an
empty queue at a dead bid price key). -/
theorem best_price_cache_correct_witness :
    (∀ c ∈ [OrderType.Limit 1 7 Side.Bid 5 100, OrderType.Limit 2 7 Side.Ask 5 200,
        OrderType.Cancel 1], wfCmd c) ∧
    (((∀ pq ∈ (applyCmds [OrderType.Limit 1 7 Side.Bid 5 100,
          OrderType.Limit 2 7 Side.Ask 5 200, OrderType.Cancel 1]
          (OrderBook.new false)).asks, pq.2 ≠ [] →
        (applyCmds [OrderType.Limit 1 7 Side.Bid 5 100,
          OrderType.Limit 2 7 Side.Ask 5 200, OrderType.Cancel 1]
          (OrderBook.new false)).min_ask ≤ pq.1) ∧
      ((applyCmds [OrderType.Limit 1 7 Side.Bid 5 100,
          OrderType.Limit 2 7 Side.Ask 5 200, OrderType.Cancel 1]
          (OrderBook.new false)).min_ask = U64MAX ∨
        ∃ pq ∈ (applyCmds [OrderType.Limit 1 7 Side.Bid 5 100,
          OrderType.Limit 2 7 Side.Ask 5 200, OrderType.Cancel 1]
          (OrderBook.new false)).asks, pq.2 ≠ [] ∧
          (applyCmds [OrderType.Limit 1 7 Side.Bid 5 100,
            OrderType.Limit 2 7 Side.Ask 5 200, OrderType.Cancel 1]
            (OrderBook.new false)).min_ask = pq.1)) ∧
    ((∀ pq ∈ (applyCmds [OrderType.Limit 1 7 Side.Bid 5 100,
          OrderType.Limit 2 7 Side.Ask 5 200, OrderType.Cancel 1]
          (OrderBook.new false)).bids, pq.2 ≠ [] →
        pq.1 ≤ (applyCmds [OrderType.Limit 1 7 Side.Bid 5 100,
          OrderType.Limit 2 7 Side.Ask 5 200, OrderType.Cancel 1]
          (OrderBook.new false)).max_bid) ∧
      ((applyCmds [OrderType.Limit 1 7 Side.Bid 5 100,
          OrderType.Limit 2 7 Side.Ask 5 200, OrderType.Cancel 1]
          (OrderBook.new false)).max_bid = 0 ∨
        ∃ pq ∈ (applyCmds [OrderType.Limit 1 7 Side.Bid 5 100,
          OrderType.Limit 2 7 Side.Ask 5 200, OrderType.Cancel 1]
          (OrderBook.new false)).bids, pq.2 ≠ [] ∧
          (applyCmds [OrderType.Limit 1 7 Side.Bid 5 100,
            OrderType.Limit 2 7 Side.Ask 5 200, OrderType.Cancel 1]
            (OrderBook.new false)).max_bid = pq.1))) := by
  have hw : ∀ c ∈ [OrderType.Limit 1 7 Side.Bid 5 100, OrderType.Limit 2 7 Side.Ask 5 200,
      OrderType.Cancel 1], wfCmd c := by
    intro c hc
    rcases List.mem_cons.mp hc with rfl | hc2
    · exact ⟨by decide, by decide, by decide, by decide⟩
    · rcases List.mem_cons.mp hc2 with rfl | hc3
      · exact ⟨by decide, by decide, by decide, by decide⟩
      · rcases List.mem_cons.mp hc3 with rfl | hc4
        · exact (by decide : (1 : Nat) ≤ U64MAX)
        · cases hc4
  exact ⟨hw, best_price_cache_correct false _ hw⟩
